import Mathlib

/-!
Verification of the HL7 schema-driven codec (package hl7).

Shallow embedding conventions:
* Go strings are modelled as lists of characters (abbrev Str).  The Go code
  indexes bytes; all separator characters and segment codes in play are ASCII,
  where byte and character indexing coincide.
* Go maps are modelled as association lists in a fixed enumeration order;
  Go map lookup is List.lookup, Go map assignment is mapSet (replace in place
  or append).
* Fallible Go functions returning (T, error) are modelled as Except GoErr T.
* bufio.Scanner buffer limits are not modelled (lists are unbounded).
-/

namespace HL7

/-- Go string, as a list of characters. -/
abbrev Str := List Char

/-- Errors produced by the embedded code, mirroring the error values
constructed in errors.go, schema_decode.go, schema_marshal.go and the
timestamp parser. -/
inductive ErrKind where
  | invalidInt
  | invalidFloat
  | invalidBool
  | timestampFormat
deriving DecidableEq, Repr

inductive GoErr where
  /-- ErrSegmentInvalid wrapped with the offending (empty) segment token. -/
  | segmentInvalid (segment : Str)
  /-- FieldError of errors.go: segment name, 1-based field index, component
  index (0 when not applicable), the raw value, and the wrapped cause. -/
  | fieldErr (segment : Str) (field : Int) (component : Int) (value : Str) (kind : ErrKind)
  /-- Error of Timestamp.Unmarshal, carrying the original text. -/
  | timestampUnrecognized (text : Str)
  /-- Type-assertion error raised by marshalObjectFromMap / marshalArrayFromMap. -/
  | marshalTypeMismatch
  /-- Wrapping applied by marshalSegmentFromMap (hl7: seg.idx: err). -/
  | marshalFieldErr (segment : Str) (field : Int) (inner : GoErr)
  /-- Stands for a Go runtime panic (unchecked type assertion or nil
  dereference); unreachable on validated schemas. -/
  | goPanic
deriving DecidableEq, Repr

/-! ### Tokenizer (parseMessage of the reflection-free scanner file) -/

/-- bytes.ReplaceAll(data, CRLF, LF) instantiated at the two-byte pattern:
replaces every carriage-return/linefeed pair by a single linefeed, scanning
left to right without overlap. -/
def replaceCRLF : Str → Str
  | [] => []
  | [c] => [c]
  | c1 :: c2 :: rest =>
    if c1 = '\r' ∧ c2 = '\n' then '\n' :: replaceCRLF rest
    else c1 :: replaceCRLF (c2 :: rest)

/-- bytes.ReplaceAll(data, CR, LF) instantiated at the one-byte pattern:
a single-character replacement is an elementwise map. -/
def crToLF (s : Str) : Str :=
  s.map fun c => if c = '\r' then '\n' else c

/-- The two normalization passes of parseMessage, in source order. -/
def normalizeNewlines (d : Str) : Str :=
  crToLF (replaceCRLF d)

/-- bufio.Scanner with ScanLines: splits on LF; a trailing final empty token
is not produced (a trailing newline terminates the last line rather than
opening an empty one).  ScanLines would also strip one trailing CR per line,
which is a no-op here because parseMessage normalizes every CR away first. -/
def scanLines (s : Str) : List Str :=
  let l := s.splitOn '\n'
  if l.getLast? = some [] then l.dropLast else l

/-- Tokenizer output record (struct segmentLine). -/
structure SegmentLine where
  name : Str
  fields : List Str
  fieldSeparator : Str
  encodingCharacters : Str
deriving DecidableEq, Repr

/-- Loop body of parseMessage: scans lines, threading the active field
separator (a single character in Go, a one-character string stored in the
records) and the active encoding characters. -/
def parseLines (fs : Char) (ec : Str) : List Str → Except GoErr (List SegmentLine)
  | [] => .ok []
  | line :: rest =>
    -- if strings.HasPrefix(line, "MSH") && len(line) > 3 { fieldSeparator = string(line[3]) }
    let fs' := if "MSH".data.isPrefixOf line ∧ line.length > 3 then line.getD 3 '|' else fs
    let parts := line.splitOn fs'
    match parts with
    | [] => parseLines fs' ec rest  -- unreachable: splitOn never returns []
    | p0 :: _ =>
      -- if strings.HasPrefix(parts[0], "MSH") && len(parts) > 1 { encodingCharacters = parts[1] }
      let ec' := if "MSH".data.isPrefixOf p0 ∧ parts.length > 1 then parts.getD 1 [] else ec
      if p0 = [] then
        .error (.segmentInvalid p0)
      else do
        let tail ← parseLines fs' ec' rest
        .ok ({ name := p0, fields := parts, fieldSeparator := [fs'],
               encodingCharacters := ec' } :: tail)

/-- parseMessage: normalizes line endings, scans lines, and returns the
segment records with the separators that were in effect for each line. -/
def parseMessage (data : Str) : Except GoErr (List SegmentLine) :=
  parseLines '|' "^~\\&".data (scanLines (normalizeNewlines data))

/-! ### Timestamp coercion (type Timestamp, parser file) -/

/-- Calendar timestamp, modelling the wall-clock reading of a Go time.Time:
the displayed date/time fields together with nanoseconds and the zone offset
in seconds east of UTC. -/
structure GoTime where
  year : Int
  month : Nat
  day : Nat
  hour : Nat
  minute : Nat
  second : Nat
  nsec : Nat
  offset : Int
deriving DecidableEq, Repr

/-- The Go zero time.Time: January 1 of year 1, 00:00:00 UTC. -/
def GoTime.zero : GoTime := ⟨1, 1, 1, 0, 0, 0, 0, 0⟩

/-- time.Time.IsZero. -/
def GoTime.isZero (t : GoTime) : Bool := t = GoTime.zero

/-- Leap-year rule of the proleptic Gregorian calendar (time.isLeap). -/
def isLeapYear (y : Int) : Bool := y % 4 = 0 ∧ (y % 100 ≠ 0 ∨ y % 400 = 0)

/-- Number of days of a month (time.daysIn); month is 1-based. -/
def daysInMonth (y : Int) (m : Nat) : Nat :=
  if m = 2 then (if isLeapYear y then 29 else 28)
  else if m = 4 ∨ m = 6 ∨ m = 9 ∨ m = 11 then 30
  else 31

/-- Fixed-width run of decimal digits: w digits are consumed and decoded,
anything shorter or non-numeric fails (getnum with fixed width). -/
def parseFixedNat (w : Nat) (s : Str) : Option (Nat × Str) :=
  let pre := s.take w
  if pre.length = w ∧ pre.all Char.isDigit then
    some (pre.foldl (fun a c => a * 10 + (c.toNat - 48)) 0, s.drop w)
  else none

/-- One element of a reference layout, as time.Parse chunks the layout
strings of timestampLayouts.  The plus-sign timezone layouts contain no
recognized chunk, so time.Parse treats them as literal text. -/
inductive TElem where
  | year4
  | month2
  | day2
  | hour2
  | minute2
  | second2
  /-- Chunk ".0000": a dot followed by exactly four fractional-second digits. -/
  | frac4
  /-- Chunk "-0700": a sign character then two hour and two minute digits.
  The offset range checks of time.Parse are approximated as hours at most 23
  and minutes at most 59; no theorem below exercises timezone parsing. -/
  | tzNum
  | lit (c : Char)
deriving DecidableEq, Repr

/-- Matches one layout element against the input, updating the fields read
so far.  Fields absent from a layout keep the Go defaults (year 1, month 1,
day 1, zero clock, UTC). -/
def parseTElem (t : GoTime) (s : Str) : TElem → Option (GoTime × Str)
  | .year4 => (parseFixedNat 4 s).map fun (n, r) => ({ t with year := n }, r)
  | .month2 => (parseFixedNat 2 s).map fun (n, r) => ({ t with month := n }, r)
  | .day2 => (parseFixedNat 2 s).map fun (n, r) => ({ t with day := n }, r)
  | .hour2 => (parseFixedNat 2 s).map fun (n, r) => ({ t with hour := n }, r)
  | .minute2 => (parseFixedNat 2 s).map fun (n, r) => ({ t with minute := n }, r)
  | .second2 => (parseFixedNat 2 s).map fun (n, r) => ({ t with second := n }, r)
  | .frac4 =>
    match s with
    | '.' :: rest =>
      (parseFixedNat 4 rest).map fun (n, r) => ({ t with nsec := n * 100000 }, r)
    | _ => none
  | .tzNum =>
    match s with
    | c :: rest =>
      if c = '+' ∨ c = '-' then
        match parseFixedNat 2 rest with
        | some (hh, r1) =>
          match parseFixedNat 2 r1 with
          | some (mm, r2) =>
            if hh ≤ 23 ∧ mm ≤ 59 then
              let off : Int := (hh * 3600 + mm * 60 : Nat)
              some ({ t with offset := if c = '-' then -off else off }, r2)
            else none
          | none => none
        | none => none
      else none
    | [] => none
  | .lit c =>
    match s with
    | c' :: rest => if c' = c then some (t, rest) else none
    | [] => none

/-- Runs a whole layout over the input. -/
def parseTElems (t : GoTime) (s : Str) : List TElem → Option (GoTime × Str)
  | [] => some (t, s)
  | e :: rest =>
    match parseTElem t s e with
    | some (t', s') => parseTElems t' s' rest
    | none => none

/-- Range validation applied by time.Parse to the assembled date. -/
def validClock (t : GoTime) : Bool :=
  1 ≤ t.month ∧ t.month ≤ 12 ∧ 1 ≤ t.day ∧ t.day ≤ daysInMonth t.year t.month ∧
    t.hour ≤ 23 ∧ t.minute ≤ 59 ∧ t.second ≤ 59

/-- time.Parse for one layout: the layout must consume the entire input and
the resulting date must be in range. -/
def timeParse (layout : List TElem) (s : Str) : Option GoTime :=
  match parseTElems GoTime.zero s layout with
  | some (t, []) => if validClock t then some t else none
  | _ => none

/-- timestampLayouts, most to least specific, as element lists. -/
def timestampLayouts : List (List TElem) :=
  [ [.year4, .month2, .day2, .hour2, .minute2, .second2, .frac4, .tzNum],
    [.year4, .month2, .day2, .hour2, .minute2, .second2, .frac4,
      .lit '+', .lit '0', .lit '7', .lit '0', .lit '0'],
    [.year4, .month2, .day2, .hour2, .minute2, .second2, .frac4],
    [.year4, .month2, .day2, .hour2, .minute2, .second2, .tzNum],
    [.year4, .month2, .day2, .hour2, .minute2, .second2,
      .lit '+', .lit '0', .lit '7', .lit '0', .lit '0'],
    [.year4, .month2, .day2, .hour2, .minute2, .second2],
    [.year4, .month2, .day2, .hour2, .minute2],
    [.year4, .month2, .day2, .hour2],
    [.year4, .month2, .day2],
    [.year4, .month2],
    [.year4] ]

/-- Tries layouts in order, keeping the first that parses. -/
def tryLayouts (s : Str) : List (List TElem) → Option GoTime
  | [] => none
  | l :: rest =>
    match timeParse l s with
    | some t => some t
    | none => tryLayouts s rest

/-- Timestamp.Unmarshal: empty input yields the zero time without error;
otherwise the first matching layout wins, and no match is an error carrying
the original text. -/
def tsUnmarshal (s : Str) : Except GoErr GoTime :=
  if s = [] then .ok GoTime.zero
  else
    match tryLayouts s timestampLayouts with
    | some t => .ok t
    | none => .error (.timestampUnrecognized s)

/-- Decimal digit characters of a natural number, most significant first
(strconv decimal formatting). -/
def natDecimal (n : Nat) : Str :=
  if n = 0 then ['0']
  else (Nat.digits 10 n).reverse.map Nat.digitChar

/-- Zero-padded fixed-width decimal, as Go layout chunks render numbers. -/
def padNat (w n : Nat) : Str :=
  let ds := natDecimal n
  List.replicate (w - ds.length) '0' ++ ds

/-- Rendering of the compact 14-character layout (Format("20060102150405"));
years coming out of the codec are in 0..9999, which Go pads to four digits. -/
def tsFormatCompact (t : GoTime) : Str :=
  padNat 4 t.year.toNat ++ padNat 2 t.month ++ padNat 2 t.day ++
    padNat 2 t.hour ++ padNat 2 t.minute ++ padNat 2 t.second

/-- Timestamp.String: the compact layout, or empty text for the zero time. -/
def tsString (t : GoTime) : Str :=
  if t.isZero then [] else tsFormatCompact t

/-! ### Scalar text coercion helpers -/

/-- Digit-run part of strconv.ParseInt: one or more decimal digits under a
sign, with the int64 range check (the source's local value variable is
inlined). -/
def parseGoIntDigits (sign : Int) (digits : Str) : Option Int :=
  if digits = [] ∨ ¬ digits.all Char.isDigit then none
  else if -(2 ^ 63) ≤ sign * (digits.foldl (fun a c => a * 10 + (c.toNat - 48)) 0 : Nat) ∧
      sign * ((digits.foldl (fun a c => a * 10 + (c.toNat - 48)) 0 : Nat) : Int) ≤
        2 ^ 63 - 1 then
    some (sign * (digits.foldl (fun a c => a * 10 + (c.toNat - 48)) 0 : Nat))
  else none

/-- strconv.ParseInt(raw, 10, 64): an optional sign, one or more decimal
digits, and an int64 range check. -/
def parseGoInt (s : Str) : Option Int :=
  match s with
  | '+' :: rest => parseGoIntDigits 1 rest
  | '-' :: rest => parseGoIntDigits (-1) rest
  | _ => parseGoIntDigits 1 s

/-- strconv.FormatInt(v, 10). -/
def formatGoInt (v : Int) : Str :=
  if v < 0 then '-' :: natDecimal (-v).toNat else natDecimal v.toNat

/-- Syntactic acceptance of strconv.ParseFloat, restricted to the plain
decimal forms.  IEEE-754 value semantics are outside the shallow embedding;
float-typed fields are modelled as carrying their checked raw text and no
theorem below depends on float coercion. -/
def parseGoFloatSyntax (s : Str) : Bool :=
  let body :=
    match s with
    | '+' :: rest => rest
    | '-' :: rest => rest
    | _ => s
  match body.splitOn '.' with
  | [intPart] => ¬ intPart.isEmpty ∧ intPart.all Char.isDigit
  | [intPart, fracPart] =>
    (¬ intPart.isEmpty ∨ ¬ fracPart.isEmpty) ∧
      intPart.all Char.isDigit ∧ fracPart.all Char.isDigit
  | _ => false

/-- strings.ToUpper, on the ASCII range used by the bool token set. -/
def toUpperGo (s : Str) : Str :=
  s.map fun c => if 'a' ≤ c ∧ c ≤ 'z' then Char.ofNat (c.toNat - 32) else c

/-! ### Schema model (schema.go) -/

/-- SchemaType; tempty is the Go zero value "" (validation rewrites it to
string, and both codec switches send it to their default branch). -/
inductive SchemaType where
  | tstring
  | tint
  | tfloat
  | tbool
  | ttimestamp
  | tobject
  | tarray
  | tempty
deriving DecidableEq, Repr

/-- FieldSchema: HL7 index, type tag, components for objects, items for
arrays.  Field and component names are the association-list keys. -/
inductive FieldSchema where
  | mk (Index : Int) (typ : SchemaType) (Components : List (String × FieldSchema))
      (Items : Option FieldSchema)

def FieldSchema.Index : FieldSchema → Int
  | .mk i _ _ _ => i

def FieldSchema.typ : FieldSchema → SchemaType
  | .mk _ t _ _ => t

def FieldSchema.Components : FieldSchema → List (String × FieldSchema)
  | .mk _ _ c _ => c

def FieldSchema.Items : FieldSchema → Option FieldSchema
  | .mk _ _ _ i => i

/-- SegmentSchema: named fields plus the repeat flag. -/
structure SegmentSchema where
  Fields : List (String × FieldSchema)
  Repeat : Bool

/-- MessageSchema: segment name to segment schema. -/
structure MessageSchema where
  Segments : List (Str × SegmentSchema)

/-! ### Dynamic value tree -/

/-- Go any values appearing in the decoded tree: scalars, nested field maps
and repetition arrays, plus the untyped nil (vnil) that an all-empty object
array item produces. -/
inductive GoVal where
  | vnil
  | vstr (s : Str)
  | vint (n : Int)
  /-- Float fields carry their raw text; see parseGoFloatSyntax. -/
  | vfloat (raw : Str)
  | vbool (b : Bool)
  | vtime (t : GoTime)
  | vmap (m : List (String × GoVal))
  | varr (a : List GoVal)

/-- Go map assignment on an association list: replaces the value in place
when the key exists, appends otherwise. -/
def mapSet {κ : Type} [BEq κ] (m : List (κ × GoVal)) (k : κ) (v : GoVal) :
    List (κ × GoVal) :=
  if (m.lookup k).isSome then m.map fun p => if p.1 == k then (k, v) else p
  else m ++ [(k, v)]

/-! ### Decode engine (schema_decode.go) -/

/-- strings.Split with a separator string.  Every separator reaching this
embedding is a single character (the detected field separator and the first
two encoding characters); the fallback arm is never exercised. -/
def splitOnStr (sep s : Str) : List Str :=
  match sep with
  | [c] => s.splitOn c
  | _ => [s]

/-- coerceValue: scalar coercion per schema type; the default arm
(string, object, array, unknown and empty tags) passes the text through. -/
def coerceValue (segName : Str) (fieldIdx compIdx : Int) (raw : Str) :
    SchemaType → Except GoErr GoVal
  | .tint =>
    match parseGoInt raw with
    | some v => .ok (.vint v)
    | none => .error (.fieldErr segName fieldIdx compIdx raw .invalidInt)
  | .tfloat =>
    if parseGoFloatSyntax raw then .ok (.vfloat raw)
    else .error (.fieldErr segName fieldIdx compIdx raw .invalidFloat)
  | .tbool =>
    let u := toUpperGo raw
    if u = "Y".data ∨ u = "TRUE".data ∨ u = "1".data then .ok (.vbool true)
    else if u = "N".data ∨ u = "FALSE".data ∨ u = "0".data then .ok (.vbool false)
    else .error (.fieldErr segName fieldIdx compIdx raw .invalidBool)
  | .ttimestamp =>
    match tsUnmarshal raw with
    | .ok t => .ok (.vtime t)
    | .error _ => .error (.fieldErr segName fieldIdx compIdx raw .timestampFormat)
  | _ => .ok (.vstr raw)

/-- Component loop of decodeObjectField: resolves each declared component at
its 1-based position, skipping out-of-range and empty positions. -/
def decodeObjectComponents (segName : Str) (fieldIdx : Int) (components : List Str) :
    List (String × FieldSchema) → Except GoErr (List (String × GoVal))
  | [] => .ok []
  | (compName, compSchema) :: rest =>
    let idx := compSchema.Index
    let arrIdx := idx - 1
    if arrIdx < 0 ∨ arrIdx ≥ (components.length : Int) then
      decodeObjectComponents segName fieldIdx components rest
    else
      let compValue := components.getD arrIdx.toNat []
      if compValue = [] then decodeObjectComponents segName fieldIdx components rest
      else do
        let v ← coerceValue segName fieldIdx idx compValue compSchema.typ
        let tail ← decodeObjectComponents segName fieldIdx components rest
        .ok ((compName, v) :: tail)

/-- decodeObjectField: splits on the component separator and resolves the
declared components; an object with no resolved component yields Go nil
(returned here as none), not an empty map. -/
def decodeObjectField (segName : Str) (fieldIdx : Int) (raw : Str) (schema : FieldSchema)
    (cs : Str) : Except GoErr (Option GoVal) := do
  let components := splitOnStr cs raw
  let result ← decodeObjectComponents segName fieldIdx components schema.Components
  if result.isEmpty then .ok none else .ok (some (.vmap result))

/-- Element loop of decodeArrayField: empty repetitions are skipped; object
items that decode to Go nil are appended as nil placeholders (the source
appends the possibly-nil value unconditionally).  Dereferencing absent Items
on a non-empty element is the Go nil-pointer panic. -/
def decodeArrayItems (segName : Str) (fieldIdx : Int) (items : Option FieldSchema)
    (cs : Str) : List Str → Except GoErr (List GoVal)
  | [] => .ok []
  | rep :: rest =>
    if rep = [] then decodeArrayItems segName fieldIdx items cs rest
    else
      match items with
      | none => .error .goPanic
      | some itemSchema =>
        match itemSchema.typ with
        | .tobject => do
          let val ← decodeObjectField segName fieldIdx rep itemSchema cs
          let tail ← decodeArrayItems segName fieldIdx items cs rest
          .ok ((match val with | some v => v | none => .vnil) :: tail)
        | t => do
          let v ← coerceValue segName fieldIdx 0 rep t
          let tail ← decodeArrayItems segName fieldIdx items cs rest
          .ok (v :: tail)

/-- decodeArrayField: splits on the repetition separator when one is
configured, otherwise treats the whole text as a single element. -/
def decodeArrayField (segName : Str) (fieldIdx : Int) (raw : Str) (schema : FieldSchema)
    (cs rs : Str) : Except GoErr GoVal := do
  let reps := if rs ≠ [] then splitOnStr rs raw else [raw]
  let items ← decodeArrayItems segName fieldIdx schema.Items cs reps
  .ok (.varr items)

/-- decodeFieldWithSchema: dispatch on the schema type. -/
def decodeFieldWithSchema (segName : Str) (fieldIdx : Int) (raw : Str) (schema : FieldSchema)
    (cs rs : Str) : Except GoErr (Option GoVal) :=
  match schema.typ with
  | .tarray => (some ·) <$> decodeArrayField segName fieldIdx raw schema cs rs
  | .tobject => decodeObjectField segName fieldIdx raw schema cs
  | t => (some ·) <$> coerceValue segName fieldIdx 0 raw t

/-- Field loop of decodeSegmentWithSchema: resolves each declared field at
its position (header positions are shifted by one because the separator
itself occupies position 1), skips out-of-range and empty values, and omits
fields whose decode returned Go nil. -/
def decodeSegmentFields (seg : SegmentLine) (cs rs : Str) :
    List (String × FieldSchema) → Except GoErr (List (String × GoVal))
  | [] => .ok []
  | (fieldName, fieldSchema) :: rest =>
    let idx := fieldSchema.Index
    let partsIdx := if seg.name = "MSH".data then idx - 1 else idx
    if partsIdx < 0 ∨ partsIdx ≥ (seg.fields.length : Int) then
      decodeSegmentFields seg cs rs rest
    else
      let rawValue := seg.fields.getD partsIdx.toNat []
      let rawValue := if seg.name = "MSH".data ∧ idx = 1 then seg.fieldSeparator else rawValue
      if rawValue = [] then decodeSegmentFields seg cs rs rest
      else do
        let val ← decodeFieldWithSchema seg.name idx rawValue fieldSchema cs rs
        let tail ← decodeSegmentFields seg cs rs rest
        match val with
        | some v => .ok ((fieldName, v) :: tail)
        | none => .ok tail

/-- decodeSegmentWithSchema: the component separator is the first encoding
character (default the caret), the repetition separator the second (default
none), then the fields are decoded. -/
def decodeSegmentWithSchema (seg : SegmentLine) (schema : SegmentSchema) :
    Except GoErr (List (String × GoVal)) :=
  let cs := if seg.encodingCharacters.length > 0 then [seg.encodingCharacters.headD ' ']
    else "^".data
  let rs := if seg.encodingCharacters.length > 1 then [seg.encodingCharacters.getD 1 ' ']
    else []
  decodeSegmentFields seg cs rs schema.Fields

/-- Segment loop of UnmarshalWithSchema: unknown segments are skipped,
empty decodes are skipped, repeating segments accumulate a list (appending
to a non-list value would be the Go type-assertion panic). -/
def decodeSegments (schema : MessageSchema) :
    List SegmentLine → List (Str × GoVal) → Except GoErr (List (Str × GoVal))
  | [], acc => .ok acc
  | seg :: rest, acc =>
    match schema.Segments.lookup seg.name with
    | none => decodeSegments schema rest acc
    | some segSchema => do
      let segMap ← decodeSegmentWithSchema seg segSchema
      if segMap.isEmpty then decodeSegments schema rest acc
      else if segSchema.Repeat then
        match acc.lookup seg.name with
        | some (.varr arr) =>
          decodeSegments schema rest (mapSet acc seg.name (.varr (arr ++ [.vmap segMap])))
        | some _ => .error .goPanic
        | none => decodeSegments schema rest (acc ++ [(seg.name, .varr [.vmap segMap])])
      else
        decodeSegments schema rest (mapSet acc seg.name (.vmap segMap))

/-- UnmarshalWithSchema: tokenize, then decode every known segment. -/
def UnmarshalWithSchema (data : Str) (schema : MessageSchema) :
    Except GoErr (List (Str × GoVal)) := do
  let segments ← parseMessage data
  decodeSegments schema segments []

/-! ### Encode engine (schema_marshal.go, marshal.go options) -/

/-- MarshalOptions of marshal.go; separators are single bytes, the line
ending a string. -/
structure MarshalOptions where
  FieldSeparator : Char
  ComponentSeparator : Char
  RepetitionSeparator : Char
  EscapeCharacter : Char
  SubcomponentSeparator : Char
  LineEnding : Str
deriving DecidableEq, Repr

/-- DefaultMarshalOptions: pipe, caret, tilde, backslash, ampersand,
carriage-return line ending. -/
def DefaultMarshalOptions : MarshalOptions :=
  { FieldSeparator := '|', ComponentSeparator := '^', RepetitionSeparator := '~',
    EscapeCharacter := '\\', SubcomponentSeparator := '&', LineEnding := ['\r'] }

/-- fmt.Sprintf %v fallback of the scalar marshaller.  The string, integer,
float and bool renderings are exact; the renderings of times, maps, slices
and nil approximate the Go default formats and are unreachable through the
schema codec on type-consistent trees. -/
def goSprintfV : GoVal → Str
  | .vstr s => s
  | .vint n => formatGoInt n
  | .vfloat raw => raw
  | .vbool b => if b then "true".data else "false".data
  | .vtime t => tsFormatCompact t
  | .vmap _ => "map[]".data
  | .varr _ => "[]".data
  | .vnil => "<nil>".data

/-- marshalScalarValue: renders a scalar per the schema type; mismatched
shapes fall back to the Sprintf %v default (the source never errors here). -/
def marshalScalarValue (val : GoVal) : SchemaType → Str
  | .tint =>
    match val with
    | .vint n => formatGoInt n
    | v => goSprintfV v
  | .tfloat =>
    match val with
    | .vfloat raw => raw
    | v => goSprintfV v
  | .tbool =>
    match val with
    | .vbool b => if b then "Y".data else "N".data
    | v => goSprintfV v
  | .ttimestamp =>
    match val with
    | .vtime t => if t.isZero then [] else tsFormatCompact t
    | .vstr s => s
    | v => goSprintfV v
  | .tstring =>
    match val with
    | .vstr s => s
    | v => goSprintfV v
  | _ => goSprintfV val

/-- Largest declared component index (the max loop of marshalObjectFromMap). -/
def maxCompIndex (comps : List (String × FieldSchema)) : Int :=
  comps.foldl (fun m c => if c.2.Index > m then c.2.Index else m) 0

/-- Largest declared field index (the max loop of marshalSegmentFromMap). -/
def maxFieldIndex (flds : List (String × FieldSchema)) : Int :=
  flds.foldl (fun m f => if f.2.Index > m then f.2.Index else m) 0

/-- indexToName lookup: the last enumerated field with the given index wins,
as later Go map writes overwrite earlier ones. -/
def indexToName (flds : List (String × FieldSchema)) (idx : Int) : Option String :=
  (flds.reverse.find? fun f => f.2.Index == idx).map (·.1)

/-- Strips trailing empty strings from the slot list (the trim loop of
marshalObjectFromMap). -/
def trimTrailingEmpty : List Str → List Str
  | [] => []
  | s :: rest =>
    match trimTrailingEmpty rest with
    | [] => if s = [] then [] else [s]
    | r => s :: r

/-- Slot-filling loop of marshalObjectFromMap: writes each present
component into its zero-based slot; a non-positive index is the Go
index-out-of-range panic. -/
def objParts (m : List (String × GoVal)) :
    List (String × FieldSchema) → List Str → Except GoErr (List Str)
  | [], parts => .ok parts
  | (compName, compSchema) :: rest, parts =>
    match m.lookup compName with
    | none => objParts m rest parts
    | some compVal =>
      let str := marshalScalarValue compVal compSchema.typ
      if 1 ≤ compSchema.Index then
        objParts m rest (parts.set (compSchema.Index - 1).toNat str)
      else .error .goPanic

/-- marshalObjectFromMap: declared components rendered into a slot array
sized to the highest declared position, trailing empty slots stripped, and
the rest joined with the component separator. -/
def marshalObjectFromMap (val : GoVal) (schema : FieldSchema) (cs : Str) :
    Except GoErr Str :=
  match val with
  | .vmap m => do
    let maxIdx := maxCompIndex schema.Components
    let parts ← objParts m schema.Components (List.replicate maxIdx.toNat [])
    .ok (List.intercalate cs (trimTrailingEmpty parts))
  | _ => .error .marshalTypeMismatch

/-- Element loop of marshalArrayFromMap; dereferencing absent Items on a
non-empty array is the Go nil-pointer panic. -/
def marshalArrayItems (items : Option FieldSchema) (cs : Str) :
    List GoVal → Except GoErr (List Str)
  | [] => .ok []
  | item :: rest =>
    match items with
    | none => .error .goPanic
    | some itemSchema =>
      match itemSchema.typ with
      | .tobject => do
        let s ← marshalObjectFromMap item itemSchema cs
        let tail ← marshalArrayItems items cs rest
        .ok (s :: tail)
      | t => do
        let tail ← marshalArrayItems items cs rest
        .ok (marshalScalarValue item t :: tail)

/-- marshalArrayFromMap: elements rendered and joined with the repetition
separator; an empty array yields an empty field. -/
def marshalArrayFromMap (val : GoVal) (schema : FieldSchema) (cs rs : Str) :
    Except GoErr Str :=
  match val with
  | .varr arr => (List.intercalate rs ·) <$> marshalArrayItems schema.Items cs arr
  | _ => .error .marshalTypeMismatch

/-- marshalValueFromMap: Go nil renders as empty text, otherwise dispatch
on the schema type. -/
def marshalValueFromMap (val : GoVal) (schema : FieldSchema) (cs rs : Str) :
    Except GoErr Str :=
  match val with
  | .vnil => .ok []
  | _ =>
    match schema.typ with
    | .tobject => marshalObjectFromMap val schema cs
    | .tarray => marshalArrayFromMap val schema cs rs
    | t => .ok (marshalScalarValue val t)

/-- One position of the field loop of marshalSegmentFromMap: the separator
prefix and the rendered content for the given 1-based index. -/
def marshalSegmentSlot (name : Str) (data : List (String × GoVal))
    (schema : SegmentSchema) (fs cs rs ec : Str) (opts : MarshalOptions) (idx : Int) :
    Except GoErr Str :=
  -- The separator variable of the source is the empty string exactly in the
  -- header position 2 branch and the field separator in all later branches,
  -- so it is inlined accordingly.
  if name = "MSH".data ∧ idx = 1 then .ok [opts.FieldSeparator]
  else if name = "MSH".data ∧ idx = 2 then .ok ([] ++ ec)
  else
    match indexToName schema.Fields idx with
    | none => .ok fs
    | some fieldName =>
      let fieldSchema := (schema.Fields.lookup fieldName).getD (.mk 0 .tempty [] none)
      match data.lookup fieldName with
      | none => .ok fs
      | some val =>
        match marshalValueFromMap val fieldSchema cs rs with
        | .ok str => .ok (fs ++ str)
        | .error e => .error (.marshalFieldErr name idx e)

/-- Field loop of marshalSegmentFromMap over the index range. -/
def marshalSegmentSlots (name : Str) (data : List (String × GoVal))
    (schema : SegmentSchema) (fs cs rs ec : Str) (opts : MarshalOptions) :
    List Int → Except GoErr Str
  | [] => .ok []
  | idx :: rest => do
    let chunk ← marshalSegmentSlot name data schema fs cs rs ec opts idx
    let tail ← marshalSegmentSlots name data schema fs cs rs ec opts rest
    .ok (chunk ++ tail)

/-- marshalSegmentFromMap: the segment name followed by positions 1 up to
the largest declared index; header positions 1 and 2 are the separator and
encoding characters from the options. -/
def marshalSegmentFromMap (name : Str) (data : List (String × GoVal))
    (schema : SegmentSchema) (fs cs rs ec : Str) (opts : MarshalOptions) :
    Except GoErr Str := do
  let maxIdx := maxFieldIndex schema.Fields
  let body ← marshalSegmentSlots name data schema fs cs rs ec opts
    ((List.range maxIdx.toNat).map fun i : Nat => (i : Int) + 1)
  .ok (name ++ body)

/-- Inner loop for a repeating segment: one line per list element;
non-map elements fail the Go type assertion and are skipped. -/
def marshalRepeatLines (segName : Str) (segSchema : SegmentSchema)
    (fs cs rs ec : Str) (opts : MarshalOptions) :
    List GoVal → Bool → Except GoErr (Str × Bool)
  | [], first => .ok ([], first)
  | item :: rest, first =>
    match item with
    | .vmap m => do
      let line ← marshalSegmentFromMap segName m segSchema fs cs rs ec opts
      let (tail, first') ← marshalRepeatLines segName segSchema fs cs rs ec opts rest false
      .ok ((if first then [] else opts.LineEnding) ++ line ++ tail, first')
    | _ => marshalRepeatLines segName segSchema fs cs rs ec opts rest first

/-- Segment loop of MarshalWithSchemaOptions, over the chosen name order,
threading the first-line flag. -/
def marshalSegments (v : List (Str × GoVal)) (schema : MessageSchema)
    (fs cs rs ec : Str) (opts : MarshalOptions) :
    List Str → Bool → Except GoErr Str
  | [], _ => .ok []
  | segName :: rest, first =>
    match v.lookup segName with
    | none => marshalSegments v schema fs cs rs ec opts rest first
    | some segData =>
      let segSchema := (schema.Segments.lookup segName).getD ⟨[], false⟩
      if segSchema.Repeat then
        match segData with
        | .varr arr => do
          let (chunk, first') ←
            marshalRepeatLines segName segSchema fs cs rs ec opts arr first
          let tail ← marshalSegments v schema fs cs rs ec opts rest first'
          .ok (chunk ++ tail)
        | _ => marshalSegments v schema fs cs rs ec opts rest first
      else
        match segData with
        | .vmap m => do
          let line ← marshalSegmentFromMap segName m segSchema fs cs rs ec opts
          let tail ← marshalSegments v schema fs cs rs ec opts rest false
          .ok ((if first then [] else opts.LineEnding) ++ line ++ tail)
        | _ => marshalSegments v schema fs cs rs ec opts rest first

/-- Segment emission order of MarshalWithSchemaOptions: the schema keys in
enumeration order with the header segment moved to the front.  The Go
source ranges over a map here, whose enumeration order is unspecified; the
association list fixes one order per schema representation. -/
def marshalSegmentOrder (schema : MessageSchema) : List Str :=
  let names := (schema.Segments.map (·.1)).filter (· ≠ "MSH".data)
  if (schema.Segments.map (·.1)).contains "MSH".data then "MSH".data :: names
  else names

/-- MarshalWithSchemaOptions: builds the separator strings from the options
and emits the segments present in the tree. -/
def MarshalWithSchemaOptions (v : List (Str × GoVal)) (schema : MessageSchema)
    (opts : MarshalOptions) : Except GoErr Str :=
  let fs := [opts.FieldSeparator]
  let cs := [opts.ComponentSeparator]
  let rs := [opts.RepetitionSeparator]
  let ec := [opts.ComponentSeparator, opts.RepetitionSeparator,
             opts.EscapeCharacter, opts.SubcomponentSeparator]
  marshalSegments v schema fs cs rs ec opts (marshalSegmentOrder schema) true

/-- MarshalWithSchema: default options. -/
def MarshalWithSchema (v : List (Str × GoVal)) (schema : MessageSchema) :
    Except GoErr Str :=
  MarshalWithSchemaOptions v schema DefaultMarshalOptions

/-! ### Supporting lemmas: decimal rendering -/

theorem digitChar_isDigit : ∀ d < 10, (Nat.digitChar d).isDigit := by decide

theorem natDecimal_all_digit (n : Nat) : ∀ c ∈ natDecimal n, c.isDigit = true := by
  intro c hc
  unfold natDecimal at hc
  split at hc
  · simp only [List.mem_singleton] at hc
    subst hc; decide
  · simp only [List.mem_map, List.mem_reverse] at hc
    obtain ⟨d, hd, rfl⟩ := hc
    exact digitChar_isDigit d (Nat.digits_lt_base (by norm_num) hd)

theorem natDecimal_ne_nil (n : Nat) : natDecimal n ≠ [] := by
  unfold natDecimal
  split
  · simp
  · simp only [ne_eq, List.map_eq_nil_iff, List.reverse_eq_nil_iff]
    exact Nat.digits_ne_nil_iff_ne_zero.mpr (by assumption)

theorem natDecimal_length_le {n k : Nat} (h : n < 10 ^ k) (hk : 1 ≤ k) :
    (natDecimal n).length ≤ k := by
  unfold natDecimal
  split
  · simpa using hk
  · rename_i hn
    simp only [List.length_map, List.length_reverse]
    rw [Nat.digits_len 10 n (by norm_num) hn]
    have := Nat.log_lt_of_lt_pow hn h
    omega

theorem padNat_length {w n : Nat} (h : (natDecimal n).length ≤ w) :
    (padNat w n).length = w := by
  unfold padNat
  simp only [List.length_append, List.length_replicate]
  omega

theorem padNat_all_digit (w n : Nat) : ∀ c ∈ padNat w n, c.isDigit = true := by
  intro c hc
  unfold padNat at hc
  simp only [List.mem_append, List.mem_replicate] at hc
  rcases hc with ⟨_, rfl⟩ | hc
  · decide
  · exact natDecimal_all_digit n c hc

/-- Claim C9: timestamp parsing tries the fixed layout list from most to
least specific: empty input yields the zero timestamp without error; the
12-digit input 199905292300 parses as 1999-05-29 23:00; the 11-character
input 99905292300 matches no layout and fails with an error carrying the
original text; and formatting renders the compact
year-month-day-hour-minute-second form with no separators (a 14-character
all-digit string for every in-range non-zero timestamp), or empty text for
the zero timestamp. -/
theorem C9_timestamp_layout_fallback :
    tsUnmarshal [] = .ok GoTime.zero ∧
    tsUnmarshal "199905292300".data = .ok ⟨1999, 5, 29, 23, 0, 0, 0, 0⟩ ∧
    tsUnmarshal "99905292300".data =
      .error (.timestampUnrecognized "99905292300".data) ∧
    (∀ t : GoTime, t.isZero → tsString t = []) ∧
    (∀ t : GoTime, ¬ t.isZero →
      t.year.toNat ≤ 9999 → t.month ≤ 99 → t.day ≤ 99 →
      t.hour ≤ 99 → t.minute ≤ 99 → t.second ≤ 99 →
      (tsString t).length = 14 ∧ ∀ c ∈ tsString t, c.isDigit = true) := by
  refine ⟨rfl, rfl, rfl, ?_, ?_⟩
  · intro t ht
    simp [tsString, ht]
  · intro t ht hy hmo hd hh hmi hs
    have hts : tsString t = tsFormatCompact t := by simp [tsString, ht]
    have l4 : (natDecimal t.year.toNat).length ≤ 4 :=
      natDecimal_length_le (by omega) (by omega)
    have lmo : (natDecimal t.month).length ≤ 2 :=
      natDecimal_length_le (by omega) (by omega)
    have ld : (natDecimal t.day).length ≤ 2 :=
      natDecimal_length_le (by omega) (by omega)
    have lh : (natDecimal t.hour).length ≤ 2 :=
      natDecimal_length_le (by omega) (by omega)
    have lmi : (natDecimal t.minute).length ≤ 2 :=
      natDecimal_length_le (by omega) (by omega)
    have ls : (natDecimal t.second).length ≤ 2 :=
      natDecimal_length_le (by omega) (by omega)
    constructor
    · rw [hts]
      unfold tsFormatCompact
      simp only [List.length_append]
      rw [padNat_length l4, padNat_length lmo, padNat_length ld,
        padNat_length lh, padNat_length lmi, padNat_length ls]
    · rw [hts]
      intro c hc
      unfold tsFormatCompact at hc
      simp only [List.mem_append] at hc
      rcases hc with ((((h | h) | h) | h) | h) | h <;>
        exact padNat_all_digit _ _ c h

/-- Witness for C9: the theorem applied at the concrete timestamp
1999-05-29 23:00 and at the zero timestamp. -/
theorem C9_timestamp_layout_fallback_witness :
    tsString GoTime.zero = [] ∧
    (tsString ⟨1999, 5, 29, 23, 0, 0, 0, 0⟩).length = 14 := by
  refine ⟨C9_timestamp_layout_fallback.2.2.2.1 GoTime.zero (by decide), ?_⟩
  exact (C9_timestamp_layout_fallback.2.2.2.2 ⟨1999, 5, 29, 23, 0, 0, 0, 0⟩
    (by decide) (by decide) (by decide) (by decide) (by decide) (by decide)
    (by decide)).1

/-! ### Supporting lemmas: segment field resolution -/

/-- Raw text that decodeSegmentFields resolves for a field index: none when
the position is out of range, the detected separator for header position 1,
otherwise the token at the (shifted) position. -/
def resolveFieldRaw (seg : SegmentLine) (idx : Int) : Option Str :=
  let partsIdx := if seg.name = "MSH".data then idx - 1 else idx
  if partsIdx < 0 ∨ partsIdx ≥ (seg.fields.length : Int) then none
  else
    let rawValue := seg.fields.getD partsIdx.toNat []
    some (if seg.name = "MSH".data ∧ idx = 1 then seg.fieldSeparator else rawValue)

/-- One step of decodeSegmentFields, phrased through resolveFieldRaw. -/
theorem decodeSegmentFields_cons (seg : SegmentLine) (cs rs : Str)
    (fieldName : String) (fSchema : FieldSchema) (rest : List (String × FieldSchema)) :
    decodeSegmentFields seg cs rs ((fieldName, fSchema) :: rest) =
      (match resolveFieldRaw seg fSchema.Index with
      | none => decodeSegmentFields seg cs rs rest
      | some raw =>
        if raw = [] then decodeSegmentFields seg cs rs rest
        else do
          let val ← decodeFieldWithSchema seg.name fSchema.Index raw fSchema cs rs
          let tail ← decodeSegmentFields seg cs rs rest
          match val with
          | some v => .ok ((fieldName, v) :: tail)
          | none => .ok tail) := by
  rw [decodeSegmentFields, resolveFieldRaw]
  by_cases h : (if seg.name = "MSH".data then fSchema.Index - 1 else fSchema.Index) < 0 ∨
      (if seg.name = "MSH".data then fSchema.Index - 1 else fSchema.Index) ≥
        (seg.fields.length : Int) <;>
    simp [h]

/-- The field fold distributes over list append: the prefix decodes first
and its entries precede the suffix entries; errors propagate from the first
failing field. -/
theorem decodeSegmentFields_append (seg : SegmentLine) (cs rs : Str)
    (pre post : List (String × FieldSchema)) :
    decodeSegmentFields seg cs rs (pre ++ post) =
      (decodeSegmentFields seg cs rs pre).bind fun a =>
        (decodeSegmentFields seg cs rs post).map fun b => a ++ b := by
  induction pre with
  | nil =>
    simp only [List.nil_append, decodeSegmentFields]
    cases decodeSegmentFields seg cs rs post <;> simp [Except.bind, Except.map]
  | cons hd tl ih =>
    obtain ⟨fieldName, fSchema⟩ := hd
    rw [List.cons_append, decodeSegmentFields_cons, decodeSegmentFields_cons]
    cases resolveFieldRaw seg fSchema.Index with
    | none => exact ih
    | some raw =>
      by_cases hr : raw = []
      · simp only [hr, if_pos rfl]; exact ih
      · simp only [if_neg hr]
        rw [ih]
        cases decodeFieldWithSchema seg.name fSchema.Index raw fSchema cs rs with
        | error e => rfl
        | ok val =>
          cases decodeSegmentFields seg cs rs tl with
          | error e => cases val <;> rfl
          | ok a =>
            cases decodeSegmentFields seg cs rs post with
            | error e => cases val <;> rfl
            | ok b => cases val <;> rfl

/-- Bool coercion rejects anything outside the two token sets. -/
theorem coerceValue_bool_bad (seg : Str) (f c : Int) (raw : Str)
    (h1 : toUpperGo raw ≠ "Y".data) (h2 : toUpperGo raw ≠ "TRUE".data)
    (h3 : toUpperGo raw ≠ "1".data) (h4 : toUpperGo raw ≠ "N".data)
    (h5 : toUpperGo raw ≠ "FALSE".data) (h6 : toUpperGo raw ≠ "0".data) :
    coerceValue seg f c raw .tbool = .error (.fieldErr seg f c raw .invalidBool) := by
  simp [coerceValue, h1, h2, h3, h4, h5, h6]

/-- Claim C8: bool-typed fields and components decode the case-insensitive
affirmative tokens Y, TRUE, 1 to true and the negative tokens N, FALSE, 0
to false; any other non-empty text fails the whole segment decode with a
FieldError carrying the segment name, the 1-based field position, the
component position (zero at field level), and the offending raw text. -/
theorem C8_bool_acceptance_set :
    (∀ (seg : Str) (f c : Int) (raw : Str),
      toUpperGo raw = "Y".data ∨ toUpperGo raw = "TRUE".data ∨ toUpperGo raw = "1".data →
      coerceValue seg f c raw .tbool = .ok (.vbool true)) ∧
    (∀ (seg : Str) (f c : Int) (raw : Str),
      toUpperGo raw = "N".data ∨ toUpperGo raw = "FALSE".data ∨ toUpperGo raw = "0".data →
      coerceValue seg f c raw .tbool = .ok (.vbool false)) ∧
    (∀ (seg : Str) (f c : Int) (raw : Str),
      raw ≠ [] →
      toUpperGo raw ≠ "Y".data → toUpperGo raw ≠ "TRUE".data → toUpperGo raw ≠ "1".data →
      toUpperGo raw ≠ "N".data → toUpperGo raw ≠ "FALSE".data → toUpperGo raw ≠ "0".data →
      coerceValue seg f c raw .tbool = .error (.fieldErr seg f c raw .invalidBool)) ∧
    (∀ (seg : SegmentLine) (cs rs : Str) (pre post : List (String × FieldSchema))
      (fieldName : String) (fSchema : FieldSchema) (m₀ : List (String × GoVal)) (raw : Str),
      decodeSegmentFields seg cs rs pre = .ok m₀ →
      fSchema.typ = .tbool →
      resolveFieldRaw seg fSchema.Index = some raw →
      raw ≠ [] →
      toUpperGo raw ≠ "Y".data → toUpperGo raw ≠ "TRUE".data → toUpperGo raw ≠ "1".data →
      toUpperGo raw ≠ "N".data → toUpperGo raw ≠ "FALSE".data → toUpperGo raw ≠ "0".data →
      decodeSegmentFields seg cs rs (pre ++ (fieldName, fSchema) :: post) =
        .error (.fieldErr seg.name fSchema.Index 0 raw .invalidBool)) := by
  refine ⟨?_, ?_, ?_, ?_⟩
  · intro seg f c raw h
    rcases h with h | h | h <;> simp [coerceValue, h]
  · intro seg f c raw h
    have hy : toUpperGo raw ≠ "Y".data := by
      rcases h with h | h | h <;> rw [h] <;> decide
    have ht : toUpperGo raw ≠ "TRUE".data := by
      rcases h with h | h | h <;> rw [h] <;> decide
    have h1 : toUpperGo raw ≠ "1".data := by
      rcases h with h | h | h <;> rw [h] <;> decide
    rcases h with h | h | h <;> simp [coerceValue, hy, ht, h1, h]
  · intro seg f c raw _ h1 h2 h3 h4 h5 h6
    exact coerceValue_bool_bad seg f c raw h1 h2 h3 h4 h5 h6
  · intro seg cs rs pre post fieldName fSchema m₀ raw hpre htyp hres hraw h1 h2 h3 h4 h5 h6
    rw [decodeSegmentFields_append, hpre]
    have hco := coerceValue_bool_bad seg.name fSchema.Index 0 raw h1 h2 h3 h4 h5 h6
    have hfield : decodeFieldWithSchema seg.name fSchema.Index raw fSchema cs rs =
        .error (.fieldErr seg.name fSchema.Index 0 raw .invalidBool) := by
      simp only [decodeFieldWithSchema, htyp, hco]
      rfl
    rw [decodeSegmentFields_cons, hres]
    simp only [if_neg hraw, hfield]
    rfl

/-- Witness for C8: the truthy token y (lower case), the falsy token
FALSE, the rejected token MAYBE at component position 2, and a concrete
segment whose bool field at position 1 holds the rejected token X. -/
theorem C8_bool_acceptance_set_witness :
    coerceValue "PID".data 5 0 "y".data .tbool = .ok (.vbool true) ∧
    coerceValue "PID".data 5 0 "FaLsE".data .tbool = .ok (.vbool false) ∧
    coerceValue "PID".data 5 2 "MAYBE".data .tbool =
      .error (.fieldErr "PID".data 5 2 "MAYBE".data .invalidBool) ∧
    decodeSegmentFields
      ⟨"PID".data, ["PID".data, "X".data], "|".data, "^~\\&".data⟩ "^".data "~".data
      ([] ++ [("flag", .mk 1 .tbool [] none)]) =
      .error (.fieldErr "PID".data 1 0 "X".data .invalidBool) := by
  refine ⟨C8_bool_acceptance_set.1 _ _ _ _ (by left; decide),
    C8_bool_acceptance_set.2.1 _ _ _ _ (by right; left; decide),
    C8_bool_acceptance_set.2.2.1 _ _ _ _ (by decide) (by decide) (by decide)
      (by decide) (by decide) (by decide) (by decide), ?_⟩
  exact C8_bool_acceptance_set.2.2.2 _ _ _ [] [] "flag" (.mk 1 .tbool [] none) [] "X".data
    rfl rfl (by decide) (by decide) (by decide) (by decide) (by decide) (by decide)
    (by decide) (by decide)

/-! ### Claim C7: positional fidelity for objects -/

/-- Counterexample to C7 as stated: with components declared at positions
1, 3 and 5 and only the position-5 component set, the encoder renders the
value behind four component separators (slots 1 through 4 are empty), not
two: all four separator characters of the output precede the value. -/
theorem C7_counterexample :
    marshalObjectFromMap (.vmap [("c", .vstr "X".data)])
      (.mk 1 .tobject [("a", .mk 1 .tstring [] none), ("b", .mk 3 .tstring [] none),
        ("c", .mk 5 .tstring [] none)] none) "^".data = .ok "^^^^X".data ∧
    ("^^^^X".data.takeWhile (· == '^')).length = 4 ∧
    ("^^^^X".data.takeWhile (· == '^')).length ≠ 2 := by
  exact ⟨rfl, rfl, by decide⟩

/-- Claim C7, amended: for every object-typed field with components
declared at positions 1, 3 and 5, encoding a value that sets only the
position-5 component produces exactly four component separators before
that component's rendered value (positions 1 through 4 render as empty
tokens), with no trailing separators. -/
theorem C7_positional_fidelity (an bn cn : String) (s1 s3 s5 : FieldSchema)
    (v : GoVal) (cs : Str) (fIdx : Int) (items : Option FieldSchema)
    (h1 : s1.Index = 1) (h3 : s3.Index = 3) (h5 : s5.Index = 5)
    (hac : an ≠ cn) (hbc : bn ≠ cn)
    (hr : marshalScalarValue v s5.typ ≠ []) :
    marshalObjectFromMap (.vmap [(cn, v)])
      (.mk fIdx .tobject [(an, s1), (bn, s3), (cn, s5)] items) cs =
      .ok (cs ++ cs ++ cs ++ cs ++ marshalScalarValue v s5.typ) := by
  have hla : List.lookup an [(cn, v)] = none := by
    simp [List.lookup, beq_eq_false_iff_ne.mpr hac]
  have hlb : List.lookup bn [(cn, v)] = none := by
    simp [List.lookup, beq_eq_false_iff_ne.mpr hbc]
  have hlc : List.lookup cn [(cn, v)] = some v := by
    simp [List.lookup]
  have hmax : maxCompIndex [(an, s1), (bn, s3), (cn, s5)] = 5 := by
    simp [maxCompIndex, h1, h3, h5]
  rw [marshalObjectFromMap]
  simp only [FieldSchema.Components, hmax, objParts, hla, hlb, hlc, h5]
  norm_num
  have hset : (List.replicate (Int.toNat 5) (α := Str) []).set (Int.toNat 4)
      (marshalScalarValue v s5.typ) =
      [[], [], [], [], marshalScalarValue v s5.typ] := by
    simp [List.replicate, List.set]
  rw [hset]
  have htrim : trimTrailingEmpty [[], [], [], [], marshalScalarValue v s5.typ] =
      [[], [], [], [], marshalScalarValue v s5.typ] := by
    simp [trimTrailingEmpty, hr]
  change Except.ok (List.intercalate cs
    (trimTrailingEmpty [[], [], [], [], marshalScalarValue v s5.typ])) = _
  rw [htrim]
  simp [List.intercalate, List.intersperse]

/-- Witness for C7: the amended theorem applied at the concrete value X
with the caret separator. -/
theorem C7_positional_fidelity_witness :
    marshalObjectFromMap (.vmap [("c", .vstr "X".data)])
      (.mk 1 .tobject [("a", .mk 1 .tstring [] none), ("b", .mk 3 .tstring [] none),
        ("c", .mk 5 .tstring [] none)] none) "^".data = .ok "^^^^X".data := by
  exact C7_positional_fidelity "a" "b" "c" _ _ _ (.vstr "X".data) "^".data 1 none
    rfl rfl rfl (by decide) (by decide) (by decide)

/-! ### Claim C6: header position 1 and 2 encoding -/

theorem lookup_map_upd {κ : Type} [BEq κ] [LawfulBEq κ]
    (m : List (κ × GoVal)) (k k' : κ) (v : GoVal) (h : k' ≠ k) :
    List.lookup k' (m.map fun p => if p.1 == k then (k, v) else p) =
      List.lookup k' m := by
  induction m with
  | nil => rfl
  | cons p rest ih =>
    simp only [List.map_cons]
    by_cases hp : (p.1 == k) = true
    · rw [if_pos hp]
      simp only [List.lookup]
      rw [beq_eq_false_iff_ne.mpr h]
      have hk' : (k' == p.1) = false := by
        rw [beq_eq_false_iff_ne]
        intro hh
        exact h (hh.trans (eq_of_beq hp))
      rw [hk']
      exact ih
    · rw [if_neg hp]
      simp only [List.lookup]
      cases k' == p.1
      · exact ih
      · rfl

theorem lookup_append_ne {κ : Type} [BEq κ] [LawfulBEq κ]
    (m : List (κ × GoVal)) (k k' : κ) (v : GoVal) (h : k' ≠ k) :
    List.lookup k' (m ++ [(k, v)]) = List.lookup k' m := by
  induction m with
  | nil =>
    simp only [List.nil_append, List.lookup]
    rw [beq_eq_false_iff_ne.mpr h]
  | cons p rest ih =>
    simp only [List.cons_append, List.lookup]
    cases k' == p.1
    · exact ih
    · rfl

theorem lookup_mapSet_ne {κ : Type} [BEq κ] [LawfulBEq κ]
    (m : List (κ × GoVal)) (k k' : κ) (v : GoVal) (h : k' ≠ k) :
    (mapSet m k v).lookup k' = m.lookup k' := by
  unfold mapSet
  split
  · exact lookup_map_upd m k k' v h
  · exact lookup_append_ne m k k' v h

/-- With unique field names, a member pair is what lookup returns. -/
theorem lookup_of_mem_nodup {flds : List (String × FieldSchema)}
    (hn : (flds.map Prod.fst).Nodup) {k : String} {s : FieldSchema}
    (hm : (k, s) ∈ flds) : flds.lookup k = some s := by
  induction flds with
  | nil => cases hm
  | cons p rest ih =>
    simp only [List.map_cons, List.nodup_cons] at hn
    rcases List.mem_cons.mp hm with rfl | hm'
    · simp [List.lookup]
    · have hk : k ≠ p.1 := by
        intro hk
        exact hn.1 (hk ▸ List.mem_map_of_mem Prod.fst hm')
      simp only [List.lookup, beq_eq_false_iff_ne.mpr hk]
      exact ih hn.2 hm'

/-- indexToName only returns names declared at that index. -/
theorem indexToName_mem {flds : List (String × FieldSchema)} {idx : Int} {n : String}
    (h : indexToName flds idx = some n) :
    ∃ s, (n, s) ∈ flds ∧ s.Index = idx := by
  unfold indexToName at h
  cases hf : flds.reverse.find? (fun f => f.2.Index == idx) with
  | none => rw [hf] at h; cases h
  | some p =>
    rw [hf] at h
    obtain ⟨rfl⟩ : p.1 = n := by cases h; rfl
    refine ⟨p.2, ?_, ?_⟩
    · have := List.mem_of_find?_eq_some hf
      simpa using (List.mem_reverse.mp this)
    · have := List.find?_some hf
      exact eq_of_beq this

/-- The segment slot renderer does not consult tree entries stored under a
key that no rendered index resolves to. -/
theorem marshalSegmentSlots_mapSet (name : Str) (data : List (String × GoVal))
    (schema : SegmentSchema) (fs cs rs ec : Str) (opts : MarshalOptions)
    (k : String) (v : GoVal) (idxs : List Int)
    (h : ∀ idx ∈ idxs, ¬(name = "MSH".data ∧ (idx = 1 ∨ idx = 2)) →
      ∀ n, indexToName schema.Fields idx = some n → n ≠ k) :
    marshalSegmentSlots name (mapSet data k v) schema fs cs rs ec opts idxs =
      marshalSegmentSlots name data schema fs cs rs ec opts idxs := by
  induction idxs with
  | nil => rfl
  | cons idx rest ih =>
    have hrest := ih fun i hi => h i (List.mem_cons_of_mem _ hi)
    rw [marshalSegmentSlots, marshalSegmentSlots]
    have hslot : marshalSegmentSlot name (mapSet data k v) schema fs cs rs ec opts idx =
        marshalSegmentSlot name data schema fs cs rs ec opts idx := by
      unfold marshalSegmentSlot
      by_cases h1 : name = "MSH".data ∧ idx = 1
      · simp [h1]
      · simp only [if_neg h1]
        by_cases h2 : name = "MSH".data ∧ idx = 2
        · simp [h2]
        · simp only [if_neg h2]
          cases hin : indexToName schema.Fields idx with
          | none => rfl
          | some n =>
            have hne : n ≠ k := by
              refine h idx (List.mem_cons_self _ _) ?_ n hin
              intro ⟨hm, ho⟩
              rcases ho with rfl | rfl
              · exact h1 ⟨hm, rfl⟩
              · exact h2 ⟨hm, rfl⟩
            simp only [lookup_mapSet_ne data k n v hne]
    rw [hslot, hrest]

/-- Splitting the 1-based index range of the field loop after position 2. -/
theorem range_map_add_one_split (k : Nat) (hk : 2 ≤ k) :
    (List.range k).map (fun i : Nat => (i : Int) + 1) =
      1 :: 2 :: ((List.range (k - 2)).map fun i : Nat => (i : Int) + 3) := by
  obtain ⟨r, rfl⟩ : ∃ r, k = 2 + r := ⟨k - 2, by omega⟩
  rw [List.range_add]
  simp only [List.map_append, List.map_map, Nat.add_sub_cancel_left]
  have h2 : (List.range 2).map (fun i : Nat => (i : Int) + 1) = [1, 2] := by decide
  rw [h2]
  simp only [List.cons_append, List.nil_append, List.cons.injEq, true_and]
  apply List.map_congr_left
  intro i _
  simp only [Function.comp_apply]
  push_cast
  ring

/-- Claim C6: encoding a tree containing the header segment writes position
1 as the literal field-separator character from the options with no
preceding separator, writes position 2 immediately adjacent with the four
encoding characters concatenated from the options, and ignores any tree
values stored for the fields declared at positions 1 and 2. -/
theorem C6_header_positions_from_options :
    (∀ (data : List (String × GoVal)) (schema : SegmentSchema)
      (fs cs rs : Str) (opts : MarshalOptions),
      2 ≤ maxFieldIndex schema.Fields →
      marshalSegmentFromMap "MSH".data data schema fs cs rs
          [opts.ComponentSeparator, opts.RepetitionSeparator,
            opts.EscapeCharacter, opts.SubcomponentSeparator] opts =
        (marshalSegmentSlots "MSH".data data schema fs cs rs
            [opts.ComponentSeparator, opts.RepetitionSeparator,
              opts.EscapeCharacter, opts.SubcomponentSeparator] opts
            (((List.range ((maxFieldIndex schema.Fields).toNat - 2)).map
              fun i : Nat => (i : Int) + 3))).map
          fun rest => "MSH".data ++ opts.FieldSeparator ::
            ([opts.ComponentSeparator, opts.RepetitionSeparator,
              opts.EscapeCharacter, opts.SubcomponentSeparator] ++ rest)) ∧
    (∀ (data : List (String × GoVal)) (schema : SegmentSchema)
      (fs cs rs ec : Str) (opts : MarshalOptions)
      (fieldName : String) (fSchema : FieldSchema) (v : GoVal),
      (schema.Fields.map Prod.fst).Nodup →
      schema.Fields.lookup fieldName = some fSchema →
      fSchema.Index = 1 ∨ fSchema.Index = 2 →
      marshalSegmentFromMap "MSH".data (mapSet data fieldName v) schema fs cs rs ec opts =
        marshalSegmentFromMap "MSH".data data schema fs cs rs ec opts) := by
  constructor
  · intro data schema fs cs rs opts hmax
    set ec := [opts.ComponentSeparator, opts.RepetitionSeparator,
      opts.EscapeCharacter, opts.SubcomponentSeparator] with hec
    set k := (maxFieldIndex schema.Fields).toNat with hk
    rw [marshalSegmentFromMap]
    rw [range_map_add_one_split k (by omega)]
    rw [marshalSegmentSlots, marshalSegmentSlots]
    have hs1 : marshalSegmentSlot "MSH".data data schema fs cs rs ec opts 1 =
        .ok [opts.FieldSeparator] := by
      unfold marshalSegmentSlot
      simp
    have hs2 : marshalSegmentSlot "MSH".data data schema fs cs rs ec opts 2 =
        .ok ec := by
      unfold marshalSegmentSlot
      norm_num
    rw [hs1, hs2]
    cases marshalSegmentSlots "MSH".data data schema fs cs rs ec opts
        ((List.range (k - 2)).map fun i : Nat => (i : Int) + 3) <;> rfl
  · intro data schema fs cs rs ec opts fieldName fSchema v hnodup hlk hidx
    rw [marshalSegmentFromMap, marshalSegmentFromMap]
    rw [marshalSegmentSlots_mapSet]
    intro idx _ hnot n hin hnk
    subst hnk
    obtain ⟨s, hmem, hsidx⟩ := indexToName_mem hin
    have : s = fSchema := by
      have := lookup_of_mem_nodup hnodup hmem
      rw [hlk] at this
      exact (Option.some.inj this).symm
    subst this
    rcases hidx with h1 | h1
    · exact hnot ⟨rfl, Or.inl (by omega)⟩
    · exact hnot ⟨rfl, Or.inr (by omega)⟩

/-- Witness for C6: a three-field header schema; positions 1 and 2 come
from the options and updating the tree value declared at position 1 does
not change the output. -/
theorem C6_header_positions_from_options_witness :
    marshalSegmentFromMap "MSH".data
        [("f2", .vstr "ZZ".data), ("f3", .vstr "AB".data)]
        ⟨[("f1", .mk 1 .tstring [] none), ("f2", .mk 2 .tstring [] none),
          ("f3", .mk 3 .tstring [] none)], false⟩
        "|".data "^".data "~".data "^~\\&".data DefaultMarshalOptions =
      .ok "MSH|^~\\&|AB".data ∧
    marshalSegmentFromMap "MSH".data
        (mapSet [("f2", .vstr "ZZ".data), ("f3", .vstr "AB".data)] "f1"
          (.vstr "IGNORED".data))
        ⟨[("f1", .mk 1 .tstring [] none), ("f2", .mk 2 .tstring [] none),
          ("f3", .mk 3 .tstring [] none)], false⟩
        "|".data "^".data "~".data "^~\\&".data DefaultMarshalOptions =
      .ok "MSH|^~\\&|AB".data := by
  have h2 := C6_header_positions_from_options.2
    [("f2", .vstr "ZZ".data), ("f3", .vstr "AB".data)]
    ⟨[("f1", .mk 1 .tstring [] none), ("f2", .mk 2 .tstring [] none),
      ("f3", .mk 3 .tstring [] none)], false⟩
    "|".data "^".data "~".data "^~\\&".data DefaultMarshalOptions
    "f1" (.mk 1 .tstring [] none) (.vstr "IGNORED".data)
    (by decide) rfl (Or.inl rfl)
  have h1 := C6_header_positions_from_options.1
    [("f2", .vstr "ZZ".data), ("f3", .vstr "AB".data)]
    ⟨[("f1", .mk 1 .tstring [] none), ("f2", .mk 2 .tstring [] none),
      ("f3", .mk 3 .tstring [] none)], false⟩
    "|".data "^".data "~".data DefaultMarshalOptions (by decide)
  refine ⟨?_, ?_⟩
  · rw [show ("^~\\&".data : Str) =
      [DefaultMarshalOptions.ComponentSeparator, DefaultMarshalOptions.RepetitionSeparator,
        DefaultMarshalOptions.EscapeCharacter, DefaultMarshalOptions.SubcomponentSeparator]
      from rfl]
    rw [h1]
    rfl
  · rw [h2]
    rfl

/-! ### Claim C10: emission order and determinism -/

/-- Two association-list representations of the same two-segment Go schema
map (the map ranged over by the encoder has no specified enumeration
order). -/
def c10segPID : SegmentSchema := ⟨[("id", .mk 1 .tstring [] none)], false⟩

def c10segPV1 : SegmentSchema := ⟨[("cls", .mk 1 .tstring [] none)], false⟩

def c10schemaA : MessageSchema := ⟨[("PID".data, c10segPID), ("PV1".data, c10segPV1)]⟩

def c10schemaB : MessageSchema := ⟨[("PV1".data, c10segPV1), ("PID".data, c10segPID)]⟩

def c10tree : List (Str × GoVal) :=
  [("PID".data, .vmap [("id", .vstr "1".data)]),
   ("PV1".data, .vmap [("cls", .vstr "2".data)])]

/-- Claim C10 (code bug): the source comment asks for a stable segment
ordering, but the encoder ranges over the Go segment map, whose enumeration
order is unspecified and varies between calls.  In the embedding this
surfaces as the output depending on the enumeration order of the segment
association list: the two representations of the same schema map are a
permutation of one another yet produce different bytes, so the encoder is
not deterministic for a given schema map once it has two or more non-header
segments. -/
theorem C10_enumeration_order_dependence :
    c10schemaA.Segments.Perm c10schemaB.Segments ∧
    MarshalWithSchema c10tree c10schemaA = .ok "PID|1\rPV1|2".data ∧
    MarshalWithSchema c10tree c10schemaB = .ok "PV1|2\rPID|1".data ∧
    "PID|1\rPV1|2".data ≠ "PV1|2\rPID|1".data := by
  exact ⟨List.Perm.swap _ _ _, rfl, rfl, by decide⟩

/-! ### Tokenizer: separator threading, written from the specification -/

/-- Specification reading: a line that is a header line (three-letter code
followed by at least one more character) adopts the character immediately
after the code as the field separator. -/
def adoptedSep (line : Str) : Option Char :=
  if "MSH".data.isPrefixOf line ∧ line.length > 3 then some (line.getD 3 '|') else none

/-- Specification reading: the separator in effect for line i is the most
recent adoption at or before i, with the given default (the pipe character
at the start of a message). -/
def specActiveFSFrom (fs : Char) (lines : List Str) (i : Nat) : Char :=
  ((lines.take (i + 1)).filterMap adoptedSep).getLastD fs

/-- Specification reading: a line whose first token (under the separator in
effect for it) begins with the header code and that has a second token
captures that token verbatim as the encoding characters. -/
def adoptedEC (fsActive : Char) (line : Str) : Option Str :=
  let parts := line.splitOn fsActive
  if "MSH".data.isPrefixOf (parts.headD []) ∧ parts.length > 1 then some (parts.getD 1 [])
  else none

/-- Specification reading: the encoding characters in effect for line i are
the most recent capture at or before i, with the given default. -/
def specActiveECFrom (fs : Char) (ec : Str) (lines : List Str) (i : Nat) : Str :=
  (((List.range (i + 1)).filterMap fun j =>
    adoptedEC (specActiveFSFrom fs lines j) (lines.getD j [])).getLastD ec)

theorem splitOn_ne_nil (c : Char) (s : Str) : s.splitOn c ≠ [] :=
  List.splitOnP_ne_nil _ s

theorem getLastD_toList_append {α : Type} (o : Option α) (l : List α) (d : α) :
    (o.toList ++ l).getLastD d = l.getLastD (o.getD d) := by
  cases o with
  | none => rfl
  | some a => simpa using List.getLastD_cons d a l

theorem specActiveFSFrom_zero (fs : Char) (line : Str) (lines : List Str) :
    specActiveFSFrom fs (line :: lines) 0 = (adoptedSep line).getD fs := by
  unfold specActiveFSFrom
  simp only [List.take, List.take_zero, List.filterMap]
  cases adoptedSep line <;> rfl

theorem specActiveFSFrom_succ (fs : Char) (line : Str) (lines : List Str) (i : Nat) :
    specActiveFSFrom fs (line :: lines) (i + 1) =
      specActiveFSFrom ((adoptedSep line).getD fs) lines i := by
  unfold specActiveFSFrom
  rw [show (line :: lines).take (i + 1 + 1) = line :: lines.take (i + 1) from rfl,
    List.filterMap_cons]
  cases adoptedSep line with
  | none => rfl
  | some c => exact List.getLastD_cons fs c _

theorem specActiveECFrom_zero (fs : Char) (ec : Str) (line : Str) (lines : List Str) :
    specActiveECFrom fs ec (line :: lines) 0 =
      (adoptedEC ((adoptedSep line).getD fs) line).getD ec := by
  unfold specActiveECFrom
  rw [show List.range (0 + 1) = [0] from rfl, List.filterMap_cons]
  simp only [List.filterMap_nil, List.getD_cons_zero, specActiveFSFrom_zero]
  cases adoptedEC ((adoptedSep line).getD fs) line <;> rfl

theorem specActiveECFrom_succ (fs : Char) (ec : Str) (line : Str) (lines : List Str)
    (i : Nat) :
    specActiveECFrom fs ec (line :: lines) (i + 1) =
      specActiveECFrom ((adoptedSep line).getD fs)
        ((adoptedEC ((adoptedSep line).getD fs) line).getD ec) lines i := by
  unfold specActiveECFrom
  rw [List.range_succ_eq_map, List.filterMap_cons, List.filterMap_map]
  have hf : ((fun j => adoptedEC (specActiveFSFrom fs (line :: lines) j)
      ((line :: lines).getD j [])) ∘ Nat.succ) =
      fun j => adoptedEC (specActiveFSFrom ((adoptedSep line).getD fs) lines j)
        (lines.getD j []) := by
    funext j
    simp only [Function.comp_apply]
    rw [specActiveFSFrom_succ]
    rfl
  rw [hf]
  simp only [List.getD_cons_zero, specActiveFSFrom_zero]
  cases adoptedEC ((adoptedSep line).getD fs) line with
  | none => rfl
  | some c => exact List.getLastD_cons ec c _

/-- Inversion of one successful tokenizer step. -/
theorem parseLines_cons_ok {fs : Char} {ec : Str} {line : Str} {rest : List Str}
    {recs : List SegmentLine} (h : parseLines fs ec (line :: rest) = .ok recs) :
    ∃ p0 ptail tail,
      line.splitOn ((adoptedSep line).getD fs) = p0 :: ptail ∧
      p0 ≠ [] ∧
      parseLines ((adoptedSep line).getD fs)
        ((adoptedEC ((adoptedSep line).getD fs) line).getD ec) rest = .ok tail ∧
      recs = { name := p0, fields := p0 :: ptail,
               fieldSeparator := [(adoptedSep line).getD fs],
               encodingCharacters :=
                 (adoptedEC ((adoptedSep line).getD fs) line).getD ec } :: tail := by
  have hfs : (if "MSH".data.isPrefixOf line ∧ line.length > 3 then line.getD 3 '|' else fs) =
      (adoptedSep line).getD fs := by
    unfold adoptedSep; split <;> rfl
  simp only [parseLines, hfs] at h
  rcases hsp : line.splitOn ((adoptedSep line).getD fs) with _ | ⟨p0, ptail⟩
  · exact absurd hsp (splitOn_ne_nil _ _)
  rw [hsp] at h
  simp only at h
  have hec : (if "MSH".data.isPrefixOf p0 ∧ (p0 :: ptail).length > 1
      then (p0 :: ptail).getD 1 [] else ec) =
      (adoptedEC ((adoptedSep line).getD fs) line).getD ec := by
    unfold adoptedEC
    rw [hsp]
    simp only [List.headD_cons]
    split <;> rfl
  rw [hec] at h
  by_cases hp0 : p0 = []
  · rw [if_pos hp0] at h
    cases h
  · rw [if_neg hp0] at h
    cases hrec : parseLines ((adoptedSep line).getD fs)
        ((adoptedEC ((adoptedSep line).getD fs) line).getD ec) rest with
    | error e => rw [hrec] at h; cases h
    | ok tail =>
      rw [hrec] at h
      refine ⟨p0, ptail, tail, rfl, hp0, rfl, ?_⟩
      cases h
      rfl

/-- Alignment of tokenizer output with the specification-level separator
scan: one record per line, whose separators, fields and name are the
specified ones. -/
theorem parseLines_align (lines : List Str) :
    ∀ (fs : Char) (ec : Str) (recs : List SegmentLine),
    parseLines fs ec lines = .ok recs →
    recs.length = lines.length ∧
    ∀ i (hi : i < recs.length),
      (recs.get ⟨i, hi⟩).fieldSeparator = [specActiveFSFrom fs lines i] ∧
      (recs.get ⟨i, hi⟩).encodingCharacters = specActiveECFrom fs ec lines i ∧
      (recs.get ⟨i, hi⟩).fields = (lines.getD i []).splitOn (specActiveFSFrom fs lines i) ∧
      (recs.get ⟨i, hi⟩).name =
        ((lines.getD i []).splitOn (specActiveFSFrom fs lines i)).headD [] := by
  induction lines with
  | nil =>
    intro fs ec recs h
    cases h
    exact ⟨rfl, fun i hi => absurd hi (by simp)⟩
  | cons line rest ih =>
    intro fs ec recs h
    obtain ⟨p0, ptail, tail, hsp, hp0, hrec, rfl⟩ := parseLines_cons_ok h
    obtain ⟨hlen, htail⟩ := ih _ _ _ hrec
    refine ⟨by simpa using hlen, ?_⟩
    intro i hi
    cases i with
    | zero =>
      rw [specActiveFSFrom_zero, specActiveECFrom_zero]
      simp [hsp]
    | succ j =>
      have hj : j < tail.length := by simpa using hi
      rw [specActiveFSFrom_succ, specActiveECFrom_succ]
      simpa using htail j hj

/-- A line whose first token is empty (under the separator in effect for
it) makes the tokenizer fail with the invalid-segment error, provided no
earlier line - which could only fail the same way - interferes. -/
theorem parseLines_error_of_empty_token (lines : List Str) :
    ∀ (fs : Char) (ec : Str),
    (∃ i, i < lines.length ∧
      ((lines.getD i []).splitOn (specActiveFSFrom fs lines i)).headD [] = []) →
    parseLines fs ec lines = .error (.segmentInvalid []) := by
  induction lines with
  | nil =>
    intro fs ec ⟨i, hi, _⟩
    exact absurd hi (by simp)
  | cons line rest ih =>
    intro fs ec ⟨i, hi, hemp⟩
    have hfs : (if "MSH".data.isPrefixOf line ∧ line.length > 3 then line.getD 3 '|' else fs) =
        (adoptedSep line).getD fs := by
      unfold adoptedSep; split <;> rfl
    simp only [parseLines, hfs]
    rcases hsp : line.splitOn ((adoptedSep line).getD fs) with _ | ⟨p0, ptail⟩
    · exact absurd hsp (splitOn_ne_nil _ _)
    simp only
    by_cases hp0 : p0 = []
    · rw [if_pos hp0, hp0]
    · rw [if_neg hp0]
      cases i with
      | zero =>
        rw [specActiveFSFrom_zero] at hemp
        simp only [List.getD_cons_zero] at hemp
        rw [hsp] at hemp
        exact absurd hemp hp0
      | succ j =>
        have hj : j < rest.length := by simpa using hi
        rw [specActiveFSFrom_succ] at hemp
        have := ih ((adoptedSep line).getD fs)
          (if "MSH".data.isPrefixOf p0 ∧ (p0 :: ptail).length > 1
            then (p0 :: ptail).getD 1 [] else ec)
          ⟨j, hj, by simpa using hemp⟩
        rw [this]
        rfl

/-! ### Claims C3 and C4: normalization, blank lines and empty tokens -/

theorem crToLF_no_cr (s : Str) : '\r' ∉ crToLF s := by
  unfold crToLF
  intro hm
  obtain ⟨c, _, hc⟩ := List.mem_map.mp hm
  by_cases h : c = '\r' <;> simp [h] at hc

theorem replaceCRLF_of_no_cr : ∀ s : Str, '\r' ∉ s → replaceCRLF s = s
  | [], _ => rfl
  | [c], _ => rfl
  | c1 :: c2 :: rest, h => by
    have h1 : c1 ≠ '\r' := fun hh => h (hh ▸ List.mem_cons_self _ _)
    have h2 : '\r' ∉ c2 :: rest := fun hh => h (List.mem_cons_of_mem _ hh)
    rw [replaceCRLF, if_neg (fun hh => h1 hh.1), replaceCRLF_of_no_cr _ h2]

theorem crToLF_of_no_cr (s : Str) (h : '\r' ∉ s) : crToLF s = s := by
  unfold crToLF
  conv_rhs => rw [← List.map_id s]
  apply List.map_congr_left
  intro c hc
  have : c ≠ '\r' := fun hh => h (hh ▸ hc)
  simp [this]

theorem normalizeNewlines_idem (d : Str) :
    normalizeNewlines (normalizeNewlines d) = normalizeNewlines d := by
  unfold normalizeNewlines
  rw [replaceCRLF_of_no_cr _ (crToLF_no_cr (replaceCRLF d)),
    crToLF_of_no_cr _ (crToLF_no_cr (replaceCRLF d))]

/-- Counterexample to C3 as stated: a blank line is not skipped; inserting
one into an otherwise tokenizable message makes the tokenizer fail with
the invalid-segment error instead of succeeding with the same records. -/
theorem C3_counterexample :
    parseMessage "MSH|^~\\&|A\n\nPID|1".data = .error (.segmentInvalid []) ∧
    parseMessage "MSH|^~\\&|A\nPID|1".data = .ok
      [{ name := "MSH".data, fields := ["MSH".data, "^~\\&".data, "A".data],
         fieldSeparator := "|".data, encodingCharacters := "^~\\&".data },
       { name := "PID".data, fields := ["PID".data, "1".data],
         fieldSeparator := "|".data, encodingCharacters := "^~\\&".data }] :=
  ⟨rfl, rfl⟩

/-- Claim C3, amended: the tokenizer does normalize bare carriage returns
and carriage-return-linefeed pairs to a single line break before splitting
(no carriage return survives normalization, and normalization is
idempotent with respect to the whole tokenizer), but blank lines are not
skipped: an input whose normalized line list contains an empty line fails
with the invalid-segment error rather than tokenizing like the input with
the blank lines removed. -/
theorem C3_normalization_blank_lines :
    (∀ data : Str, '\r' ∉ normalizeNewlines data) ∧
    (∀ data : Str, parseMessage (normalizeNewlines data) = parseMessage data) ∧
    (∀ data : Str, [] ∈ scanLines (normalizeNewlines data) →
      parseMessage data = .error (.segmentInvalid [])) := by
  refine ⟨fun data => crToLF_no_cr _, ?_, ?_⟩
  · intro data
    unfold parseMessage
    rw [normalizeNewlines_idem]
  · intro data hmem
    obtain ⟨i, hi, hget⟩ := List.mem_iff_getElem.mp hmem
    unfold parseMessage
    apply parseLines_error_of_empty_token
    refine ⟨i, hi, ?_⟩
    have : (scanLines (normalizeNewlines data)).getD i [] = [] := by
      rw [List.getD_eq_getElem _ _ hi, hget]
    rw [this]
    rfl

/-- Witness for C3: the concrete blank-line input. -/
theorem C3_normalization_blank_lines_witness :
    parseMessage "MSH|^~\\&|A\n\nPID|1".data = .error (.segmentInvalid []) :=
  C3_normalization_blank_lines.2.2 "MSH|^~\\&|A\n\nPID|1".data (by decide)

/-- Claim C4: a non-blank line whose first token under the active field
separator is empty fails the whole tokenization with the invalid-segment
error, and no record list is returned. -/
theorem C4_empty_first_token_fails (data : Str) (i : Nat)
    (hi : i < (scanLines (normalizeNewlines data)).length)
    (hemp : (((scanLines (normalizeNewlines data)).getD i []).splitOn
      (specActiveFSFrom '|' (scanLines (normalizeNewlines data)) i)).headD [] = []) :
    parseMessage data = .error (.segmentInvalid []) ∧
    ∀ recs : List SegmentLine, parseMessage data ≠ .ok recs := by
  have herr : parseMessage data = .error (.segmentInvalid []) := by
    unfold parseMessage
    exact parseLines_error_of_empty_token _ _ _ ⟨i, hi, hemp⟩
  exact ⟨herr, fun recs hok => by rw [herr] at hok; cases hok⟩

/-- Witness for C4: a line that begins with the active separator. -/
theorem C4_empty_first_token_fails_witness :
    parseMessage "MSH|^~\\&|A\n|PID|1".data = .error (.segmentInvalid []) :=
  (C4_empty_first_token_fails "MSH|^~\\&|A\n|PID|1".data 1 (by decide) (by decide)).1

/-! ### Claim C2: header self-description -/

/-- Specification reading: the component separator used for a segment is
the first of its encoding characters, defaulting to the caret. -/
def specCS (ec : Str) : Str :=
  match ec with
  | c :: _ => [c]
  | [] => "^".data

/-- Specification reading: the repetition separator is the second encoding
character, or none. -/
def specRS (ec : Str) : Str :=
  match ec with
  | _ :: c :: _ => [c]
  | _ => []

/-- Claim C2: every record of a tokenized message carries as field
separator the character adopted from the most recent header line at or
before it (the character immediately after the header code, default the
pipe), and as encoding characters the second token of the most recent
header line (default caret-tilde-backslash-ampersand); segment decoding
takes the component and repetition separators from the first two of those
characters, in order. -/
theorem C2_header_self_description :
    (∀ (data : Str) (recs : List SegmentLine),
      parseMessage data = .ok recs →
      recs.length = (scanLines (normalizeNewlines data)).length ∧
      ∀ i (hi : i < recs.length),
        (recs.get ⟨i, hi⟩).fieldSeparator =
          [specActiveFSFrom '|' (scanLines (normalizeNewlines data)) i] ∧
        (recs.get ⟨i, hi⟩).encodingCharacters =
          specActiveECFrom '|' "^~\\&".data (scanLines (normalizeNewlines data)) i) ∧
    (∀ (seg : SegmentLine) (schema : SegmentSchema),
      decodeSegmentWithSchema seg schema =
        decodeSegmentFields seg (specCS seg.encodingCharacters)
          (specRS seg.encodingCharacters) schema.Fields) := by
  constructor
  · intro data recs h
    obtain ⟨hlen, hall⟩ := parseLines_align _ _ _ _ h
    exact ⟨hlen, fun i hi => ⟨(hall i hi).1, (hall i hi).2.1⟩⟩
  · intro seg schema
    unfold decodeSegmentWithSchema specCS specRS
    cases hec : seg.encodingCharacters with
    | nil => rfl
    | cons c rest =>
      cases rest with
      | nil => rfl
      | cons c2 rest2 => simp

/-- Witness for C2: a two-message stream where the second header changes
the separator from the pipe to the hash character. -/
theorem C2_header_self_description_witness :
    (∃ recs : List SegmentLine,
      parseMessage "MSH|^~\\&|A\nPID|1\nMSH#@~\\&#B\nPID#2".data = .ok recs ∧
      recs.length = 4 ∧
      ∀ hi : 3 < recs.length,
        (recs.get ⟨3, hi⟩).fieldSeparator = "#".data ∧
        (recs.get ⟨3, hi⟩).encodingCharacters = "@~\\&".data) := by
  refine ⟨_, rfl, ?_, ?_⟩
  · have := (C2_header_self_description.1 "MSH|^~\\&|A\nPID|1\nMSH#@~\\&#B\nPID#2".data _
      rfl).1
    rw [this]
    rfl
  · intro hi
    have h3 := (C2_header_self_description.1 "MSH|^~\\&|A\nPID|1\nMSH#@~\\&#B\nPID#2".data _
      rfl).2 3 hi
    refine ⟨h3.1.trans (by rfl), h3.2.trans (by rfl)⟩

/-! ### Claim C5: omission of empty values -/

/-- Raw component text that decodeObjectComponents resolves for a 1-based
component index: none when out of range. -/
def resolveCompRaw (components : List Str) (idx : Int) : Option Str :=
  if idx - 1 < 0 ∨ idx - 1 ≥ (components.length : Int) then none
  else some (components.getD (idx - 1).toNat [])

/-- Every decoded component entry originates from a non-empty resolved
component text. -/
theorem decodeObjectComponents_origin (segName : Str) (fieldIdx : Int)
    (components : List Str) :
    ∀ (comps : List (String × FieldSchema)) (res : List (String × GoVal)),
    decodeObjectComponents segName fieldIdx components comps = .ok res →
    ∀ q ∈ res, ∃ c : FieldSchema, (q.1, c) ∈ comps ∧
      ∃ craw, resolveCompRaw components c.Index = some craw ∧ craw ≠ [] ∧
        coerceValue segName fieldIdx c.Index craw c.typ = .ok q.2 := by
  intro comps
  induction comps with
  | nil =>
    intro res h q hq
    cases h
    cases hq
  | cons hd tl ih =>
    obtain ⟨compName, compSchema⟩ := hd
    intro res h q hq
    rw [decodeObjectComponents] at h
    by_cases hcond : compSchema.Index - 1 < 0 ∨
        compSchema.Index - 1 ≥ (components.length : Int)
    · rw [if_pos hcond] at h
      obtain ⟨c, hmem, rest⟩ := ih res h q hq
      exact ⟨c, List.mem_cons_of_mem _ hmem, rest⟩
    · rw [if_neg hcond] at h
      by_cases hval : components.getD (compSchema.Index - 1).toNat [] = []
      · rw [if_pos hval] at h
        obtain ⟨c, hmem, rest⟩ := ih res h q hq
        exact ⟨c, List.mem_cons_of_mem _ hmem, rest⟩
      · rw [if_neg hval] at h
        cases hco : coerceValue segName fieldIdx compSchema.Index
            (components.getD (compSchema.Index - 1).toNat []) compSchema.typ with
        | error e => rw [hco] at h; cases h
        | ok v =>
          rw [hco] at h
          cases hre : decodeObjectComponents segName fieldIdx components tl with
          | error e => rw [hre] at h; cases h
          | ok tail =>
            rw [hre] at h
            cases h
            rcases List.mem_cons.mp hq with rfl | hq'
            · exact ⟨compSchema, List.mem_cons_self _ _,
                components.getD (compSchema.Index - 1).toNat [],
                by rw [resolveCompRaw, if_neg hcond], hval, hco⟩
            · obtain ⟨c, hmem, rest⟩ := ih tail hre q hq'
              exact ⟨c, List.mem_cons_of_mem _ hmem, rest⟩

/-- Components that all resolve to empty or out-of-range decode to the
empty component list. -/
theorem decodeObjectComponents_all_empty (segName : Str) (fieldIdx : Int)
    (components : List Str) :
    ∀ comps : List (String × FieldSchema),
    (∀ p ∈ comps, resolveCompRaw components (p : String × FieldSchema).2.Index = none ∨
      resolveCompRaw components p.2.Index = some []) →
    decodeObjectComponents segName fieldIdx components comps = .ok [] := by
  intro comps
  induction comps with
  | nil => intro _; rfl
  | cons hd tl ih =>
    obtain ⟨compName, compSchema⟩ := hd
    intro h
    have hhd := h (compName, compSchema) (List.mem_cons_self _ _)
    have htl := ih fun p hp => h p (List.mem_cons_of_mem _ hp)
    rw [decodeObjectComponents]
    rcases hhd with hn | hs
    · rw [resolveCompRaw] at hn
      split at hn
      · rw [if_pos (by assumption)]
        exact htl
      · cases hn
    · rw [resolveCompRaw] at hs
      split at hs
      · cases hs
      · rw [if_neg (by assumption)]
        rw [if_pos (Option.some.inj hs)]
        exact htl

/-- Claim C5: a raw field value resolving to empty text omits the field
key entirely; every emitted segment entry originates from a non-empty
resolved raw text whose field decode returned a value (never an empty
placeholder); an object whose declared components all resolve to empty
yields no value rather than an empty object, and any emitted object value
is a non-empty map whose entries each originate from a non-empty component
text; array decoding skips empty elements, producing exactly one item per
non-empty element. -/
theorem C5_omission_on_empty :
    (∀ (seg : SegmentLine) (cs rs : Str) (fields : List (String × FieldSchema))
      (res : List (String × GoVal)),
      decodeSegmentFields seg cs rs fields = .ok res →
      ∀ p ∈ res, ∃ fSchema : FieldSchema, ((p : String × GoVal).1, fSchema) ∈ fields ∧
        ∃ raw, resolveFieldRaw seg fSchema.Index = some raw ∧ raw ≠ [] ∧
          decodeFieldWithSchema seg.name fSchema.Index raw fSchema cs rs = .ok (some p.2)) ∧
    (∀ (segName : Str) (fieldIdx : Int) (raw : Str) (schema : FieldSchema) (cs : Str)
      (out : Option GoVal),
      decodeObjectField segName fieldIdx raw schema cs = .ok out →
      out = none ∨ ∃ m, out = some (.vmap m) ∧ m ≠ [] ∧
        ∀ q ∈ m, ∃ c : FieldSchema, ((q : String × GoVal).1, c) ∈ schema.Components ∧
          ∃ craw, resolveCompRaw (splitOnStr cs raw) c.Index = some craw ∧ craw ≠ []) ∧
    (∀ (segName : Str) (fieldIdx : Int) (raw : Str) (schema : FieldSchema) (cs : Str),
      (∀ p ∈ schema.Components,
        resolveCompRaw (splitOnStr cs raw) (p : String × FieldSchema).2.Index = none ∨
        resolveCompRaw (splitOnStr cs raw) p.2.Index = some []) →
      decodeObjectField segName fieldIdx raw schema cs = .ok none) ∧
    (∀ (segName : Str) (fieldIdx : Int) (items : Option FieldSchema) (cs : Str)
      (reps : List Str) (out : List GoVal),
      decodeArrayItems segName fieldIdx items cs reps = .ok out →
      out.length = (reps.filter fun r => !r.isEmpty).length) := by
  refine ⟨?_, ?_, ?_, ?_⟩
  · intro seg cs rs fields
    induction fields with
    | nil =>
      intro res h p hp
      cases h
      cases hp
    | cons hd tl ih =>
      obtain ⟨fieldName, fSchema⟩ := hd
      intro res h p hp
      rw [decodeSegmentFields_cons] at h
      cases hres : resolveFieldRaw seg fSchema.Index with
      | none =>
        rw [hres] at h
        obtain ⟨fs', hmem, rest⟩ := ih res h p hp
        exact ⟨fs', List.mem_cons_of_mem _ hmem, rest⟩
      | some raw =>
        rw [hres] at h
        simp only at h
        by_cases hraw : raw = []
        · rw [if_pos hraw] at h
          obtain ⟨fs', hmem, rest⟩ := ih res h p hp
          exact ⟨fs', List.mem_cons_of_mem _ hmem, rest⟩
        · rw [if_neg hraw] at h
          cases hval : decodeFieldWithSchema seg.name fSchema.Index raw fSchema cs rs with
          | error e => rw [hval] at h; cases h
          | ok val =>
            rw [hval] at h
            cases hre : decodeSegmentFields seg cs rs tl with
            | error e => rw [hre] at h; cases h
            | ok tail =>
              rw [hre] at h
              cases val with
              | some v =>
                cases h
                rcases List.mem_cons.mp hp with rfl | hp'
                · exact ⟨fSchema, List.mem_cons_self _ _, raw, hres, hraw, hval⟩
                · obtain ⟨fs', hmem, rest⟩ := ih tail hre p hp'
                  exact ⟨fs', List.mem_cons_of_mem _ hmem, rest⟩
              | none =>
                cases h
                obtain ⟨fs', hmem, rest⟩ := ih _ hre p hp
                exact ⟨fs', List.mem_cons_of_mem _ hmem, rest⟩
  · intro segName fieldIdx raw schema cs out h
    rw [decodeObjectField] at h
    cases hre : decodeObjectComponents segName fieldIdx (splitOnStr cs raw)
        schema.Components with
    | error e => rw [hre] at h; cases h
    | ok result =>
      rw [hre] at h
      cases result with
      | nil =>
        cases h
        exact Or.inl rfl
      | cons q0 qtl =>
        cases h
        refine Or.inr ⟨q0 :: qtl, rfl, by simp, ?_⟩
        intro q hq
        obtain ⟨c, hmem, craw, hcraw, hne, _⟩ :=
          decodeObjectComponents_origin segName fieldIdx (splitOnStr cs raw)
            schema.Components _ hre q hq
        exact ⟨c, hmem, craw, hcraw, hne⟩
  · intro segName fieldIdx raw schema cs h
    rw [decodeObjectField,
      decodeObjectComponents_all_empty segName fieldIdx (splitOnStr cs raw)
        schema.Components h]
    rfl
  · intro segName fieldIdx items cs reps
    induction reps with
    | nil =>
      intro out h
      cases h
      rfl
    | cons r rtl ih =>
      intro out h
      rw [decodeArrayItems.eq_def] at h
      simp only at h
      by_cases hr : r = []
      · rw [if_pos hr] at h
        rw [List.filter_cons, hr]
        simpa using ih out h
      · rw [if_neg hr] at h
        cases items with
        | none => cases h
        | some itemSchema =>
          simp only at h
          rw [List.filter_cons]
          have hne : (!List.isEmpty r) = true := by
            cases r
            · exact absurd rfl hr
            · rfl
          rw [if_pos (by simp [hne])]
          cases hty : itemSchema.typ with
          | tobject =>
            rw [hty] at h
            simp only at h
            cases hob : decodeObjectField segName fieldIdx r itemSchema cs with
            | error e => rw [hob] at h; cases h
            | ok val =>
              rw [hob] at h
              cases hta : decodeArrayItems segName fieldIdx (some itemSchema) cs rtl with
              | error e => rw [hta] at h; cases h
              | ok tail =>
                rw [hta] at h
                cases h
                simp only [List.length_cons]
                rw [ih tail hta]
          | tstring => ?_
          | tint => ?_
          | tfloat => ?_
          | tbool => ?_
          | ttimestamp => ?_
          | tarray => ?_
          | tempty => ?_
          all_goals {
            rw [hty] at h
            simp only at h
            cases hco : coerceValue segName fieldIdx 0 r itemSchema.typ with
            | error e => rw [hty] at hco; rw [hco] at h; cases h
            | ok v =>
              rw [hty] at hco
              rw [hco] at h
              cases hta : decodeArrayItems segName fieldIdx (some itemSchema) cs rtl with
              | error e => rw [hta] at h; cases h
              | ok tail =>
                rw [hta] at h
                cases h
                simp only [List.length_cons]
                rw [ih tail hta]
          }

/-- Witness for C5: a segment whose declared field resolves to empty text
is omitted; an object raw of two separators decodes to no value; an array
with interleaved empty repetitions yields one item per non-empty element. -/
theorem C5_omission_on_empty_witness :
    (∃ res, decodeSegmentFields
        ⟨"PID".data, ["PID".data, [], "A".data], "|".data, "^~\\&".data⟩
        "^".data "~".data
        [("empty", .mk 1 .tstring [] none), ("present", .mk 2 .tstring [] none)] =
        .ok res ∧
      ∀ p ∈ res, ∃ fSchema : FieldSchema,
        ((p : String × GoVal).1, fSchema) ∈
          [("empty", FieldSchema.mk 1 .tstring [] none),
           ("present", FieldSchema.mk 2 .tstring [] none)] ∧
        ∃ raw, resolveFieldRaw
            ⟨"PID".data, ["PID".data, [], "A".data], "|".data, "^~\\&".data⟩
            fSchema.Index = some raw ∧ raw ≠ [] ∧
          decodeFieldWithSchema "PID".data fSchema.Index raw fSchema "^".data "~".data =
            .ok (some p.2)) ∧
    decodeObjectField "PID".data 3 "^^".data
      (.mk 3 .tobject [("c1", .mk 1 .tstring [] none), ("c2", .mk 2 .tstring [] none),
        ("c3", .mk 3 .tstring [] none)] none) "^".data = .ok none ∧
    (∃ out, decodeArrayItems "PID".data 3 (some (.mk 0 .tstring [] none)) "^".data
        [[], "a".data, [], "b".data, []] = .ok out ∧ out.length = 2) := by
  refine ⟨⟨_, rfl, ?_⟩, ?_, ⟨_, rfl, ?_⟩⟩
  · exact C5_omission_on_empty.1
      ⟨"PID".data, ["PID".data, [], "A".data], "|".data, "^~\\&".data⟩
      "^".data "~".data _ _ rfl
  · exact C5_omission_on_empty.2.2.1 "PID".data 3 "^^".data
      (.mk 3 .tobject [("c1", .mk 1 .tstring [] none), ("c2", .mk 2 .tstring [] none),
        ("c3", .mk 3 .tstring [] none)] none) "^".data (by decide)
  · rw [C5_omission_on_empty.2.2.2 "PID".data 3 (some (.mk 0 .tstring [] none)) "^".data
      [[], "a".data, [], "b".data, []] _ rfl]
    rfl

/-! ### Claim C1, phase A: scalar render/reparse round trips -/

theorem digitChar_toNat : ∀ d < 10, (Nat.digitChar d).toNat = 48 + d := by decide

/-- Folding the decimal decoder over digit characters rebuilds the value. -/
theorem foldl_decode_digits (ds : List Nat) (hds : ∀ d ∈ ds, d < 10) (a : Nat) :
    ((ds.reverse.map Nat.digitChar).foldl (fun acc c => acc * 10 + (c.toNat - 48)) a) =
      a * 10 ^ ds.length + Nat.ofDigits 10 ds := by
  induction ds generalizing a with
  | nil => simp
  | cons d dtl ih =>
    have hd : d < 10 := hds d (List.mem_cons_self _ _)
    have htl : ∀ x ∈ dtl, x < 10 := fun x hx => hds x (List.mem_cons_of_mem _ hx)
    simp only [List.reverse_cons, List.map_append, List.map_cons, List.map_nil,
      List.foldl_append, List.foldl_cons, List.foldl_nil]
    rw [ih htl a]
    rw [digitChar_toNat d hd]
    simp only [List.length_cons, Nat.ofDigits_cons]
    ring_nf
    omega

theorem decode_natDecimal (n : Nat) :
    (natDecimal n).foldl (fun acc c => acc * 10 + (c.toNat - 48)) 0 = n := by
  unfold natDecimal
  split
  · simp [*]
  · rw [foldl_decode_digits _ (fun d hd => Nat.digits_lt_base (by norm_num) hd) 0]
    simp [Nat.ofDigits_digits]

theorem foldl_decode_replicate (k : Nat) (a : Nat) :
    ((List.replicate k '0').foldl (fun acc c => acc * 10 + (c.toNat - 48)) a) =
      a * 10 ^ k := by
  induction k generalizing a with
  | zero => simp
  | succ j ih =>
    rw [List.replicate_succ, List.foldl_cons, ih]
    have : ('0'.toNat - 48) = 0 := by decide
    rw [this]
    ring

theorem decode_padNat (w n : Nat) :
    (padNat w n).foldl (fun acc c => acc * 10 + (c.toNat - 48)) 0 = n := by
  unfold padNat
  rw [List.foldl_append, foldl_decode_replicate]
  simpa using decode_natDecimal n

theorem parseFixedNat_pad (w n : Nat) (rest : Str)
    (hn : (natDecimal n).length ≤ w) :
    parseFixedNat w (padNat w n ++ rest) = some (n, rest) := by
  have hlen : (padNat w n).length = w := padNat_length hn
  unfold parseFixedNat
  rw [List.take_left' hlen, List.drop_left' hlen]
  rw [if_pos ⟨hlen, List.all_eq_true.mpr fun c hc => padNat_all_digit w n c hc⟩]
  rw [decode_padNat]

theorem parseGoIntDigits_natDecimal (sign : Int) (k : Nat)
    (hrange : -(2 ^ 63) ≤ sign * k ∧ sign * (k : Int) ≤ 2 ^ 63 - 1) :
    parseGoIntDigits sign (natDecimal k) = some (sign * k) := by
  unfold parseGoIntDigits
  have h1 : ¬(natDecimal k = [] ∨ ¬(natDecimal k).all Char.isDigit = true) := by
    push_neg
    exact ⟨natDecimal_ne_nil k,
      List.all_eq_true.mpr fun c hc => natDecimal_all_digit k c hc⟩
  rw [if_neg h1]
  simp only [decode_natDecimal]
  rw [if_pos hrange]

/-- strconv round trip for int64 values. -/
theorem parseGoInt_formatGoInt (n : Int) (hlo : -(2 ^ 63) ≤ n) (hhi : n ≤ 2 ^ 63 - 1) :
    parseGoInt (formatGoInt n) = some n := by
  unfold formatGoInt
  by_cases hneg : n < 0
  · rw [if_pos hneg]
    have hcast : (((-n).toNat : Int)) = -n := Int.toNat_of_nonneg (by omega)
    have : parseGoInt ('-' :: natDecimal (-n).toNat) =
        parseGoIntDigits (-1) (natDecimal (-n).toNat) := rfl
    rw [this, parseGoIntDigits_natDecimal (-1) (-n).toNat
      (by rw [hcast]; constructor <;> omega)]
    congr 1
    rw [hcast]
    ring
  · rw [if_neg hneg]
    have hcast : ((n.toNat : Int)) = n := Int.toNat_of_nonneg (by omega)
    unfold parseGoInt
    split
    · rename_i rest heq
      have := natDecimal_all_digit n.toNat '+' (heq ▸ List.mem_cons_self _ _)
      simp at this
    · rename_i rest heq
      have := natDecimal_all_digit n.toNat '-' (heq ▸ List.mem_cons_self _ _)
      simp at this
    · rw [parseGoIntDigits_natDecimal 1 n.toNat (by rw [hcast]; constructor <;> omega)]
      congr 1
      rw [hcast]
      ring

/-- Conditions under which a decoded timestamp survives the compact
re-rendering: non-zero, no zone offset, no sub-second part, in-range
fields, four-digit year. -/
def tsRoundOK (t : GoTime) : Bool :=
  !t.isZero && t.offset == 0 && t.nsec == 0 && validClock t &&
    decide (0 ≤ t.year) && decide (t.year ≤ 9999)

theorem parseTElems_append (l1 : List TElem) :
    ∀ (t : GoTime) (s : Str) (l2 : List TElem),
    parseTElems t s (l1 ++ l2) =
      (match parseTElems t s l1 with
      | some (t', s') => parseTElems t' s' l2
      | none => none) := by
  induction l1 with
  | nil => intro t s l2; rfl
  | cons e etl ih =>
    intro t s l2
    rw [List.cons_append, parseTElems, parseTElems]
    cases parseTElem t s e with
    | none => rfl
    | some p => exact ih p.1 p.2 l2

/-- The six calendar elements of the compact layout parse the six padded
fields in sequence. -/
theorem parseTElems_six (t0 : GoTime) (y mo d h mi s : Nat) (rest : Str)
    (hy : y ≤ 9999) (hmo : mo ≤ 99) (hd : d ≤ 99) (hh : h ≤ 99) (hmi : mi ≤ 99)
    (hs : s ≤ 99) :
    parseTElems t0
      (padNat 4 y ++ (padNat 2 mo ++ (padNat 2 d ++ (padNat 2 h ++
        (padNat 2 mi ++ (padNat 2 s ++ rest))))))
      [.year4, .month2, .day2, .hour2, .minute2, .second2] =
      some (⟨(y : Int), mo, d, h, mi, s, t0.nsec, t0.offset⟩, rest) := by
  have ly : (natDecimal y).length ≤ 4 := natDecimal_length_le (by omega) (by omega)
  have lmo : (natDecimal mo).length ≤ 2 := natDecimal_length_le (by omega) (by omega)
  have ld : (natDecimal d).length ≤ 2 := natDecimal_length_le (by omega) (by omega)
  have lh : (natDecimal h).length ≤ 2 := natDecimal_length_le (by omega) (by omega)
  have lmi : (natDecimal mi).length ≤ 2 := natDecimal_length_le (by omega) (by omega)
  have ls : (natDecimal s).length ≤ 2 := natDecimal_length_le (by omega) (by omega)
  rw [parseTElems]
  rw [show parseTElem t0 (padNat 4 y ++ (padNat 2 mo ++ (padNat 2 d ++ (padNat 2 h ++
    (padNat 2 mi ++ (padNat 2 s ++ rest)))))) .year4 =
    (parseFixedNat 4 (padNat 4 y ++ (padNat 2 mo ++ (padNat 2 d ++ (padNat 2 h ++
      (padNat 2 mi ++ (padNat 2 s ++ rest))))))).map
      (fun p => ({ t0 with year := (p.1 : Int) }, p.2)) from rfl]
  rw [parseFixedNat_pad 4 y _ ly]
  simp only [Option.map_some']
  rw [parseTElems]
  rw [show ∀ tx sx, parseTElem tx sx TElem.month2 =
    (parseFixedNat 2 sx).map (fun p => ({ tx with month := p.1 }, p.2)) from
    fun tx sx => rfl]
  rw [parseFixedNat_pad 2 mo _ lmo]
  simp only [Option.map_some']
  rw [parseTElems]
  rw [show ∀ tx sx, parseTElem tx sx TElem.day2 =
    (parseFixedNat 2 sx).map (fun p => ({ tx with day := p.1 }, p.2)) from
    fun tx sx => rfl]
  rw [parseFixedNat_pad 2 d _ ld]
  simp only [Option.map_some']
  rw [parseTElems]
  rw [show ∀ tx sx, parseTElem tx sx TElem.hour2 =
    (parseFixedNat 2 sx).map (fun p => ({ tx with hour := p.1 }, p.2)) from
    fun tx sx => rfl]
  rw [parseFixedNat_pad 2 h _ lh]
  simp only [Option.map_some']
  rw [parseTElems]
  rw [show ∀ tx sx, parseTElem tx sx TElem.minute2 =
    (parseFixedNat 2 sx).map (fun p => ({ tx with minute := p.1 }, p.2)) from
    fun tx sx => rfl]
  rw [parseFixedNat_pad 2 mi _ lmi]
  simp only [Option.map_some']
  rw [parseTElems]
  rw [show ∀ tx sx, parseTElem tx sx TElem.second2 =
    (parseFixedNat 2 sx).map (fun p => ({ tx with second := p.1 }, p.2)) from
    fun tx sx => rfl]
  rw [parseFixedNat_pad 2 s _ ls]
  simp only [Option.map_some']
  rfl

/-- Compact rendering followed by timestamp parsing restores the value. -/
theorem tsUnmarshal_tsFormatCompact (t : GoTime) (h : tsRoundOK t = true) :
    tsUnmarshal (tsFormatCompact t) = .ok t := by
  have hok := h
  unfold tsRoundOK at hok
  simp only [Bool.and_eq_true, Bool.not_eq_eq_eq_not, Bool.not_true, beq_iff_eq,
    decide_eq_true_eq] at hok
  obtain ⟨⟨⟨⟨⟨hnz, hoff⟩, hnsec⟩, hvc⟩, hy0⟩, hy9⟩ := hok
  have hvc' := hvc
  unfold validClock at hvc'
  simp only [decide_eq_true_eq] at hvc'
  obtain ⟨hm1, hm12, hd1, hdm, hh23, hmi59, hs59⟩ := hvc'
  have hform : tsFormatCompact t =
      padNat 4 t.year.toNat ++ (padNat 2 t.month ++ (padNat 2 t.day ++
        (padNat 2 t.hour ++ (padNat 2 t.minute ++ (padNat 2 t.second ++ []))))) := by
    unfold tsFormatCompact
    rw [List.append_nil]
    simp [List.append_assoc]
  have hday99 : t.day ≤ 99 := by
    have : daysInMonth t.year t.month ≤ 31 := by
      unfold daysInMonth
      split
      · split <;> omega
      · split <;> omega
    omega
  have hsix := parseTElems_six GoTime.zero t.year.toNat t.month t.day t.hour
    t.minute t.second [] (by omega) (by omega) hday99 (by omega) (by omega) (by omega)
  have hT : (⟨(t.year.toNat : Int), t.month, t.day, t.hour, t.minute, t.second,
      GoTime.zero.nsec, GoTime.zero.offset⟩ : GoTime) = t := by
    have hyy : ((t.year.toNat : Int)) = t.year := Int.toNat_of_nonneg hy0
    cases t
    simp only [GoTime.zero] at hyy hoff hnsec ⊢
    simp_all
  rw [hT] at hsix
  have hsixv : parseTElems GoTime.zero (tsFormatCompact t)
      [.year4, .month2, .day2, .hour2, .minute2, .second2] = some (t, []) := by
    rw [hform]; exact hsix
  have hL6 : timeParse [.year4, .month2, .day2, .hour2, .minute2, .second2]
      (tsFormatCompact t) = some t := by
    unfold timeParse
    rw [hsixv]
    simp [hvc]
  have hfail : ∀ extra : List TElem,
      (∀ tx : GoTime, parseTElems tx [] extra = none) →
      timeParse ([.year4, .month2, .day2, .hour2, .minute2, .second2] ++ extra)
        (tsFormatCompact t) = none := by
    intro extra hex
    unfold timeParse
    rw [parseTElems_append, hsixv]
    simp only [hex]
  have hfrac : ∀ (tx : GoTime) (l2 : List TElem),
      parseTElems tx [] (.frac4 :: l2) = none := fun tx l2 => rfl
  have htz : ∀ (tx : GoTime) (l2 : List TElem),
      parseTElems tx [] (.tzNum :: l2) = none := fun tx l2 => rfl
  have hlit : ∀ (tx : GoTime) (c : Char) (l2 : List TElem),
      parseTElems tx [] (.lit c :: l2) = none := fun tx c l2 => rfl
  have hne : tsFormatCompact t ≠ [] := by
    intro hnil
    have : (tsFormatCompact t).length = 0 := by rw [hnil]; rfl
    unfold tsFormatCompact at this
    simp only [List.length_append] at this
    unfold padNat at this
    simp only [List.length_append, List.length_replicate] at this
    have := natDecimal_ne_nil t.year.toNat
    have hpos : 0 < (natDecimal t.year.toNat).length := List.length_pos.mpr this
    omega
  have e1 : timeParse [.year4, .month2, .day2, .hour2, .minute2, .second2, .frac4,
      .tzNum] (tsFormatCompact t) = none :=
    hfail [.frac4, .tzNum] (fun tx => hfrac tx _)
  have e2 : timeParse [.year4, .month2, .day2, .hour2, .minute2, .second2, .frac4,
      .lit '+', .lit '0', .lit '7', .lit '0', .lit '0'] (tsFormatCompact t) = none :=
    hfail [.frac4, .lit '+', .lit '0', .lit '7', .lit '0', .lit '0']
      (fun tx => hfrac tx _)
  have e3 : timeParse [.year4, .month2, .day2, .hour2, .minute2, .second2, .frac4]
      (tsFormatCompact t) = none :=
    hfail [.frac4] (fun tx => hfrac tx _)
  have e4 : timeParse [.year4, .month2, .day2, .hour2, .minute2, .second2, .tzNum]
      (tsFormatCompact t) = none :=
    hfail [.tzNum] (fun tx => htz tx _)
  have e5 : timeParse [.year4, .month2, .day2, .hour2, .minute2, .second2,
      .lit '+', .lit '0', .lit '7', .lit '0', .lit '0'] (tsFormatCompact t) = none :=
    hfail [.lit '+', .lit '0', .lit '7', .lit '0', .lit '0'] (fun tx => hlit tx _ _)
  unfold tsUnmarshal
  rw [if_neg hne]
  unfold timestampLayouts
  unfold tryLayouts
  rw [e1]
  unfold tryLayouts
  rw [e2]
  unfold tryLayouts
  rw [e3]
  unfold tryLayouts
  rw [e4]
  unfold tryLayouts
  rw [e5]
  unfold tryLayouts
  rw [hL6]

theorem parseGoIntDigits_range {sign : Int} {digits : Str} {n : Int}
    (h : parseGoIntDigits sign digits = some n) :
    -(2 ^ 63) ≤ n ∧ n ≤ 2 ^ 63 - 1 := by
  unfold parseGoIntDigits at h
  split at h
  · cases h
  · split at h
    · cases h
      assumption
    · cases h

theorem parseGoInt_range {s : Str} {n : Int} (h : parseGoInt s = some n) :
    -(2 ^ 63) ≤ n ∧ n ≤ 2 ^ 63 - 1 := by
  unfold parseGoInt at h
  split at h <;> exact parseGoIntDigits_range h

theorem tsFormatCompact_ne_nil (t : GoTime) : tsFormatCompact t ≠ [] := by
  intro hnil
  have : (tsFormatCompact t).length = 0 := by rw [hnil]; rfl
  unfold tsFormatCompact at this
  simp only [List.length_append] at this
  unfold padNat at this
  simp only [List.length_append, List.length_replicate] at this
  have := natDecimal_ne_nil t.year.toNat
  have hpos : 0 < (natDecimal t.year.toNat).length := List.length_pos.mpr this
  omega

theorem tsFormatCompact_all_digit (t : GoTime) :
    ∀ c ∈ tsFormatCompact t, c.isDigit = true := by
  intro c hc
  unfold tsFormatCompact at hc
  simp only [List.mem_append] at hc
  rcases hc with ((((h | h) | h) | h) | h) | h <;> exact padNat_all_digit _ _ c h

theorem formatGoInt_ne_nil (n : Int) : formatGoInt n ≠ [] := by
  unfold formatGoInt
  split
  · simp
  · exact natDecimal_ne_nil _

theorem formatGoInt_chars (n : Int) :
    ∀ c ∈ formatGoInt n, c.isDigit = true ∨ c = '-' := by
  intro c hc
  unfold formatGoInt at hc
  split at hc
  · rcases List.mem_cons.mp hc with rfl | hc'
    · exact Or.inr rfl
    · exact Or.inl (natDecimal_all_digit _ c hc')
  · exact Or.inl (natDecimal_all_digit _ c hc)

/-- Claim C1 phase A: a scalar decoded from non-empty raw text re-renders
to non-empty text that decodes back to the same value, and the rendering
introduces no characters beyond the original text, decimal digits, the
minus sign and the bool letters. -/
theorem coerce_marshal_roundtrip (segName segName' : Str) (fi ci fi' ci' : Int)
    (raw : Str) (typ : SchemaType) (v : GoVal)
    (hty : typ ≠ .tfloat) (hraw : raw ≠ [])
    (hco : coerceValue segName fi ci raw typ = .ok v)
    (hts : ∀ t, v = .vtime t → tsRoundOK t = true) :
    marshalScalarValue v typ ≠ [] ∧
    coerceValue segName' fi' ci' (marshalScalarValue v typ) typ = .ok v ∧
    ∀ c ∈ marshalScalarValue v typ,
      c ∈ raw ∨ c.isDigit = true ∨ c = '-' ∨ c = 'Y' ∨ c = 'N' := by
  cases typ with
  | tfloat => exact absurd rfl hty
  | tint =>
    unfold coerceValue at hco
    cases hp : parseGoInt raw with
    | none => rw [hp] at hco; cases hco
    | some n =>
      rw [hp] at hco
      cases hco
      have hrange := parseGoInt_range hp
      have hm : marshalScalarValue (.vint n) .tint = formatGoInt n := rfl
      rw [hm]
      refine ⟨formatGoInt_ne_nil n, ?_, ?_⟩
      · unfold coerceValue
        rw [parseGoInt_formatGoInt n hrange.1 hrange.2]
      · intro c hc
        rcases formatGoInt_chars n c hc with h | h
        · exact Or.inr (Or.inl h)
        · exact Or.inr (Or.inr (Or.inl h))
  | tbool =>
    unfold coerceValue at hco
    by_cases h1 : toUpperGo raw = "Y".data ∨ toUpperGo raw = "TRUE".data ∨
        toUpperGo raw = "1".data
    · rw [if_pos h1] at hco
      cases hco
      refine ⟨by decide, rfl, ?_⟩
      intro c hc
      have hc' : c ∈ ['Y'] := hc
      have : c = 'Y' := by simpa using hc'
      exact Or.inr (Or.inr (Or.inr (Or.inl this)))
    · rw [if_neg h1] at hco
      by_cases h2 : toUpperGo raw = "N".data ∨ toUpperGo raw = "FALSE".data ∨
          toUpperGo raw = "0".data
      · rw [if_pos h2] at hco
        cases hco
        refine ⟨by decide, rfl, ?_⟩
        intro c hc
        have hc' : c ∈ ['N'] := hc
        have : c = 'N' := by simpa using hc'
        exact Or.inr (Or.inr (Or.inr (Or.inr this)))
      · rw [if_neg h2] at hco
        cases hco
  | ttimestamp =>
    unfold coerceValue at hco
    cases hp : tsUnmarshal raw with
    | error e => rw [hp] at hco; cases hco
    | ok t =>
      rw [hp] at hco
      cases hco
      have hrt := hts t rfl
      have hnz : t.isZero = false := by
        unfold tsRoundOK at hrt
        simp only [Bool.and_eq_true] at hrt
        simpa using hrt.1.1.1.1.1
      have hm : marshalScalarValue (.vtime t) .ttimestamp =
          (if t.isZero then [] else tsFormatCompact t) := rfl
      rw [hm, hnz]
      simp only [Bool.false_eq_true, if_false]
      refine ⟨tsFormatCompact_ne_nil t, ?_, ?_⟩
      · unfold coerceValue
        rw [tsUnmarshal_tsFormatCompact t hrt]
      · intro c hc
        exact Or.inr (Or.inl (tsFormatCompact_all_digit t c hc))
  | tstring =>
    unfold coerceValue at hco
    cases hco
    exact ⟨hraw, rfl, fun c hc => Or.inl hc⟩
  | tobject =>
    unfold coerceValue at hco
    cases hco
    exact ⟨hraw, rfl, fun c hc => Or.inl hc⟩
  | tarray =>
    unfold coerceValue at hco
    cases hco
    exact ⟨hraw, rfl, fun c hc => Or.inl hc⟩
  | tempty =>
    unfold coerceValue at hco
    cases hco
    exact ⟨hraw, rfl, fun c hc => Or.inl hc⟩

/-! ### Claim C1, phase B: separator facts about splitOn and trimming -/

theorem splitOnP_pieces (p : Char → Bool) (s : Str) :
    ∀ l ∈ s.splitOnP p, ∀ x ∈ l, ¬ p x := by
  induction s with
  | nil =>
    intro l hl x hx
    rw [List.splitOnP_nil] at hl
    simp only [List.mem_singleton] at hl
    subst hl
    cases hx
  | cons a s ih =>
    intro l hl x hx
    rw [List.splitOnP_cons] at hl
    by_cases hpa : p a
    · rw [if_pos hpa] at hl
      rcases List.mem_cons.mp hl with rfl | hl'
      · cases hx
      · exact ih l hl' x hx
    · rw [if_neg hpa] at hl
      cases hsp : s.splitOnP p with
      | nil => exact absurd hsp (List.splitOnP_ne_nil p s)
      | cons h t =>
        rw [hsp] at hl
        simp only [List.modifyHead] at hl
        rcases List.mem_cons.mp hl with rfl | hl'
        · rcases List.mem_cons.mp hx with rfl | hx'
          · exact hpa
          · exact ih h (by rw [hsp]; exact List.mem_cons_self _ _) x hx'
        · exact ih l (by rw [hsp]; exact List.mem_cons_of_mem _ hl') x hx

theorem splitOn_pieces_not_mem (c : Char) (s : Str) :
    ∀ l ∈ s.splitOn c, c ∉ l := by
  intro l hl hc
  exact splitOnP_pieces (· == c) s l hl c hc (by simp)

theorem trimTrailingEmpty_prefixOf (l : List Str) :
    trimTrailingEmpty l <+: l := by
  induction l with
  | nil => exact List.prefix_refl _
  | cons s rest ih =>
    rw [trimTrailingEmpty]
    cases htr : trimTrailingEmpty rest with
    | nil =>
      by_cases hs : s = []
      · rw [if_pos hs]
        exact List.nil_prefix
      · rw [if_neg hs]
        exact ⟨rest, rfl⟩
    | cons r rtl =>
      rw [htr] at ih
      exact List.cons_prefix_cons.mpr ⟨rfl, ih⟩

theorem trimTrailingEmpty_length_le (l : List Str) :
    (trimTrailingEmpty l).length ≤ l.length :=
  (trimTrailingEmpty_prefixOf l).length_le

theorem trimTrailingEmpty_getD (l : List Str) (i : Nat)
    (hi : i < (trimTrailingEmpty l).length) :
    (trimTrailingEmpty l).getD i [] = l.getD i [] := by
  obtain ⟨t, ht⟩ := trimTrailingEmpty_prefixOf l
  conv_rhs => rw [← ht]
  rw [List.getD_eq_getElem?_getD, List.getD_eq_getElem?_getD,
    List.getElem?_append_left hi]

theorem trimTrailingEmpty_after (l : List Str) :
    ∀ i, (trimTrailingEmpty l).length ≤ i → l.getD i [] = [] := by
  induction l with
  | nil => intro i _; cases i <;> rfl
  | cons s rest ih =>
    intro i hi
    rw [trimTrailingEmpty] at hi
    cases htr : trimTrailingEmpty rest with
    | nil =>
      rw [htr] at hi
      simp only at hi
      by_cases hs : s = []
      · rw [if_pos hs] at hi
        cases i with
        | zero => simpa using hs
        | succ j =>
          simp only [List.getD_cons_succ]
          exact ih j (by rw [htr]; simp)
      · rw [if_neg hs] at hi
        cases i with
        | zero => simp at hi
        | succ j =>
          simp only [List.getD_cons_succ]
          exact ih j (by rw [htr]; simp)
    | cons r rtl =>
      rw [htr] at hi
      cases i with
      | zero => simp at hi
      | succ j =>
        simp only [List.getD_cons_succ]
        refine ih j ?_
        rw [htr]
        simpa using hi

theorem trimTrailingEmpty_eq_nil (l : List Str) (h : trimTrailingEmpty l = []) :
    ∀ s ∈ l, s = [] := by
  intro s hs
  obtain ⟨i, hi, rfl⟩ := List.mem_iff_getElem.mp hs
  have := trimTrailingEmpty_after l i (by rw [h]; exact Nat.zero_le i)
  rw [List.getD_eq_getElem _ _ hi] at this
  exact this

theorem intercalate_ne_nil_of_mem (c : Char) (l : List Str) (p : Str)
    (hp : p ∈ l) (hpne : p ≠ []) : List.intercalate [c] l ≠ [] := by
  induction l with
  | nil => cases hp
  | cons x xtl ih =>
    cases xtl with
    | nil =>
      simp only [List.mem_singleton] at hp
      subst hp
      simpa [List.intercalate] using hpne
    | cons y ytl =>
      intro hnil
      have : c ∈ List.intercalate [c] (x :: y :: ytl) := by
        unfold List.intercalate
        simp only [List.intersperse_cons_cons, List.flatten_cons]
        simp
      rw [hnil] at this
      cases this

theorem maxCompIndex_ge (comps : List (String × FieldSchema)) :
    ∀ p ∈ comps, (p : String × FieldSchema).2.Index ≤ maxCompIndex comps := by
  have key : ∀ (l : List (String × FieldSchema)) (a : Int),
      (∀ p ∈ l, (p : String × FieldSchema).2.Index ≤
        l.foldl (fun m c => if c.2.Index > m then c.2.Index else m) a) ∧
      a ≤ l.foldl (fun m c => if c.2.Index > m then c.2.Index else m) a := by
    intro l
    induction l with
    | nil => exact fun a => ⟨fun p hp => absurd hp (by simp), le_refl a⟩
    | cons hd tl ih =>
      intro a
      constructor
      · intro p hp
        rcases List.mem_cons.mp hp with rfl | hp'
        · refine le_trans ?_ (ih _).2
          show p.2.Index ≤ if p.2.Index > a then p.2.Index else a
          split <;> omega
        · exact (ih _).1 p hp'
      · refine le_trans ?_ (ih _).2
        show a ≤ if hd.2.Index > a then hd.2.Index else a
        split <;> omega
  exact fun p hp => (key comps 0).1 p hp

theorem maxFieldIndex_ge (flds : List (String × FieldSchema)) :
    ∀ p ∈ flds, (p : String × FieldSchema).2.Index ≤ maxFieldIndex flds :=
  maxCompIndex_ge flds

/-! ### C1: association-list facts -/

/-- Keys of an association list. -/
def alKeys {α ν : Type} (m : List (α × ν)) : List α := m.map Prod.fst

theorem lookup_mem_of_eq_some {α ν : Type} [BEq α] [LawfulBEq α]
    {l : List (α × ν)} {k : α} {v : ν} (h : l.lookup k = some v) : (k, v) ∈ l := by
  induction l with
  | nil => cases h
  | cons p rest ih =>
    simp only [List.lookup] at h
    cases hk : k == p.1
    · rw [hk] at h
      exact List.mem_cons_of_mem _ (ih h)
    · rw [hk] at h
      cases h
      have : k = p.1 := eq_of_beq hk
      subst this
      exact List.mem_cons_self _ _

theorem lookup_eq_none_of_not_mem {α ν : Type} [BEq α] [LawfulBEq α]
    {l : List (α × ν)} {k : α} (h : k ∉ alKeys l) : l.lookup k = none := by
  induction l with
  | nil => rfl
  | cons p rest ih =>
    simp only [alKeys, List.map_cons, List.mem_cons, not_or] at h
    simp only [List.lookup]
    rw [beq_eq_false_iff_ne.mpr h.1]
    exact ih h.2

/-- Generic form of lookup_of_mem_nodup. -/
theorem alookup_of_mem_nodup {α ν : Type} [BEq α] [LawfulBEq α]
    {l : List (α × ν)} (hn : (alKeys l).Nodup) {k : α} {v : ν}
    (hm : (k, v) ∈ l) : l.lookup k = some v := by
  induction l with
  | nil => cases hm
  | cons p rest ih =>
    simp only [alKeys, List.map_cons, List.nodup_cons] at hn
    rcases List.mem_cons.mp hm with heq | hm'
    · cases heq
      simp [List.lookup]
    · have hk : k ≠ p.1 := by
        intro hk
        exact hn.1 (hk ▸ List.mem_map_of_mem Prod.fst hm')
      simp only [List.lookup, beq_eq_false_iff_ne.mpr hk]
      exact ih hn.2 hm'

theorem filterMap_congr_mem {α β : Type} {f g : α → Option β} {l : List α}
    (h : ∀ a ∈ l, f a = g a) : l.filterMap f = l.filterMap g := by
  induction l with
  | nil => rfl
  | cons a tl ih =>
    simp only [List.filterMap_cons, h a (List.mem_cons_self _ _),
      ih fun x hx => h x (List.mem_cons_of_mem _ hx)]

/-- Reading an aligned association list back off its key order restores it:
selecting, for each declared key in order, the looked-up entry reproduces a
map whose keys are an ordered sub-selection of the declared keys. -/
theorem filterMap_lookup_eq {α ν : Type} [BEq α] [LawfulBEq α]
    (keys : List α) (m : List (α × ν))
    (hnd : keys.Nodup) (hsub : List.Sublist (alKeys m) keys) :
    (keys.filterMap fun k => (m.lookup k).map ((k, ·))) = m := by
  induction keys generalizing m with
  | nil =>
    have hk : alKeys m = [] := List.sublist_nil.mp hsub
    cases m with
    | nil => rfl
    | cons p r => simp [alKeys] at hk
  | cons a ks ih =>
    simp only [List.nodup_cons] at hnd
    cases m with
    | nil =>
      simp only [List.filterMap_cons, List.lookup_nil, Option.map_none']
      exact ih [] hnd.2 (List.nil_sublist ks)
    | cons p r =>
      have hkeys : alKeys (p :: r) = p.1 :: alKeys r := rfl
      rw [hkeys] at hsub
      cases hsub with
      | cons b h =>
        have hnot : a ∉ alKeys (p :: r) := by
          intro hmem
          exact hnd.1 (h.subset (hkeys ▸ hmem))
        simp only [List.filterMap_cons, lookup_eq_none_of_not_mem hnot, Option.map_none']
        exact ih (p :: r) hnd.2 (hkeys ▸ h)
      | cons₂ b h =>
        have hlook : (p :: r).lookup p.1 = some p.2 := by simp [List.lookup]
        simp only [List.filterMap_cons, hlook, Option.map_some']
        have hcongr : (ks.filterMap fun k => ((p :: r).lookup k).map ((k, ·))) =
            ks.filterMap fun k => (r.lookup k).map ((k, ·)) := by
          refine filterMap_congr_mem fun k hk => ?_
          have hne : k ≠ p.1 := fun he => hnd.1 (he ▸ hk)
          simp only [List.lookup, beq_eq_false_iff_ne.mpr hne]
        rw [hcongr, ih r hnd.2 h]

theorem alKeys_filterMap_lookup {α ν : Type} [BEq α] (keys : List α)
    (t : List (α × ν)) :
    alKeys (keys.filterMap fun k => (t.lookup k).map ((k, ·))) =
      keys.filter fun k => (t.lookup k).isSome := by
  induction keys with
  | nil => rfl
  | cons a ks ih =>
    simp only [List.filterMap_cons, List.filter_cons]
    cases h : t.lookup a with
    | none => simpa [h] using ih
    | some v =>
      simp only [h, Option.map_some', Option.isSome_some, if_true]
      simpa [alKeys] using ih

/-- Element-wise lookup agreement between a map and its re-selection along
any duplicate-free key list covering its keys. -/
theorem filterMap_lookup_lookup {α ν : Type} [BEq α] [LawfulBEq α]
    (keys : List α) (t : List (α × ν)) (hnd : keys.Nodup)
    (hsub : ∀ k ∈ alKeys t, k ∈ keys) :
    ∀ n, (keys.filterMap fun k => (t.lookup k).map ((k, ·))).lookup n = t.lookup n := by
  intro n
  have hfmnd : (alKeys (keys.filterMap fun k => (t.lookup k).map ((k, ·)))).Nodup := by
    rw [alKeys_filterMap_lookup]
    exact List.Nodup.sublist (List.filter_sublist keys) hnd
  cases ht : t.lookup n with
  | some v =>
    have hmem : (n, v) ∈ t := lookup_mem_of_eq_some ht
    have hn : n ∈ keys := hsub n (List.mem_map_of_mem Prod.fst hmem)
    have hin : (n, v) ∈ keys.filterMap fun k => (t.lookup k).map ((k, ·)) :=
      List.mem_filterMap.mpr ⟨n, hn, by rw [ht]; rfl⟩
    exact alookup_of_mem_nodup hfmnd hin
  | none =>
    apply lookup_eq_none_of_not_mem
    intro hmem
    obtain ⟨⟨k, v⟩, hin, hfst⟩ := List.mem_map.mp hmem
    obtain ⟨k2, _, he⟩ := List.mem_filterMap.mp hin
    cases h2 : t.lookup k2 with
    | none => rw [h2] at he; cases he
    | some w =>
      rw [h2] at he
      cases he
      cases hfst
      rw [ht] at h2
      cases h2

/-! ### C1: conformance predicates for the restricted round trip -/

/-- Characters that survive a default-separator line intact: not the
default field separator and not a line ending. -/
def lineSafeChar (c : Char) : Bool :=
  c ≠ '|' && c ≠ '\r' && c ≠ '\n'

/-- Characters safe inside an object component: additionally not the
default component separator. -/
def compSafeChar (c : Char) : Bool :=
  lineSafeChar c && c ≠ '^'

/-- Scalar value conformance: the value inhabits the decode image of the
schema type, strings are nonempty and free of the unsafe characters, ints
lie in the 64-bit range, timestamps re-parse from their compact rendering. -/
def scalarValOK (safe : Char → Bool) : GoVal → SchemaType → Bool
  | .vstr s, .tstring => !s.isEmpty && s.all safe
  | .vstr s, .tempty => !s.isEmpty && s.all safe
  | .vint n, .tint => decide (-(2 ^ 63) ≤ n) && decide (n ≤ 2 ^ 63 - 1)
  | .vbool _, .tbool => true
  | .vtime t, .ttimestamp => tsRoundOK t
  | _, _ => false

/-- Object-map conformance: nonempty, keys an ordered sub-selection of the
declared component names, every entry a conforming scalar for its component. -/
def objMapOK (comps : List (String × FieldSchema)) (mc : List (String × GoVal)) : Bool :=
  !mc.isEmpty && decide (List.Sublist (alKeys mc) (alKeys comps)) &&
    mc.all fun p =>
      match comps.lookup p.1 with
      | some csch => scalarValOK compSafeChar p.2 csch.typ
      | none => false

/-- Field value conformance: scalars as above, objects as conforming maps. -/
def fieldValOK (w : GoVal) (fsch : FieldSchema) : Bool :=
  match fsch.typ with
  | .tobject =>
    match w with
    | .vmap mc => objMapOK fsch.Components mc
    | _ => false
  | t => scalarValOK lineSafeChar w t

/-- Segment map conformance. -/
def segMapOK (flds : List (String × FieldSchema)) (m : List (String × GoVal)) : Bool :=
  !m.isEmpty && decide (List.Sublist (alKeys m) (alKeys flds)) &&
    m.all fun p =>
      match flds.lookup p.1 with
      | some fsch => fieldValOK p.2 fsch
      | none => false

/-- Tree conformance: duplicate-free segment keys, every entry a conforming
map for a declared segment. -/
def treeOK (schema : MessageSchema) (tree : List (Str × GoVal)) : Bool :=
  decide (alKeys tree).Nodup &&
    tree.all fun p =>
      match schema.Segments.lookup p.1 with
      | some segSchema =>
        match p.2 with
        | .vmap m => segMapOK segSchema.Fields m
        | _ => false
      | none => false

/-- The scalar schema types that round-trip: string, int, bool, timestamp
and the empty tag (validation's default, handled by both default arms). -/
def scalarTypC : SchemaType → Bool
  | .tstring | .tint | .tbool | .ttimestamp | .tempty => true
  | _ => false

/-- Field schema conformance: positive index; scalar type, or object of
scalars with duplicate-free component names and indices. -/
def fieldSchemaOK (f : FieldSchema) : Bool :=
  decide (1 ≤ f.Index) &&
    match f.typ with
    | .tobject =>
      decide (alKeys f.Components).Nodup &&
      decide (f.Components.map fun p => p.2.Index).Nodup &&
      f.Components.all fun p => decide (1 ≤ p.2.Index) && scalarTypC p.2.typ
    | t => scalarTypC t

/-- Segment schema conformance: non-repeating, nonempty fields with
duplicate-free names and indices, each field conforming. -/
def segSchemaOK (seg : SegmentSchema) : Bool :=
  !seg.Repeat && !seg.Fields.isEmpty &&
  decide (alKeys seg.Fields).Nodup &&
  decide (seg.Fields.map fun p => p.2.Index).Nodup &&
  seg.Fields.all fun p => fieldSchemaOK p.2

/-- Schema conformance for the restricted round trip: duplicate-free
segment names, none empty, none beginning with the header code, all safe
for the default separators, each segment conforming. -/
def schemaRTOK (schema : MessageSchema) : Bool :=
  decide (alKeys schema.Segments).Nodup &&
  schema.Segments.all fun p =>
    !("MSH".data.isPrefixOf p.1) && !p.1.isEmpty && p.1.all lineSafeChar &&
      segSchemaOK p.2

/-! ### C1: rendered slot contents -/

/-- Rendered content of one 1-based field slot of a non-header segment, as
the field loop of marshalSegmentFromMap produces it under default options. -/
def c1content (flds : List (String × FieldSchema)) (m : List (String × GoVal))
    (idx : Int) : Str :=
  match indexToName flds idx with
  | none => []
  | some fn =>
    match m.lookup fn with
    | none => []
    | some w =>
      match marshalValueFromMap w ((flds.lookup fn).getD (.mk 0 .tempty [] none))
          ['^'] ['~'] with
      | .ok s => s
      | .error _ => []

/-- All slot contents of a segment, in position order. -/
def c1slots (flds : List (String × FieldSchema)) (m : List (String × GoVal)) :
    List Str :=
  (List.range (maxFieldIndex flds).toNat).map fun i : Nat => c1content flds m ((i : Int) + 1)

/-- Rendered content of one 1-based component slot of an object field, as
the slot array of marshalObjectFromMap holds it before trimming. -/
def c1comp (comps : List (String × FieldSchema)) (mc : List (String × GoVal))
    (idx : Int) : Str :=
  match comps.find? fun p => p.2.Index == idx && (mc.lookup p.1).isSome with
  | some p => marshalScalarValue ((mc.lookup p.1).getD .vnil) p.2.typ
  | none => []

/-- Line glue of marshalSegments: every line after the first is preceded by
the configured line ending. -/
def c1glue : Bool → List Str → Str
  | _, [] => []
  | first, l :: ls => (if first then [] else ['\r']) ++ l ++ c1glue false ls

/-! ### C1: scalar rendering round trip -/

/-- A conforming scalar renders to nonempty, safe text that coerces back to
the same value. -/
theorem scalar_render_reparse (safe : Char → Bool) (v : GoVal) (typ : SchemaType)
    (hok : scalarValOK safe v typ = true)
    (hd : ∀ c, c.isDigit = true → safe c = true)
    (hminus : safe '-' = true) (hY : safe 'Y' = true) (hN : safe 'N' = true)
    (segName : Str) (fi ci : Int) :
    marshalScalarValue v typ ≠ [] ∧
    (∀ c ∈ marshalScalarValue v typ, safe c = true) ∧
    coerceValue segName fi ci (marshalScalarValue v typ) typ = .ok v := by
  cases v with
  | vstr s =>
    cases typ with
    | tstring =>
      simp only [scalarValOK, Bool.and_eq_true, Bool.not_eq_true'] at hok
      have hne : s ≠ [] := by
        intro he
        rw [he] at hok
        simp [List.isEmpty] at hok
      exact ⟨hne, fun c hc => (List.all_eq_true.mp hok.2) c hc, rfl⟩
    | tempty =>
      simp only [scalarValOK, Bool.and_eq_true, Bool.not_eq_true'] at hok
      have hne : s ≠ [] := by
        intro he
        rw [he] at hok
        simp [List.isEmpty] at hok
      exact ⟨hne, fun c hc => (List.all_eq_true.mp hok.2) c hc, rfl⟩
    | tint => exact absurd hok (by simp [scalarValOK])
    | tfloat => exact absurd hok (by simp [scalarValOK])
    | tbool => exact absurd hok (by simp [scalarValOK])
    | ttimestamp => exact absurd hok (by simp [scalarValOK])
    | tobject => exact absurd hok (by simp [scalarValOK])
    | tarray => exact absurd hok (by simp [scalarValOK])
  | vint n =>
    cases typ with
    | tint =>
      simp only [scalarValOK, Bool.and_eq_true, decide_eq_true_eq] at hok
      refine ⟨formatGoInt_ne_nil n, ?_, ?_⟩
      · intro c hc
        rcases formatGoInt_chars n c hc with h | h
        · exact hd c h
        · exact h ▸ hminus
      · show coerceValue segName fi ci (formatGoInt n) .tint = .ok (.vint n)
        simp only [coerceValue, parseGoInt_formatGoInt n hok.1 hok.2]
    | tstring => exact absurd hok (by simp [scalarValOK])
    | tfloat => exact absurd hok (by simp [scalarValOK])
    | tbool => exact absurd hok (by simp [scalarValOK])
    | ttimestamp => exact absurd hok (by simp [scalarValOK])
    | tobject => exact absurd hok (by simp [scalarValOK])
    | tarray => exact absurd hok (by simp [scalarValOK])
    | tempty => exact absurd hok (by simp [scalarValOK])
  | vbool b =>
    cases typ with
    | tbool =>
      cases b
      · refine ⟨by simp [marshalScalarValue], ?_, rfl⟩
        intro c hc
        have : c = 'N' := by
          simpa [marshalScalarValue] using hc
        exact this ▸ hN
      · refine ⟨by simp [marshalScalarValue], ?_, rfl⟩
        intro c hc
        have : c = 'Y' := by
          simpa [marshalScalarValue] using hc
        exact this ▸ hY
    | tstring => exact absurd hok (by simp [scalarValOK])
    | tint => exact absurd hok (by simp [scalarValOK])
    | tfloat => exact absurd hok (by simp [scalarValOK])
    | ttimestamp => exact absurd hok (by simp [scalarValOK])
    | tobject => exact absurd hok (by simp [scalarValOK])
    | tarray => exact absurd hok (by simp [scalarValOK])
    | tempty => exact absurd hok (by simp [scalarValOK])
  | vtime t =>
    cases typ with
    | ttimestamp =>
      have hts : tsRoundOK t = true := hok
      have hnz : t.isZero = false := by
        unfold tsRoundOK at hts
        simp only [Bool.and_eq_true, Bool.not_eq_true'] at hts
        exact hts.1.1.1.1.1
      show (if t.isZero then [] else tsFormatCompact t) ≠ [] ∧
        (∀ c ∈ (if t.isZero then [] else tsFormatCompact t), safe c = true) ∧
        coerceValue segName fi ci (if t.isZero then [] else tsFormatCompact t)
          .ttimestamp = .ok (.vtime t)
      rw [hnz]
      simp only [Bool.false_eq_true, if_false]
      refine ⟨tsFormatCompact_ne_nil t, ?_, ?_⟩
      · intro c hc
        exact hd c (tsFormatCompact_all_digit t c hc)
      · simp only [coerceValue, tsUnmarshal_tsFormatCompact t hts]
    | tstring => exact absurd hok (by simp [scalarValOK])
    | tint => exact absurd hok (by simp [scalarValOK])
    | tfloat => exact absurd hok (by simp [scalarValOK])
    | tbool => exact absurd hok (by simp [scalarValOK])
    | tobject => exact absurd hok (by simp [scalarValOK])
    | tarray => exact absurd hok (by simp [scalarValOK])
    | tempty => exact absurd hok (by simp [scalarValOK])
  | vnil => cases typ <;> exact absurd hok (by simp [scalarValOK])
  | vfloat raw => cases typ <;> exact absurd hok (by simp [scalarValOK])
  | vmap m => cases typ <;> exact absurd hok (by simp [scalarValOK])
  | varr a => cases typ <;> exact absurd hok (by simp [scalarValOK])

/-! ### C1: object slot array characterization -/

theorem maxCompIndex_nonneg (comps : List (String × FieldSchema)) :
    0 ≤ maxCompIndex comps := by
  have key : ∀ (l : List (String × FieldSchema)) (a : Int),
      a ≤ l.foldl (fun m c => if c.2.Index > m then c.2.Index else m) a := by
    intro l
    induction l with
    | nil => exact fun a => le_refl a
    | cons hd tl ih =>
      intro a
      refine le_trans ?_ (ih _)
      show a ≤ if hd.2.Index > a then hd.2.Index else a
      split <;> omega
  exact key comps 0

theorem maxFieldIndex_nonneg (flds : List (String × FieldSchema)) :
    0 ≤ maxFieldIndex flds :=
  maxCompIndex_nonneg flds

theorem getD_replicate_nil (n j : Nat) :
    (List.replicate n ([] : Str)).getD j [] = [] := by
  rcases Nat.lt_or_ge j n with h | h
  · rw [List.getD_eq_getElem _ _ (by simpa using h)]
    simp
  · rw [List.getD_eq_default _ _ (by simpa using h)]

/-- One element of an intercalation is a separator or a piece character. -/
theorem mem_intercalate_single (c : Char) (l : List Str) (x : Char)
    (hx : x ∈ List.intercalate [c] l) : x = c ∨ ∃ p ∈ l, x ∈ p := by
  induction l with
  | nil => cases hx
  | cons s tl ih =>
    cases tl with
    | nil =>
      simp only [List.intercalate, List.intersperse_single, List.flatten,
        List.append_nil] at hx
      exact Or.inr ⟨s, List.mem_cons_self _ _, hx⟩
    | cons t tl2 =>
      rw [show List.intercalate [c] (s :: t :: tl2) =
          s ++ c :: List.intercalate [c] (t :: tl2) by
        simp [List.intercalate, List.intersperse_cons_cons, List.flatten]] at hx
      rcases List.mem_append.mp hx with h | h
      · exact Or.inr ⟨s, List.mem_cons_self _ _, h⟩
      · rcases List.mem_cons.mp h with rfl | h2
        · exact Or.inl rfl
        · rcases ih h2 with h3 | ⟨p, hp, hxp⟩
          · exact Or.inl h3
          · exact Or.inr ⟨p, List.mem_cons_of_mem _ hp, hxp⟩

/-- intercalate as head plus separator-prefixed tail pieces. -/
theorem intercalate_cons_flatten (c : Char) (x : Str) (l : List Str) :
    List.intercalate [c] (x :: l) = x ++ (l.map fun s => c :: s).flatten := by
  induction l generalizing x with
  | nil => simp [List.intercalate]
  | cons y tl ih =>
    rw [show List.intercalate [c] (x :: y :: tl) =
        x ++ c :: List.intercalate [c] (y :: tl) by
      simp [List.intercalate, List.intersperse_cons_cons, List.flatten]]
    rw [ih y]
    simp

theorem objParts_cons_none (mc : List (String × GoVal)) (cn : String)
    (csch : FieldSchema) (rest : List (String × FieldSchema)) (parts : List Str)
    (h : mc.lookup cn = none) :
    objParts mc ((cn, csch) :: rest) parts = objParts mc rest parts := by
  rw [objParts, h]

theorem objParts_cons_some (mc : List (String × GoVal)) (cn : String)
    (csch : FieldSchema) (rest : List (String × FieldSchema)) (parts : List Str)
    (w : GoVal) (h : mc.lookup cn = some w) (hpos : 1 ≤ csch.Index) :
    objParts mc ((cn, csch) :: rest) parts =
      objParts mc rest
        (parts.set (csch.Index - 1).toNat (marshalScalarValue w csch.typ)) := by
  rw [objParts, h]
  exact if_pos hpos

/-- The slot-filling loop writes each present component's rendering at its
zero-based position and leaves every other slot unchanged. -/
theorem objParts_char (mc : List (String × GoVal))
    (comps : List (String × FieldSchema))
    (hnd : (comps.map fun p => p.2.Index).Nodup)
    (hpos : ∀ p ∈ comps, 1 ≤ (p : String × FieldSchema).2.Index) :
    ∀ parts : List Str,
      (∀ p ∈ comps, (p : String × FieldSchema).2.Index ≤ (parts.length : Int)) →
      ∃ partsF, objParts mc comps parts = .ok partsF ∧
        partsF.length = parts.length ∧
        ∀ j : Nat, partsF.getD j [] =
          (match comps.find? fun p =>
              p.2.Index == (j : Int) + 1 && (mc.lookup p.1).isSome with
           | some p => marshalScalarValue ((mc.lookup p.1).getD .vnil) p.2.typ
           | none => parts.getD j []) := by
  induction comps with
  | nil =>
    intro parts _
    exact ⟨parts, rfl, rfl, fun j => by simp [List.find?]⟩
  | cons p0 rest ih =>
    obtain ⟨cn, csch⟩ := p0
    simp only [List.map_cons, List.nodup_cons] at hnd
    intro parts hlen
    have hpos1 : 1 ≤ csch.Index := hpos _ (List.mem_cons_self _ _)
    cases hl : mc.lookup cn with
    | none =>
      obtain ⟨partsF, heq, hlenF, hget⟩ :=
        ih hnd.2 (fun p hp => hpos p (List.mem_cons_of_mem _ hp)) parts
          (fun p hp => hlen p (List.mem_cons_of_mem _ hp))
      refine ⟨partsF, ?_, hlenF, fun j => ?_⟩
      · rw [objParts_cons_none mc cn csch rest parts hl]
        exact heq
      · rw [hget j]
        have hfind : List.find? (fun p : String × FieldSchema =>
            p.2.Index == (j : Int) + 1 && (mc.lookup p.1).isSome) ((cn, csch) :: rest) =
            List.find? (fun p : String × FieldSchema =>
              p.2.Index == (j : Int) + 1 && (mc.lookup p.1).isSome) rest :=
          List.find?_cons_of_neg _ (by simp [hl])
        rw [hfind]
    | some w =>
      set k := (csch.Index - 1).toNat with hk
      have hkc : (k : Int) = csch.Index - 1 := by
        rw [hk]
        exact Int.toNat_of_nonneg (by omega)
      have hklt : k < parts.length := by
        have h2 : csch.Index ≤ (parts.length : Int) := hlen _ (List.mem_cons_self _ _)
        omega
      obtain ⟨partsF, heq, hlenF, hget⟩ :=
        ih hnd.2 (fun p hp => hpos p (List.mem_cons_of_mem _ hp))
          (parts.set k (marshalScalarValue w csch.typ))
          (fun p hp => by
            rw [List.length_set]
            exact hlen p (List.mem_cons_of_mem _ hp))
      refine ⟨partsF, ?_, by rw [hlenF, List.length_set], fun j => ?_⟩
      · rw [objParts_cons_some mc cn csch rest parts w hl hpos1]
        exact heq
      · rw [hget j]
        by_cases hj : j = k
        · have hjc : (j : Int) = csch.Index - 1 := by rw [hj]; exact hkc
          have hhead : (fun p : String × FieldSchema =>
              p.2.Index == (j : Int) + 1 && (mc.lookup p.1).isSome) (cn, csch) = true := by
            simp only [hl, Bool.and_eq_true, beq_iff_eq, Option.isSome_some]
            exact ⟨by omega, trivial⟩
          have hfind : List.find? (fun p : String × FieldSchema =>
              p.2.Index == (j : Int) + 1 && (mc.lookup p.1).isSome) ((cn, csch) :: rest) =
              some (cn, csch) :=
            List.find?_cons_of_pos _ hhead
          rw [hfind]
          have hrest : rest.find? (fun p : String × FieldSchema =>
              p.2.Index == (j : Int) + 1 && (mc.lookup p.1).isSome) = none := by
            rw [List.find?_eq_none]
            intro x hx hpx
            simp only [Bool.and_eq_true, beq_iff_eq] at hpx
            exact hnd.1 (by
              rw [show csch.Index = x.2.Index by omega]
              exact List.mem_map_of_mem (fun p => p.2.Index) hx)
          rw [hrest]
          simp only [hl, Option.getD_some]
          rw [hj, List.getD_eq_getElem _ _ (by rw [List.length_set]; exact hklt)]
          simp
        · have hne : ((j : Int) + 1) ≠ csch.Index := by omega
          have hfind : List.find? (fun p : String × FieldSchema =>
              p.2.Index == (j : Int) + 1 && (mc.lookup p.1).isSome) ((cn, csch) :: rest) =
              List.find? (fun p : String × FieldSchema =>
                p.2.Index == (j : Int) + 1 && (mc.lookup p.1).isSome) rest :=
            List.find?_cons_of_neg _ (by
              simp only [Bool.and_eq_true, beq_iff_eq, not_and]
              intro hx
              exact absurd hx.symm hne)
          rw [hfind]
          cases hf : rest.find? (fun p : String × FieldSchema =>
              p.2.Index == (j : Int) + 1 && (mc.lookup p.1).isSome) with
          | some q => rfl
          | none =>
            show (parts.set k (marshalScalarValue w csch.typ)).getD j [] = parts.getD j []
            rw [List.getD_eq_getElem?_getD, List.getD_eq_getElem?_getD,
              List.getElem?_set_ne (Ne.symm hj)]

/-! ### C1: safe-character facts -/

theorem lineSafe_of_isDigit (c : Char) (h : c.isDigit = true) :
    lineSafeChar c = true := by
  unfold lineSafeChar
  simp only [Char.isDigit, Bool.and_eq_true, decide_eq_true_eq] at h ⊢
  obtain ⟨h1, h2⟩ := h
  refine ⟨⟨fun hc => ?_, fun hc => ?_⟩, fun hc => ?_⟩ <;>
    subst hc <;> revert h1 h2 <;> decide

theorem compSafe_of_isDigit (c : Char) (h : c.isDigit = true) :
    compSafeChar c = true := by
  unfold compSafeChar
  simp only [Bool.and_eq_true, decide_eq_true_eq]
  refine ⟨lineSafe_of_isDigit c h, fun hc => ?_⟩
  subst hc
  simp only [Char.isDigit, Bool.and_eq_true, decide_eq_true_eq] at h
  revert h
  decide

theorem lineSafe_of_compSafe (c : Char) (h : compSafeChar c = true) :
    lineSafeChar c = true := by
  unfold compSafeChar at h
  simp only [Bool.and_eq_true] at h
  exact h.1

/-! ### C1: slot content resolution -/

theorem c1comp_of_lookup_some (comps : List (String × FieldSchema))
    (mc : List (String × GoVal))
    (hndi : (comps.map fun p => p.2.Index).Nodup)
    {cn : String} {csch : FieldSchema} {w : GoVal}
    (hmem : (cn, csch) ∈ comps) (hl : mc.lookup cn = some w) :
    c1comp comps mc csch.Index = marshalScalarValue w csch.typ := by
  unfold c1comp
  cases hf : comps.find? (fun p =>
      p.2.Index == csch.Index && (mc.lookup p.1).isSome) with
  | none =>
    exfalso
    have := List.find?_eq_none.mp hf (cn, csch) hmem
    simp [hl] at this
  | some q =>
    have hqmem : q ∈ comps := List.mem_of_find?_eq_some hf
    have hqp := List.find?_some hf
    simp only [Bool.and_eq_true, beq_iff_eq] at hqp
    have hq : q = (cn, csch) :=
      List.inj_on_of_nodup_map hndi hqmem hmem hqp.1
    subst hq
    show marshalScalarValue ((mc.lookup cn).getD GoVal.vnil) csch.typ =
      marshalScalarValue w csch.typ
    rw [hl]
    rfl

theorem c1comp_of_lookup_none (comps : List (String × FieldSchema))
    (mc : List (String × GoVal))
    (hndi : (comps.map fun p => p.2.Index).Nodup)
    {cn : String} {csch : FieldSchema}
    (hmem : (cn, csch) ∈ comps) (hl : mc.lookup cn = none) :
    c1comp comps mc csch.Index = [] := by
  unfold c1comp
  cases hf : comps.find? (fun p =>
      p.2.Index == csch.Index && (mc.lookup p.1).isSome) with
  | none => rfl
  | some q =>
    exfalso
    have hqmem : q ∈ comps := List.mem_of_find?_eq_some hf
    have hqp := List.find?_some hf
    simp only [Bool.and_eq_true, beq_iff_eq] at hqp
    have hq : q = (cn, csch) :=
      List.inj_on_of_nodup_map hndi hqmem hmem hqp.1
    subst hq
    simp [hl] at hqp

/-! ### C1: component re-decode -/

/-- The component loop of decodeObjectField reads the trimmed slot array
back into exactly the present components, in declaration order. -/
theorem c1_decodeComps (segName : Str) (fi : Int)
    (mc : List (String × GoVal)) (trimmed : List Str) :
    ∀ comps : List (String × FieldSchema),
    (∀ p ∈ comps, 1 ≤ (p : String × FieldSchema).2.Index ∧
      (match mc.lookup (p : String × FieldSchema).1 with
       | some w =>
         ((p : String × FieldSchema).2.Index - 1).toNat < trimmed.length ∧
         trimmed.getD ((p : String × FieldSchema).2.Index - 1).toNat [] =
           marshalScalarValue w (p : String × FieldSchema).2.typ ∧
         marshalScalarValue w (p : String × FieldSchema).2.typ ≠ [] ∧
         coerceValue segName fi (p : String × FieldSchema).2.Index
           (marshalScalarValue w (p : String × FieldSchema).2.typ)
           (p : String × FieldSchema).2.typ = .ok w
       | none =>
         trimmed.getD ((p : String × FieldSchema).2.Index - 1).toNat [] = [])) →
    decodeObjectComponents segName fi trimmed comps =
      .ok (comps.filterMap fun p => (mc.lookup p.1).map ((p.1, ·))) := by
  intro comps
  induction comps with
  | nil => intro _; rfl
  | cons p0 rest ih =>
    obtain ⟨cn, csch⟩ := p0
    intro hfacts
    have hhd := hfacts _ (List.mem_cons_self _ _)
    have htl := ih fun p hp => hfacts p (List.mem_cons_of_mem _ hp)
    have hpos : (1 : Int) ≤ csch.Index := hhd.1
    have hkc : ((csch.Index - 1).toNat : Int) = csch.Index - 1 :=
      Int.toNat_of_nonneg (by omega)
    rw [decodeObjectComponents]
    simp only [List.filterMap_cons]
    cases hl : mc.lookup cn with
    | some w =>
      have hb := hhd.2
      rw [hl] at hb
      simp only at hb
      obtain ⟨hklt, hread, hrne, hco⟩ := hb
      have hcond : ¬(csch.Index - 1 < 0 ∨
          csch.Index - 1 ≥ (trimmed.length : Int)) := by omega
      rw [if_neg hcond, hread, if_neg hrne, hco, htl]
      rfl
    | none =>
      have hb := hhd.2
      rw [hl] at hb
      simp only at hb
      by_cases hr : csch.Index - 1 ≥ (trimmed.length : Int)
      · rw [if_pos (Or.inr hr)]
        exact htl
      · have hcond : ¬(csch.Index - 1 < 0 ∨
            csch.Index - 1 ≥ (trimmed.length : Int)) := by omega
        rw [if_neg hcond, hb, if_pos rfl]
        exact htl

/-! ### C1: object render and reparse -/

/-- A conforming object value renders through marshalObjectFromMap to
nonempty, line-safe text from which decodeObjectField restores exactly the
same component map. -/
theorem object_render_reparse (fsch : FieldSchema) (mc : List (String × GoVal))
    (hndn : (alKeys fsch.Components).Nodup)
    (hndi : (fsch.Components.map fun p => p.2.Index).Nodup)
    (hcs : ∀ p ∈ fsch.Components, 1 ≤ (p : String × FieldSchema).2.Index)
    (hok : objMapOK fsch.Components mc = true) (segName : Str) (fi : Int) :
    ∃ str, marshalObjectFromMap (.vmap mc) fsch ['^'] = .ok str ∧
      str ≠ [] ∧ (∀ c ∈ str, lineSafeChar c = true) ∧
      decodeObjectField segName fi str fsch ['^'] = .ok (some (.vmap mc)) := by
  simp only [objMapOK, Bool.and_eq_true, Bool.not_eq_true', decide_eq_true_eq] at hok
  obtain ⟨⟨hne, hsub⟩, hallmc⟩ := hok
  have hmcnd : (alKeys mc).Nodup := List.Nodup.sublist hsub hndn
  have hvalok : ∀ cn w, mc.lookup cn = some w →
      ∃ csch, (cn, csch) ∈ fsch.Components ∧
        fsch.Components.lookup cn = some csch ∧
        scalarValOK compSafeChar w csch.typ = true := by
    intro cn w hl
    have hmem := lookup_mem_of_eq_some hl
    have hall := List.all_eq_true.mp hallmc _ hmem
    simp only at hall
    cases hcl : fsch.Components.lookup cn with
    | none =>
      rw [hcl] at hall
      simp at hall
    | some csch =>
      rw [hcl] at hall
      exact ⟨csch, lookup_mem_of_eq_some hcl, rfl, hall⟩
  obtain ⟨partsF, hop, hlenF, hget⟩ :=
    objParts_char mc fsch.Components hndi hcs
      (List.replicate (maxCompIndex fsch.Components).toNat [])
      (by
        intro p hp
        rw [List.length_replicate]
        have h1 := maxCompIndex_ge fsch.Components p hp
        have h2 := maxCompIndex_nonneg fsch.Components
        omega)
  have hgetc : ∀ j : Nat, partsF.getD j [] = c1comp fsch.Components mc ((j : Int) + 1) := by
    intro j
    rw [hget j]
    unfold c1comp
    cases hf : fsch.Components.find? (fun p =>
        p.2.Index == (j : Int) + 1 && (mc.lookup p.1).isSome) with
    | none => exact getD_replicate_nil _ _
    | some q => rfl
  have hpresent : ∀ cn csch w, (cn, csch) ∈ fsch.Components → mc.lookup cn = some w →
      partsF.getD (csch.Index - 1).toNat [] = marshalScalarValue w csch.typ := by
    intro cn csch w hmem hl
    have hkc : (((csch.Index - 1).toNat : Int)) + 1 = csch.Index := by
      have h1 : (1 : Int) ≤ csch.Index := hcs _ hmem
      omega
    rw [hgetc, hkc]
    exact c1comp_of_lookup_some fsch.Components mc hndi hmem hl
  have habsent : ∀ cn csch, (cn, csch) ∈ fsch.Components → mc.lookup cn = none →
      partsF.getD (csch.Index - 1).toNat [] = [] := by
    intro cn csch hmem hl
    have hkc : (((csch.Index - 1).toNat : Int)) + 1 = csch.Index := by
      have h1 : (1 : Int) ≤ csch.Index := hcs _ hmem
      omega
    rw [hgetc, hkc]
    exact c1comp_of_lookup_none fsch.Components mc hndi hmem hl
  have hslot : ∀ j : Nat, partsF.getD j [] = [] ∨
      (partsF.getD j [] ≠ [] ∧ ∀ c ∈ partsF.getD j [], compSafeChar c = true) := by
    intro j
    rw [hgetc j]
    unfold c1comp
    cases hf : fsch.Components.find? (fun p =>
        p.2.Index == (j : Int) + 1 && (mc.lookup p.1).isSome) with
    | none => exact Or.inl rfl
    | some q =>
      have hqp := List.find?_some hf
      simp only [Bool.and_eq_true, beq_iff_eq, Option.isSome_iff_exists] at hqp
      obtain ⟨-, w, hw⟩ := hqp
      obtain ⟨csch, hcmem, hclook, hcok⟩ := hvalok q.1 w hw
      have hceq : csch = q.2 := by
        have h2 := alookup_of_mem_nodup hndn
          (show (q.1, q.2) ∈ fsch.Components from List.mem_of_find?_eq_some hf)
        rw [hclook] at h2
        exact Option.some.inj h2
      rw [hceq] at hcok
      obtain ⟨hne2, hsafe2, -⟩ := scalar_render_reparse compSafeChar w q.2.typ hcok
        compSafe_of_isDigit (by decide) (by decide) (by decide) [] 0 0
      have hgv : (mc.lookup q.1).getD GoVal.vnil = w := by
        rw [hw]
        rfl
      have hne3 : marshalScalarValue ((mc.lookup q.1).getD GoVal.vnil) q.2.typ ≠ [] := by
        rw [hgv]
        exact hne2
      have hsafe3 : ∀ c ∈ marshalScalarValue ((mc.lookup q.1).getD GoVal.vnil) q.2.typ,
          compSafeChar c = true := by
        rw [hgv]
        exact hsafe2
      exact Or.inr ⟨hne3, hsafe3⟩
  have hnonnil : ∃ k : Nat, k < partsF.length ∧ partsF.getD k [] ≠ [] := by
    cases hmcc : mc with
    | nil =>
      rw [hmcc] at hne
      simp at hne
    | cons e mtl =>
      have hmem0 : (e.1, e.2) ∈ mc := by
        rw [hmcc]
        exact List.mem_cons_self _ _
      have hl0 : mc.lookup e.1 = some e.2 := alookup_of_mem_nodup hmcnd hmem0
      obtain ⟨csch, hcmem, -, hcok⟩ := hvalok e.1 e.2 hl0
      obtain ⟨hne2, -, -⟩ := scalar_render_reparse compSafeChar e.2 csch.typ hcok
        compSafe_of_isDigit (by decide) (by decide) (by decide) [] 0 0
      refine ⟨(csch.Index - 1).toNat, ?_, ?_⟩
      · have h1 : csch.Index ≤ maxCompIndex fsch.Components :=
          maxCompIndex_ge fsch.Components _ hcmem
        have h2 : (1 : Int) ≤ csch.Index := hcs _ hcmem
        rw [hlenF, List.length_replicate]
        omega
      · rw [hpresent e.1 csch e.2 hcmem hl0]
        exact hne2
  obtain ⟨k0, hk0lt, hk0ne⟩ := hnonnil
  have hk0trim : k0 < (trimTrailingEmpty partsF).length := by
    by_contra hcon
    push_neg at hcon
    exact hk0ne (trimTrailingEmpty_after partsF k0 hcon)
  have htrimne : trimTrailingEmpty partsF ≠ [] := by
    intro he
    rw [he] at hk0trim
    exact absurd hk0trim (by simp)
  have htrimmem : ∀ x ∈ trimTrailingEmpty partsF, x = [] ∨
      (x ≠ [] ∧ ∀ c ∈ x, compSafeChar c = true) := by
    intro x hx
    have hxp : x ∈ partsF :=
      (trimTrailingEmpty_prefixOf partsF).sublist.subset hx
    obtain ⟨jx, hjx, rfl⟩ := List.mem_iff_getElem.mp hxp
    rw [← List.getD_eq_getElem partsF _ hjx]
    exact hslot jx
  have hsep : ∀ x ∈ trimTrailingEmpty partsF, '^' ∉ x := by
    intro x hx hc
    rcases htrimmem x hx with rfl | ⟨-, hsafe⟩
    · cases hc
    · have := hsafe '^' hc
      exact absurd this (by decide)
  refine ⟨List.intercalate ['^'] (trimTrailingEmpty partsF), ?_, ?_, ?_, ?_⟩
  · have hrfl : marshalObjectFromMap (.vmap mc) fsch ['^'] =
        (objParts mc fsch.Components
          (List.replicate (maxCompIndex fsch.Components).toNat [])).bind
          (fun parts => .ok (List.intercalate ['^'] (trimTrailingEmpty parts))) := rfl
    rw [hrfl, hop]
    rfl
  · apply intercalate_ne_nil_of_mem '^' _ ((trimTrailingEmpty partsF).getD k0 [])
    · rw [List.getD_eq_getElem _ _ hk0trim]
      exact List.getElem_mem _
    · rw [trimTrailingEmpty_getD partsF k0 hk0trim]
      exact hk0ne
  · intro c hc
    rcases mem_intercalate_single '^' _ c hc with rfl | ⟨p, hp, hcp⟩
    · decide
    · rcases htrimmem p hp with rfl | ⟨-, hsafe⟩
      · cases hcp
      · exact lineSafe_of_compSafe c (hsafe c hcp)
  · have hsplit : (List.intercalate ['^'] (trimTrailingEmpty partsF)).splitOn '^' =
        trimTrailingEmpty partsF :=
      List.splitOn_intercalate (trimTrailingEmpty partsF) '^' hsep htrimne
    have hcr : ∀ p ∈ fsch.Components, 1 ≤ (p : String × FieldSchema).2.Index ∧
        (match mc.lookup (p : String × FieldSchema).1 with
         | some w =>
           ((p : String × FieldSchema).2.Index - 1).toNat <
             (trimTrailingEmpty partsF).length ∧
           (trimTrailingEmpty partsF).getD
             ((p : String × FieldSchema).2.Index - 1).toNat [] =
             marshalScalarValue w (p : String × FieldSchema).2.typ ∧
           marshalScalarValue w (p : String × FieldSchema).2.typ ≠ [] ∧
           coerceValue segName fi (p : String × FieldSchema).2.Index
             (marshalScalarValue w (p : String × FieldSchema).2.typ)
             (p : String × FieldSchema).2.typ = .ok w
         | none =>
           (trimTrailingEmpty partsF).getD
             ((p : String × FieldSchema).2.Index - 1).toNat [] = []) := by
      intro p hp
      refine ⟨hcs p hp, ?_⟩
      cases hl : mc.lookup p.1 with
      | some w =>
        obtain ⟨csch, hcmem, hclook, hcok⟩ := hvalok p.1 w hl
        have hceq : csch = p.2 := by
          have h2 := alookup_of_mem_nodup hndn
            (show (p.1, p.2) ∈ fsch.Components from hp)
          rw [hclook] at h2
          exact Option.some.inj h2
        rw [hceq] at hcok
        obtain ⟨hne2, -, hco2⟩ := scalar_render_reparse compSafeChar w p.2.typ hcok
          compSafe_of_isDigit (by decide) (by decide) (by decide) segName fi p.2.Index
        have hk : partsF.getD (p.2.Index - 1).toNat [] = marshalScalarValue w p.2.typ :=
          hpresent p.1 p.2 w hp hl
        have hklt : (p.2.Index - 1).toNat < (trimTrailingEmpty partsF).length := by
          by_contra hcon
          push_neg at hcon
          refine hne2 ?_
          rw [← hk]
          exact trimTrailingEmpty_after partsF _ hcon
        exact ⟨hklt, by rw [trimTrailingEmpty_getD partsF _ hklt]; exact hk, hne2, hco2⟩
      | none =>
        have hk : partsF.getD (p.2.Index - 1).toNat [] = [] := habsent p.1 p.2 hp hl
        show (trimTrailingEmpty partsF).getD (p.2.Index - 1).toNat [] = []
        by_cases hklt : (p.2.Index - 1).toNat < (trimTrailingEmpty partsF).length
        · rw [trimTrailingEmpty_getD partsF _ hklt]
          exact hk
        · rw [List.getD_eq_default _ _ (by omega)]
    have hcomps := c1_decodeComps segName fi mc (trimTrailingEmpty partsF)
      fsch.Components hcr
    have hfm : (fsch.Components.filterMap fun p => (mc.lookup p.1).map ((p.1, ·))) =
        mc := by
      have hrw : (fsch.Components.filterMap fun p => (mc.lookup p.1).map ((p.1, ·))) =
          (fsch.Components.map Prod.fst).filterMap
            fun k => (mc.lookup k).map ((k, ·)) := by
        rw [List.filterMap_map]
        rfl
      rw [hrw]
      exact filterMap_lookup_eq _ mc hndn hsub
    rw [hfm] at hcomps
    have h1 : decodeObjectField segName fi
        (List.intercalate ['^'] (trimTrailingEmpty partsF)) fsch ['^'] =
        (decodeObjectComponents segName fi
          ((List.intercalate ['^'] (trimTrailingEmpty partsF)).splitOn '^')
          fsch.Components).bind
          (fun result => if result.isEmpty then .ok none
            else .ok (some (.vmap result))) := rfl
    rw [h1, hsplit, hcomps]
    show (if mc.isEmpty then Except.ok none else Except.ok (some (GoVal.vmap mc))) = _
    rw [hne]
    simp

/-! ### C1: field-level render and reparse -/

theorem scalarValOK_ne_vnil (safe : Char → Bool) (w : GoVal) (typ : SchemaType)
    (h : scalarValOK safe w typ = true) : w ≠ .vnil := by
  intro he
  subst he
  cases typ <;> simp [scalarValOK] at h

theorem marshalValueFromMap_not_vnil (w : GoVal) (fsch : FieldSchema) (cs rs : Str)
    (h : w ≠ .vnil) :
    marshalValueFromMap w fsch cs rs =
      (match fsch.typ with
       | .tobject => marshalObjectFromMap w fsch cs
       | .tarray => marshalArrayFromMap w fsch cs rs
       | t => .ok (marshalScalarValue w t)) := by
  cases w
  · exact absurd rfl h
  all_goals rfl

/-- A conforming field value renders through marshalValueFromMap to
nonempty, line-safe text from which decodeFieldWithSchema restores exactly
the same value. -/
theorem field_render_reparse (fsch : FieldSchema) (w : GoVal)
    (hfs : fieldSchemaOK fsch = true)
    (hok : fieldValOK w fsch = true) (segName : Str) :
    ∃ str, marshalValueFromMap w fsch ['^'] ['~'] = .ok str ∧
      str ≠ [] ∧ (∀ c ∈ str, lineSafeChar c = true) ∧
      decodeFieldWithSchema segName fsch.Index str fsch ['^'] ['~'] =
        .ok (some w) := by
  unfold fieldValOK at hok
  cases hty : fsch.typ with
  | tobject =>
    rw [hty] at hok
    simp only at hok
    cases w with
    | vmap mc =>
      unfold fieldSchemaOK at hfs
      rw [hty] at hfs
      simp only [Bool.and_eq_true, decide_eq_true_eq] at hfs
      obtain ⟨-, ⟨hndn, hndi⟩, hcall⟩ := hfs
      have hcs : ∀ p ∈ fsch.Components, 1 ≤ (p : String × FieldSchema).2.Index := by
        intro p hp
        have := List.all_eq_true.mp hcall p hp
        simp only [Bool.and_eq_true, decide_eq_true_eq] at this
        exact this.1
      obtain ⟨str, hm, hne, hsafe, hdec⟩ :=
        object_render_reparse fsch mc hndn hndi hcs hok segName fsch.Index
      refine ⟨str, ?_, hne, hsafe, ?_⟩
      · rw [marshalValueFromMap_not_vnil (.vmap mc) fsch _ _ (by intro h; cases h), hty]
        exact hm
      · have h3 : decodeFieldWithSchema segName fsch.Index str fsch ['^'] ['~'] =
            decodeObjectField segName fsch.Index str fsch ['^'] := by
          unfold decodeFieldWithSchema
          rw [hty]
        rw [h3]
        exact hdec
    | vnil => simp at hok
    | vstr s => simp at hok
    | vint n => simp at hok
    | vfloat r => simp at hok
    | vbool b => simp at hok
    | vtime t => simp at hok
    | varr a => simp at hok
  | tstring =>
    rw [hty] at hok
    simp only at hok
    have hwn : w ≠ .vnil := scalarValOK_ne_vnil _ _ _ hok
    obtain ⟨hne2, hsafe2, hco2⟩ := scalar_render_reparse lineSafeChar w _ hok
      lineSafe_of_isDigit (by decide) (by decide) (by decide) segName fsch.Index 0
    refine ⟨marshalScalarValue w .tstring, ?_, hne2, hsafe2, ?_⟩
    · rw [marshalValueFromMap_not_vnil w fsch _ _ hwn, hty]
    · have h3 : decodeFieldWithSchema segName fsch.Index
          (marshalScalarValue w .tstring) fsch ['^'] ['~'] =
          (some ·) <$> coerceValue segName fsch.Index 0
            (marshalScalarValue w .tstring) .tstring := by
        unfold decodeFieldWithSchema
        rw [hty]
      rw [h3, hco2]
      rfl
  | tint =>
    rw [hty] at hok
    simp only at hok
    have hwn : w ≠ .vnil := scalarValOK_ne_vnil _ _ _ hok
    obtain ⟨hne2, hsafe2, hco2⟩ := scalar_render_reparse lineSafeChar w _ hok
      lineSafe_of_isDigit (by decide) (by decide) (by decide) segName fsch.Index 0
    refine ⟨marshalScalarValue w .tint, ?_, hne2, hsafe2, ?_⟩
    · rw [marshalValueFromMap_not_vnil w fsch _ _ hwn, hty]
    · have h3 : decodeFieldWithSchema segName fsch.Index
          (marshalScalarValue w .tint) fsch ['^'] ['~'] =
          (some ·) <$> coerceValue segName fsch.Index 0
            (marshalScalarValue w .tint) .tint := by
        unfold decodeFieldWithSchema
        rw [hty]
      rw [h3, hco2]
      rfl
  | tbool =>
    rw [hty] at hok
    simp only at hok
    have hwn : w ≠ .vnil := scalarValOK_ne_vnil _ _ _ hok
    obtain ⟨hne2, hsafe2, hco2⟩ := scalar_render_reparse lineSafeChar w _ hok
      lineSafe_of_isDigit (by decide) (by decide) (by decide) segName fsch.Index 0
    refine ⟨marshalScalarValue w .tbool, ?_, hne2, hsafe2, ?_⟩
    · rw [marshalValueFromMap_not_vnil w fsch _ _ hwn, hty]
    · have h3 : decodeFieldWithSchema segName fsch.Index
          (marshalScalarValue w .tbool) fsch ['^'] ['~'] =
          (some ·) <$> coerceValue segName fsch.Index 0
            (marshalScalarValue w .tbool) .tbool := by
        unfold decodeFieldWithSchema
        rw [hty]
      rw [h3, hco2]
      rfl
  | ttimestamp =>
    rw [hty] at hok
    simp only at hok
    have hwn : w ≠ .vnil := scalarValOK_ne_vnil _ _ _ hok
    obtain ⟨hne2, hsafe2, hco2⟩ := scalar_render_reparse lineSafeChar w _ hok
      lineSafe_of_isDigit (by decide) (by decide) (by decide) segName fsch.Index 0
    refine ⟨marshalScalarValue w .ttimestamp, ?_, hne2, hsafe2, ?_⟩
    · rw [marshalValueFromMap_not_vnil w fsch _ _ hwn, hty]
    · have h3 : decodeFieldWithSchema segName fsch.Index
          (marshalScalarValue w .ttimestamp) fsch ['^'] ['~'] =
          (some ·) <$> coerceValue segName fsch.Index 0
            (marshalScalarValue w .ttimestamp) .ttimestamp := by
        unfold decodeFieldWithSchema
        rw [hty]
      rw [h3, hco2]
      rfl
  | tempty =>
    rw [hty] at hok
    simp only at hok
    have hwn : w ≠ .vnil := scalarValOK_ne_vnil _ _ _ hok
    obtain ⟨hne2, hsafe2, hco2⟩ := scalar_render_reparse lineSafeChar w _ hok
      lineSafe_of_isDigit (by decide) (by decide) (by decide) segName fsch.Index 0
    refine ⟨marshalScalarValue w .tempty, ?_, hne2, hsafe2, ?_⟩
    · rw [marshalValueFromMap_not_vnil w fsch _ _ hwn, hty]
    · have h3 : decodeFieldWithSchema segName fsch.Index
          (marshalScalarValue w .tempty) fsch ['^'] ['~'] =
          (some ·) <$> coerceValue segName fsch.Index 0
            (marshalScalarValue w .tempty) .tempty := by
        unfold decodeFieldWithSchema
        rw [hty]
      rw [h3, hco2]
      rfl
  | tfloat =>
    rw [hty] at hok
    simp only at hok
    exact absurd hok (by cases w <;> simp [scalarValOK])
  | tarray =>
    rw [hty] at hok
    simp only at hok
    exact absurd hok (by cases w <;> simp [scalarValOK])

/-! ### C1: segment encode characterization -/

/-- With duplicate-free indices, indexToName inverts a declared field. -/
theorem indexToName_of_mem_nodup (flds : List (String × FieldSchema))
    (hndi : (flds.map fun p => p.2.Index).Nodup)
    {fn : String} {fsch : FieldSchema} (hmem : (fn, fsch) ∈ flds) :
    indexToName flds fsch.Index = some fn := by
  unfold indexToName
  cases hf : flds.reverse.find? (fun f => f.2.Index == fsch.Index) with
  | none =>
    exfalso
    have := List.find?_eq_none.mp hf (fn, fsch) (List.mem_reverse.mpr hmem)
    simp at this
  | some q =>
    have hqmem : q ∈ flds := List.mem_reverse.mp (List.mem_of_find?_eq_some hf)
    have hqp := List.find?_some hf
    simp only [beq_iff_eq] at hqp
    have hq : q = (fn, fsch) := List.inj_on_of_nodup_map hndi hqmem hmem hqp
    subst hq
    rfl

/-- The field loop of marshalSegmentFromMap, under default separators and
for a non-header segment, renders every requested position as the field
separator followed by that slot's content. -/
theorem c1_slots (segName : Str) (m : List (String × GoVal))
    (segSchema : SegmentSchema) (ec : Str) (opts : MarshalOptions)
    (hne : segName ≠ "MSH".data)
    (hfall : ∀ fn w, m.lookup fn = some w →
      ∃ str, marshalValueFromMap w
        ((segSchema.Fields.lookup fn).getD (.mk 0 .tempty [] none)) ['^'] ['~'] =
          .ok str) :
    ∀ idxs : List Int,
      marshalSegmentSlots segName m segSchema ['|'] ['^'] ['~'] ec opts idxs =
        .ok ((idxs.map fun idx => '|' :: c1content segSchema.Fields m idx).flatten) := by
  intro idxs
  induction idxs with
  | nil => rfl
  | cons idx rest ih =>
    have hslot : marshalSegmentSlot segName m segSchema ['|'] ['^'] ['~'] ec opts idx =
        .ok ('|' :: c1content segSchema.Fields m idx) := by
      unfold marshalSegmentSlot
      rw [if_neg (fun hand => hne hand.1), if_neg (fun hand => hne hand.1)]
      unfold c1content
      cases hin : indexToName segSchema.Fields idx with
      | none => rfl
      | some fn =>
        show (match m.lookup fn with
          | none => (Except.ok ['|'] : Except GoErr Str)
          | some val =>
            match marshalValueFromMap val
                ((segSchema.Fields.lookup fn).getD (.mk 0 .tempty [] none))
                ['^'] ['~'] with
            | .ok str => .ok (['|'] ++ str)
            | .error e => .error (.marshalFieldErr segName idx e)) =
          .ok ('|' ::
            (match m.lookup fn with
            | none => []
            | some w =>
              match marshalValueFromMap w
                  ((segSchema.Fields.lookup fn).getD (.mk 0 .tempty [] none))
                  ['^'] ['~'] with
              | .ok s => s
              | .error _ => []))
        cases hml : m.lookup fn with
        | none => rfl
        | some w =>
          obtain ⟨str, hmv⟩ := hfall fn w hml
          show (match marshalValueFromMap w
              ((segSchema.Fields.lookup fn).getD (.mk 0 .tempty [] none))
              ['^'] ['~'] with
            | .ok str => (Except.ok (['|'] ++ str) : Except GoErr Str)
            | .error e => .error (.marshalFieldErr segName idx e)) =
            .ok ('|' ::
              (match marshalValueFromMap w
                  ((segSchema.Fields.lookup fn).getD (.mk 0 .tempty [] none))
                  ['^'] ['~'] with
              | .ok s => s
              | .error _ => []))
          rw [hmv]
          rfl
    rw [marshalSegmentSlots, hslot, ih]
    rfl

/-- marshalSegmentFromMap of a non-header segment is the segment name and
slot contents joined by the field separator. -/
theorem c1_marshalSegment (segName : Str) (m : List (String × GoVal))
    (segSchema : SegmentSchema) (ec : Str) (opts : MarshalOptions)
    (hne : segName ≠ "MSH".data)
    (hfall : ∀ fn w, m.lookup fn = some w →
      ∃ str, marshalValueFromMap w
        ((segSchema.Fields.lookup fn).getD (.mk 0 .tempty [] none)) ['^'] ['~'] =
          .ok str) :
    marshalSegmentFromMap segName m segSchema ['|'] ['^'] ['~'] ec opts =
      .ok (List.intercalate ['|'] (segName :: c1slots segSchema.Fields m)) := by
  have hs := c1_slots segName m segSchema ec opts hne hfall
    ((List.range (maxFieldIndex segSchema.Fields).toNat).map fun i : Nat => (i : Int) + 1)
  have h1 : marshalSegmentFromMap segName m segSchema ['|'] ['^'] ['~'] ec opts =
      (marshalSegmentSlots segName m segSchema ['|'] ['^'] ['~'] ec opts
        ((List.range (maxFieldIndex segSchema.Fields).toNat).map
          fun i : Nat => (i : Int) + 1)).bind
        (fun body => .ok (segName ++ body)) := rfl
  have hmm2 : ((List.range (maxFieldIndex segSchema.Fields).toNat).map
        fun i : Nat => (i : Int) + 1).map
        (fun idx => '|' :: c1content segSchema.Fields m idx) =
      (c1slots segSchema.Fields m).map fun s => '|' :: s := by
    unfold c1slots
    rw [List.map_map, List.map_map]
    rfl
  rw [h1, hs]
  show Except.ok (segName ++ _) = _
  rw [intercalate_cons_flatten, hmm2]

/-! ### C1: segment decode characterization -/

theorem c1slots_getD (flds : List (String × FieldSchema))
    (m : List (String × GoVal)) (k : Nat)
    (hk : k < (maxFieldIndex flds).toNat) :
    (c1slots flds m).getD k [] = c1content flds m ((k : Int) + 1) := by
  unfold c1slots
  rw [List.getD_eq_getElem _ _ (by simpa using hk)]
  simp

theorem c1content_eq_of (flds : List (String × FieldSchema))
    (m : List (String × GoVal)) (idx : Int) (fn : String) (fsch : FieldSchema)
    (w : GoVal) (str : Str)
    (hin : indexToName flds idx = some fn)
    (hml : m.lookup fn = some w)
    (hlk : flds.lookup fn = some fsch)
    (hmv : marshalValueFromMap w fsch ['^'] ['~'] = .ok str) :
    c1content flds m idx = str := by
  unfold c1content
  rw [hin]
  show (match m.lookup fn with
    | none => []
    | some w =>
      match marshalValueFromMap w ((flds.lookup fn).getD (.mk 0 .tempty [] none))
          ['^'] ['~'] with
      | .ok s => s
      | .error _ => []) = str
  rw [hml]
  show (match marshalValueFromMap w ((flds.lookup fn).getD (.mk 0 .tempty [] none))
      ['^'] ['~'] with
    | .ok s => s
    | .error _ => []) = str
  rw [hlk]
  show (match marshalValueFromMap w fsch ['^'] ['~'] with
    | .ok s => s
    | .error _ => []) = str
  rw [hmv]

theorem c1content_none_of (flds : List (String × FieldSchema))
    (m : List (String × GoVal)) (idx : Int) (fn : String)
    (hin : indexToName flds idx = some fn)
    (hml : m.lookup fn = none) :
    c1content flds m idx = [] := by
  unfold c1content
  rw [hin]
  show (match m.lookup fn with
    | none => []
    | some w =>
      match marshalValueFromMap w ((flds.lookup fn).getD (.mk 0 .tempty [] none))
          ['^'] ['~'] with
      | .ok s => s
      | .error _ => []) = []
  rw [hml]

theorem c1_resolveFieldRaw (seg : SegmentLine)
    (flds0 : List (String × FieldSchema)) (m : List (String × GoVal)) (idx : Int)
    (hsegname : seg.name ≠ "MSH".data)
    (hfields : seg.fields = seg.name :: c1slots flds0 m)
    (h1 : 1 ≤ idx) (h2 : idx ≤ maxFieldIndex flds0) :
    resolveFieldRaw seg idx = some (c1content flds0 m idx) := by
  have hlen2 : seg.fields.length = (maxFieldIndex flds0).toNat + 1 := by
    rw [hfields]
    simp [c1slots]
  have hnn := maxFieldIndex_nonneg flds0
  unfold resolveFieldRaw
  simp only [if_neg hsegname]
  have hcond : ¬(idx < 0 ∨ idx ≥ (seg.fields.length : Int)) := by omega
  rw [if_neg hcond]
  simp only [if_neg (show ¬(seg.name = "MSH".data ∧ idx = 1) from
    fun hand => hsegname hand.1)]
  congr 1
  rw [hfields]
  have hidx : idx.toNat = (idx.toNat - 1) + 1 := by omega
  rw [hidx, List.getD_cons_succ]
  have hk : idx.toNat - 1 < (maxFieldIndex flds0).toNat := by omega
  rw [c1slots_getD flds0 m _ hk]
  congr 1
  omega

/-- The field loop of decodeSegmentWithSchema reads a rendered non-header
segment line back into exactly the present fields, in declaration order. -/
theorem c1_decodeFields (seg : SegmentLine) (m : List (String × GoVal))
    (flds0 : List (String × FieldSchema))
    (hsegname : seg.name ≠ "MSH".data)
    (hfields : seg.fields = seg.name :: c1slots flds0 m) :
    ∀ flds : List (String × FieldSchema),
    (∀ p ∈ flds,
      1 ≤ (p : String × FieldSchema).2.Index ∧
      (p : String × FieldSchema).2.Index ≤ maxFieldIndex flds0 ∧
      indexToName flds0 (p : String × FieldSchema).2.Index = some p.1 ∧
      flds0.lookup (p : String × FieldSchema).1 = some p.2 ∧
      (match m.lookup (p : String × FieldSchema).1 with
       | some w => ∃ str,
           marshalValueFromMap w (p : String × FieldSchema).2 ['^'] ['~'] = .ok str ∧
           str ≠ [] ∧
           decodeFieldWithSchema seg.name (p : String × FieldSchema).2.Index str
             (p : String × FieldSchema).2 ['^'] ['~'] = .ok (some w)
       | none => True)) →
    decodeSegmentFields seg ['^'] ['~'] flds =
      .ok (flds.filterMap fun p => (m.lookup p.1).map ((p.1, ·))) := by
  intro flds
  induction flds with
  | nil => intro _; rfl
  | cons p0 rest ih =>
    obtain ⟨fn, fsch⟩ := p0
    intro hfacts
    have hhd := hfacts _ (List.mem_cons_self _ _)
    simp only at hhd
    obtain ⟨h1, h2, hin, hlk, hmatch⟩ := hhd
    have htl := ih fun p hp => hfacts p (List.mem_cons_of_mem _ hp)
    have hres := c1_resolveFieldRaw seg flds0 m fsch.Index hsegname hfields h1 h2
    cases hml : m.lookup fn with
    | some w =>
      rw [hml] at hmatch
      simp only at hmatch
      obtain ⟨str, hmv, hsne, hdec⟩ := hmatch
      rw [c1content_eq_of flds0 m fsch.Index fn fsch w str hin hml hlk hmv] at hres
      rw [decodeSegmentFields_cons, hres]
      have hfm : ((fn, fsch) :: rest).filterMap
          (fun p => (m.lookup p.1).map ((p.1, ·))) =
          (fn, w) :: rest.filterMap (fun p => (m.lookup p.1).map ((p.1, ·))) := by
        rw [List.filterMap_cons]
        simp [hml]
      rw [hfm]
      show (if str = [] then decodeSegmentFields seg ['^'] ['~'] rest
          else do
            let val ← decodeFieldWithSchema seg.name fsch.Index str fsch ['^'] ['~']
            let tail ← decodeSegmentFields seg ['^'] ['~'] rest
            match val with
            | some v => Except.ok ((fn, v) :: tail)
            | none => Except.ok tail) =
        Except.ok ((fn, w) :: rest.filterMap fun p => (m.lookup p.1).map ((p.1, ·)))
      rw [if_neg hsne, hdec, htl]
      rfl
    | none =>
      rw [c1content_none_of flds0 m fsch.Index fn hin hml] at hres
      rw [decodeSegmentFields_cons, hres]
      have hfm : ((fn, fsch) :: rest).filterMap
          (fun p => (m.lookup p.1).map ((p.1, ·))) =
          rest.filterMap (fun p => (m.lookup p.1).map ((p.1, ·))) := by
        rw [List.filterMap_cons]
        simp [hml]
      rw [hfm]
      show (if ([] : Str) = [] then decodeSegmentFields seg ['^'] ['~'] rest
          else do
            let val ← decodeFieldWithSchema seg.name fsch.Index [] fsch ['^'] ['~']
            let tail ← decodeSegmentFields seg ['^'] ['~'] rest
            match val with
            | some v => Except.ok ((fn, v) :: tail)
            | none => Except.ok tail) =
        Except.ok (rest.filterMap fun p => (m.lookup p.1).map ((p.1, ·)))
      rw [if_pos rfl, htl]

/-! ### C1: per-segment round trip -/

theorem c1content_noidx (flds : List (String × FieldSchema))
    (m : List (String × GoVal)) (idx : Int)
    (hin : indexToName flds idx = none) :
    c1content flds m idx = [] := by
  unfold c1content
  rw [hin]

theorem c1_decodeSegment (seg : SegmentLine) (segSchema : SegmentSchema)
    (m : List (String × GoVal))
    (hec : seg.encodingCharacters = "^~\\&".data)
    (hdf : decodeSegmentFields seg ['^'] ['~'] segSchema.Fields = .ok m) :
    decodeSegmentWithSchema seg segSchema = .ok m := by
  unfold decodeSegmentWithSchema
  rw [hec]
  exact hdf

/-- Full per-segment round trip under default separators: a conforming,
non-header segment map renders to a field-separated line whose tokenized
record decodes back to exactly the same map. -/
theorem c1_segment_full (segName : Str) (segSchema : SegmentSchema)
    (m : List (String × GoVal)) (ec : Str) (opts : MarshalOptions)
    (hsegok : segSchemaOK segSchema = true)
    (hmok : segMapOK segSchema.Fields m = true)
    (hne : segName ≠ "MSH".data) :
    marshalSegmentFromMap segName m segSchema ['|'] ['^'] ['~'] ec opts =
      .ok (List.intercalate ['|'] (segName :: c1slots segSchema.Fields m)) ∧
    c1slots segSchema.Fields m ≠ [] ∧
    (∀ s ∈ c1slots segSchema.Fields m, ∀ c ∈ s, lineSafeChar c = true) ∧
    m ≠ [] ∧
    ∀ seg : SegmentLine, seg.name = segName →
      seg.fields = segName :: c1slots segSchema.Fields m →
      seg.encodingCharacters = "^~\\&".data →
      decodeSegmentWithSchema seg segSchema = .ok m := by
  simp only [segSchemaOK, Bool.and_eq_true, Bool.not_eq_true',
    decide_eq_true_eq] at hsegok
  obtain ⟨⟨⟨⟨hrep, hfne⟩, hndn⟩, hndi⟩, hfall0⟩ := hsegok
  simp only [segMapOK, Bool.and_eq_true, Bool.not_eq_true',
    decide_eq_true_eq] at hmok
  obtain ⟨⟨hmne, hsub⟩, hallm⟩ := hmok
  have hvalok : ∀ fn w, m.lookup fn = some w →
      ∃ fsch, (fn, fsch) ∈ segSchema.Fields ∧
        segSchema.Fields.lookup fn = some fsch ∧
        fieldValOK w fsch = true ∧ fieldSchemaOK fsch = true := by
    intro fn w hl
    have hmem := lookup_mem_of_eq_some hl
    have hall := List.all_eq_true.mp hallm _ hmem
    simp only at hall
    cases hcl : segSchema.Fields.lookup fn with
    | none =>
      rw [hcl] at hall
      simp at hall
    | some fsch =>
      rw [hcl] at hall
      have hmem2 := lookup_mem_of_eq_some hcl
      have hfs := List.all_eq_true.mp hfall0 _ hmem2
      exact ⟨fsch, hmem2, rfl, hall, hfs⟩
  have hrender : ∀ fn w, m.lookup fn = some w →
      ∃ fsch str, segSchema.Fields.lookup fn = some fsch ∧
        marshalValueFromMap w fsch ['^'] ['~'] = .ok str ∧ str ≠ [] ∧
        (∀ c ∈ str, lineSafeChar c = true) ∧
        ∀ sn : Str, decodeFieldWithSchema sn fsch.Index str fsch ['^'] ['~'] =
          .ok (some w) := by
    intro fn w hl
    obtain ⟨fsch, hmem2, hcl, hvok, hfsok⟩ := hvalok fn w hl
    obtain ⟨str, hmv, hsne, hsafe, hdecf⟩ :=
      field_render_reparse fsch w hfsok hvok []
    refine ⟨fsch, str, hcl, hmv, hsne, hsafe, fun sn => ?_⟩
    obtain ⟨str2, hmv2, -, -, hdecf2⟩ := field_render_reparse fsch w hfsok hvok sn
    rw [hmv] at hmv2
    cases hmv2
    exact hdecf2
  have hfall : ∀ fn w, m.lookup fn = some w →
      ∃ str, marshalValueFromMap w
        ((segSchema.Fields.lookup fn).getD (.mk 0 .tempty [] none)) ['^'] ['~'] =
          .ok str := by
    intro fn w hl
    obtain ⟨fsch, str, hcl, hmv, -, -, -⟩ := hrender fn w hl
    rw [hcl]
    exact ⟨str, hmv⟩
  have hE1 := c1_marshalSegment segName m segSchema ec opts hne hfall
  have hmaxpos : 1 ≤ maxFieldIndex segSchema.Fields := by
    cases hfl : segSchema.Fields with
    | nil =>
      rw [hfl] at hfne
      simp [List.isEmpty] at hfne
    | cons p0 ftl =>
      have hp0 : p0 ∈ segSchema.Fields := by
        rw [hfl]
        exact List.mem_cons_self _ _
      have hfs := List.all_eq_true.mp hfall0 _ hp0
      simp only [fieldSchemaOK, Bool.and_eq_true, decide_eq_true_eq] at hfs
      have h1 : (1 : Int) ≤ p0.2.Index := hfs.1
      have h2 : p0.2.Index ≤ maxFieldIndex (p0 :: ftl) :=
        maxFieldIndex_ge _ _ (List.mem_cons_self _ _)
      omega
  have hslotsne : c1slots segSchema.Fields m ≠ [] := by
    unfold c1slots
    intro hnil
    have := congrArg List.length hnil
    simp only [List.length_map, List.length_range, List.length_nil] at this
    omega
  have hcontent_safe : ∀ idx : Int, ∀ c ∈ c1content segSchema.Fields m idx,
      lineSafeChar c = true := by
    intro idx c hc
    cases hin : indexToName segSchema.Fields idx with
    | none =>
      rw [c1content_noidx segSchema.Fields m idx hin] at hc
      cases hc
    | some fn =>
      cases hml : m.lookup fn with
      | none =>
        rw [c1content_none_of segSchema.Fields m idx fn hin hml] at hc
        cases hc
      | some w =>
        obtain ⟨fsch, str, hcl, hmv, -, hsafe, -⟩ := hrender fn w hml
        rw [c1content_eq_of segSchema.Fields m idx fn fsch w str hin hml hcl hmv] at hc
        exact hsafe c hc
  have hslot_safe : ∀ s ∈ c1slots segSchema.Fields m, ∀ c ∈ s,
      lineSafeChar c = true := by
    intro s hs
    unfold c1slots at hs
    obtain ⟨i, -, rfl⟩ := List.mem_map.mp hs
    exact hcontent_safe _
  have hmne2 : m ≠ [] := by
    intro he
    rw [he] at hmne
    simp at hmne
  refine ⟨hE1, hslotsne, hslot_safe, hmne2, ?_⟩
  intro seg hname hfieldseq hec
  apply c1_decodeSegment seg segSchema m hec
  have hdf := c1_decodeFields seg m segSchema.Fields
    (by rw [hname]; exact hne)
    (by rw [hfieldseq, hname])
    segSchema.Fields
    (by
      intro p hp
      have hfs := List.all_eq_true.mp hfall0 _ hp
      simp only [fieldSchemaOK, Bool.and_eq_true, decide_eq_true_eq] at hfs
      refine ⟨hfs.1, maxFieldIndex_ge _ _ hp, ?_, ?_, ?_⟩
      · exact indexToName_of_mem_nodup segSchema.Fields hndi
          (show (p.1, p.2) ∈ segSchema.Fields from hp)
      · exact alookup_of_mem_nodup hndn (show (p.1, p.2) ∈ segSchema.Fields from hp)
      · cases hml : m.lookup p.1 with
        | none => trivial
        | some w =>
          obtain ⟨fsch, str, hcl, hmv, hsne, -, hdecf⟩ := hrender p.1 w hml
          have hfe : fsch = p.2 := by
            have h2 := alookup_of_mem_nodup hndn
              (show (p.1, p.2) ∈ segSchema.Fields from hp)
            rw [hcl] at h2
            exact Option.some.inj h2
          subst hfe
          exact ⟨str, hmv, hsne, hdecf seg.name⟩)
  rw [hdf]
  congr 1
  have hrw : (segSchema.Fields.filterMap fun p => (m.lookup p.1).map ((p.1, ·))) =
      (segSchema.Fields.map Prod.fst).filterMap
        fun k => (m.lookup k).map ((k, ·)) := by
    rw [List.filterMap_map]
    rfl
  rw [hrw]
  exact filterMap_lookup_eq _ m hndn hsub

/-! ### C1: tokenizer round trip of emitted output -/

theorem replaceCRLF_of_no_lf : ∀ s : Str, '\n' ∉ s → replaceCRLF s = s
  | [], _ => rfl
  | [c], _ => rfl
  | c1 :: c2 :: rest, h => by
    have h2 : c2 ≠ '\n' :=
      fun hh => h (hh ▸ List.mem_cons_of_mem _ (List.mem_cons_self _ _))
    have h3 : '\n' ∉ c2 :: rest := fun hh => h (List.mem_cons_of_mem _ hh)
    rw [replaceCRLF, if_neg (fun hh => h2 hh.2), replaceCRLF_of_no_lf _ h3]

theorem crToLF_cr_cons (s : Str) : crToLF ('\r' :: s) = '\n' :: crToLF s := by
  unfold crToLF
  rw [List.map_cons, if_pos rfl]

theorem crToLF_intercalate_cr (ls : List Str) (h : ∀ l ∈ ls, '\r' ∉ l) :
    crToLF (List.intercalate ['\r'] ls) = List.intercalate ['\n'] ls := by
  induction ls with
  | nil => rfl
  | cons x tl ih =>
    cases tl with
    | nil =>
      simp only [List.intercalate, List.intersperse_single, List.flatten,
        List.append_nil]
      exact crToLF_of_no_cr x (h x (List.mem_cons_self _ _))
    | cons y tl2 =>
      have hca : ∀ a b : Str, crToLF (a ++ b) = crToLF a ++ crToLF b :=
        fun a b => List.map_append _ a b
      rw [show List.intercalate ['\r'] (x :: y :: tl2) =
          x ++ '\r' :: List.intercalate ['\r'] (y :: tl2) by
        simp [List.intercalate, List.intersperse_cons_cons, List.flatten]]
      rw [show List.intercalate ['\n'] (x :: y :: tl2) =
          x ++ '\n' :: List.intercalate ['\n'] (y :: tl2) by
        simp [List.intercalate, List.intersperse_cons_cons, List.flatten]]
      rw [hca, crToLF_cr_cons, ih fun l hl => h l (List.mem_cons_of_mem _ hl),
        crToLF_of_no_cr x (h x (List.mem_cons_self _ _))]

theorem scanLines_intercalate (ls : List Str) (hne : ls ≠ [])
    (hlf : ∀ l ∈ ls, '\n' ∉ l) (hnil : ∀ l ∈ ls, l ≠ []) :
    scanLines (List.intercalate ['\n'] ls) = ls := by
  have hsplit : (List.intercalate ['\n'] ls).splitOn '\n' = ls :=
    List.splitOn_intercalate ls '\n' hlf hne
  unfold scanLines
  rw [hsplit]
  have hcond : ¬(ls.getLast? = some []) := by
    intro hc
    rw [List.getLast?_eq_getLast ls hne] at hc
    exact hnil _ (List.getLast_mem hne) (Option.some.inj hc)
  show (if ls.getLast? = some [] then ls.dropLast else ls) = ls
  rw [if_neg hcond]

theorem not_msh_of_append (n t : Str) (hn : ¬ "MSH".data <+: n) (_h0 : n ≠ []) :
    ¬ "MSH".data <+: (n ++ '|' :: t) := by
  intro h
  obtain ⟨r, hr⟩ := h
  by_cases hlen : 3 ≤ n.length
  · apply hn
    have ht3 : ("MSH".data ++ r).take 3 = (n ++ '|' :: t).take 3 := by rw [hr]
    rw [List.take_append_eq_append_take, List.take_append_eq_append_take] at ht3
    rw [show ("MSH".data).take 3 = "MSH".data from
      List.take_of_length_le (by decide)] at ht3
    rw [show (3 - ("MSH".data).length) = 0 from by decide, List.take_zero,
      List.append_nil] at ht3
    rw [show 3 - n.length = 0 from by omega, List.take_zero,
      List.append_nil] at ht3
    rw [ht3]
    exact List.take_prefix 3 n
  · push_neg at hlen
    have ht3 : ("MSH".data ++ r).take 3 = (n ++ '|' :: t).take 3 := by rw [hr]
    rw [List.take_append_eq_append_take, List.take_append_eq_append_take] at ht3
    rw [show ("MSH".data).take 3 = "MSH".data from
      List.take_of_length_le (by decide)] at ht3
    rw [show (3 - ("MSH".data).length) = 0 from by decide, List.take_zero,
      List.append_nil] at ht3
    rw [List.take_of_length_le (by omega : n.length ≤ 3)] at ht3
    have hmem : '|' ∈ n ++ ('|' :: t).take (3 - n.length) := by
      cases hk : 3 - n.length with
      | zero => omega
      | succ k2 =>
        rw [List.take_succ_cons]
        exact List.mem_append.mpr (Or.inr (List.mem_cons_self _ _))
    rw [← ht3] at hmem
    revert hmem
    decide

theorem not_isPrefixOf_of (a b : Str) (h : ¬ a <+: b) : a.isPrefixOf b = false := by
  rw [← Bool.not_eq_true]
  intro hc
  exact h ( List.isPrefixOf_iff_prefix.mp hc)

/-- One forward step of the line scanner when the line neither adopts a new
field separator nor rewrites the encoding characters. -/
theorem parseLines_cons_plain (fs : Char) (ec : Str) (line : Str) (rest : List Str)
    (p0 : Str) (ptail : List Str)
    (hnp : ¬("MSH".data.isPrefixOf line = true ∧ line.length > 3))
    (hsp : line.splitOn fs = p0 :: ptail)
    (hnp0 : ¬("MSH".data.isPrefixOf p0 = true ∧ (p0 :: ptail).length > 1))
    (hp0 : p0 ≠ []) :
    parseLines fs ec (line :: rest) =
      (parseLines fs ec rest).map
        (fun tail => (⟨p0, p0 :: ptail, [fs], ec⟩ : SegmentLine) :: tail) := by
  simp only [parseLines, if_neg hnp, hsp]
  simp only [if_neg hnp0, if_neg hp0]
  cases parseLines fs ec rest with
  | error e => rfl
  | ok tail => rfl

/-- The line scanner recovers records with the default separators from
default-rendered, non-header lines. -/
theorem c1_parseLines : ∀ items : List (Str × List Str),
    (∀ p ∈ items, (p : Str × List Str).1 ≠ [] ∧
      ¬ "MSH".data <+: (p : Str × List Str).1 ∧
      (p : Str × List Str).2 ≠ [] ∧
      '|' ∉ (p : Str × List Str).1 ∧
      (∀ s ∈ (p : Str × List Str).2, '|' ∉ s)) →
    parseLines '|' "^~\\&".data
        (items.map fun p => List.intercalate ['|'] (p.1 :: p.2)) =
      .ok (items.map fun p =>
        (⟨p.1, p.1 :: p.2, ['|'], "^~\\&".data⟩ : SegmentLine)) := by
  intro items
  induction items with
  | nil => intro _; rfl
  | cons p0 ptl ih =>
    obtain ⟨nm, slots⟩ := p0
    intro hfacts
    have hhd := hfacts _ (List.mem_cons_self _ _)
    simp only at hhd
    obtain ⟨hn0, hmsh, hsne, hnp, hsp⟩ := hhd
    have htl := ih fun p hp => hfacts p (List.mem_cons_of_mem _ hp)
    have hlp : ¬ "MSH".data <+: List.intercalate ['|'] (nm :: slots) := by
      cases slots with
      | nil => exact absurd rfl hsne
      | cons s0 stl =>
        rw [intercalate_cons_flatten, List.map_cons, List.flatten_cons]
        rw [show ('|' :: s0) ++ (stl.map fun s => '|' :: s).flatten =
          '|' :: (s0 ++ (stl.map fun s => '|' :: s).flatten) from rfl]
        exact not_msh_of_append nm _ hmsh hn0
    have hsplitline : (List.intercalate ['|'] (nm :: slots)).splitOn '|' =
        nm :: slots := by
      apply List.splitOn_intercalate (nm :: slots) '|'
      · intro l hl
        rcases List.mem_cons.mp hl with rfl | hl2
        · exact hnp
        · exact hsp l hl2
      · exact List.cons_ne_nil _ _
    rw [List.map_cons,
      parseLines_cons_plain '|' "^~\\&".data _ _ nm slots
        (fun hand => by
          rw [not_isPrefixOf_of _ _ hlp] at hand
          cases hand.1)
        hsplitline
        (fun hand => by
          rw [not_isPrefixOf_of _ _ hmsh] at hand
          cases hand.1)
        hn0,
      htl]
    rfl

/-! ### C1: message-level loops -/

/-- Map projection used when reading a segment value back as a map. -/
def vmapOf : GoVal → List (String × GoVal)
  | .vmap m => m
  | _ => []

/-- The line a present segment renders to under default separators. -/
def c1lineOf (schema : MessageSchema) (n : Str) (val : GoVal) : Str :=
  List.intercalate ['|']
    (n :: c1slots ((schema.Segments.lookup n).getD ⟨[], false⟩).Fields (vmapOf val))

theorem c1glue_false_eq (ls : List Str) :
    c1glue false ls = (ls.map fun l => '\r' :: l).flatten := by
  induction ls with
  | nil => rfl
  | cons l tl ih =>
    rw [c1glue, ih]
    rfl

theorem c1glue_true_eq (ls : List Str) :
    c1glue true ls = List.intercalate ['\r'] ls := by
  cases ls with
  | nil => rfl
  | cons l tl =>
    rw [c1glue, c1glue_false_eq, intercalate_cons_flatten]
    rfl

theorem lineSafe_spec (c : Char) (h : lineSafeChar c = true) :
    c ≠ '|' ∧ c ≠ '\r' ∧ c ≠ '\n' := by
  unfold lineSafeChar at h
  simp only [Bool.and_eq_true, decide_eq_true_eq] at h
  exact ⟨h.1.1, h.1.2, h.2⟩

theorem alKeys_filterMap_lookup_map {α ν ν' : Type} [BEq α] (keys : List α)
    (t : List (α × ν)) (g : α → ν → ν') :
    alKeys (keys.filterMap fun k => (t.lookup k).map fun v => (k, g k v)) =
      keys.filter fun k => (t.lookup k).isSome := by
  induction keys with
  | nil => rfl
  | cons a ks ih =>
    simp only [List.filterMap_cons, List.filter_cons]
    cases h : t.lookup a with
    | none => simpa [h] using ih
    | some v =>
      simp only [h, Option.map_some', Option.isSome_some, if_true]
      simpa [alKeys] using ih

theorem mapSet_of_lookup_none {κ : Type} [BEq κ] (m : List (κ × GoVal)) (k : κ)
    (v : GoVal) (h : m.lookup k = none) : mapSet m k v = m ++ [(k, v)] := by
  unfold mapSet
  rw [h]
  rfl

/-- The segment loop of MarshalWithSchemaOptions, over any order whose
present segments are conforming non-repeating maps, emits one rendered line
per present segment, glued with the line ending. -/
theorem c1_marshalSegments (v : List (Str × GoVal)) (schema : MessageSchema)
    (ec : Str) (opts : MarshalOptions) (hle : opts.LineEnding = ['\r']) :
    ∀ (order : List Str) (first : Bool),
    (∀ n ∈ order, ∀ val, v.lookup n = some val →
      ∃ segSchema m, schema.Segments.lookup n = some segSchema ∧
        segSchema.Repeat = false ∧ val = .vmap m ∧
        marshalSegmentFromMap n m segSchema ['|'] ['^'] ['~'] ec opts =
          .ok (List.intercalate ['|'] (n :: c1slots segSchema.Fields m))) →
    marshalSegments v schema ['|'] ['^'] ['~'] ec opts order first =
      .ok (c1glue first (order.filterMap fun n =>
        (v.lookup n).map (c1lineOf schema n))) := by
  intro order
  induction order with
  | nil => intro first _; rfl
  | cons n rest ih =>
    intro first hfacts
    have htl : ∀ b : Bool,
        marshalSegments v schema ['|'] ['^'] ['~'] ec opts rest b =
          .ok (c1glue b (rest.filterMap fun k =>
            (v.lookup k).map (c1lineOf schema k))) :=
      fun b => ih b fun k hk => hfacts k (List.mem_cons_of_mem _ hk)
    rw [marshalSegments]
    simp only [List.filterMap_cons]
    cases hl : v.lookup n with
    | none =>
      exact htl first
    | some val =>
      obtain ⟨segSchema, m, hlookup, hrep, hval, hms⟩ :=
        hfacts n (List.mem_cons_self _ _) val hl
      subst hval
      rw [hlookup]
      show (if ((some segSchema).getD ⟨[], false⟩).Repeat then _ else _) = _
      rw [show ((some segSchema).getD ⟨[], false⟩) = segSchema from rfl, hrep]
      simp only [Bool.false_eq_true, if_false]
      show ((marshalSegmentFromMap n m segSchema ['|'] ['^'] ['~'] ec opts).bind
        fun line => (marshalSegments v schema ['|'] ['^'] ['~'] ec opts rest false).bind
          fun tail =>
            .ok ((if first then [] else opts.LineEnding) ++ line ++ tail)) = _
      rw [hms, htl false]
      show Except.ok ((if first then [] else opts.LineEnding) ++ _ ++ _) = _
      rw [hle]
      have hline : c1lineOf schema n (GoVal.vmap m) =
          List.intercalate ['|'] (n :: c1slots segSchema.Fields m) := by
        unfold c1lineOf
        rw [hlookup]
        rfl
      show _ = Except.ok (c1glue first (c1lineOf schema n (GoVal.vmap m) ::
        rest.filterMap fun k => (v.lookup k).map (c1lineOf schema k)))
      rw [c1glue, hline]

/-- The segment loop of UnmarshalWithSchema over records of known,
non-repeating segments appends one map entry per record. -/
theorem c1_decodeSegments (schema : MessageSchema) :
    ∀ (prs : List (SegmentLine × List (String × GoVal))) (acc : List (Str × GoVal)),
    (∀ p ∈ prs, ∃ segSchema,
      schema.Segments.lookup (p : SegmentLine × _).1.name = some segSchema ∧
      segSchema.Repeat = false ∧
      decodeSegmentWithSchema (p : SegmentLine × _).1 segSchema =
        .ok (p : SegmentLine × _).2 ∧
      (p : SegmentLine × _).2 ≠ []) →
    ((prs.map fun p => p.1.name).Nodup) →
    (∀ p ∈ prs, acc.lookup (p : SegmentLine × _).1.name = none) →
    decodeSegments schema (prs.map Prod.fst) acc =
      .ok (acc ++ prs.map fun p => (p.1.name, GoVal.vmap p.2)) := by
  intro prs
  induction prs with
  | nil =>
    intro acc _ _ _
    simp only [List.map_nil, List.append_nil]
    rfl
  | cons pr rest ih =>
    obtain ⟨rec, m⟩ := pr
    intro acc hfacts hnd hacc
    simp only [List.map_cons, List.nodup_cons] at hnd
    have hhd := hfacts _ (List.mem_cons_self _ _)
    simp only at hhd
    obtain ⟨segSchema, hlookup, hrep, hdec, hmne⟩ := hhd
    simp only [List.map_cons]
    rw [decodeSegments, hlookup]
    show ((decodeSegmentWithSchema rec segSchema).bind fun segMap =>
      if segMap.isEmpty then decodeSegments schema (rest.map Prod.fst) acc
      else if segSchema.Repeat then _ else
        decodeSegments schema (rest.map Prod.fst)
          (mapSet acc rec.name (.vmap segMap))) = _
    rw [hdec]
    show (if m.isEmpty then decodeSegments schema (rest.map Prod.fst) acc
      else if segSchema.Repeat then _ else
        decodeSegments schema (rest.map Prod.fst)
          (mapSet acc rec.name (.vmap m))) = _
    rw [show m.isEmpty = false from by
        cases m with
        | nil => exact absurd rfl hmne
        | cons a b => rfl,
      hrep]
    simp only [Bool.false_eq_true, if_false]
    rw [mapSet_of_lookup_none acc rec.name (.vmap m)
      (hacc _ (List.mem_cons_self _ _))]
    rw [ih (acc ++ [(rec.name, GoVal.vmap m)])
      (fun p hp => hfacts p (List.mem_cons_of_mem _ hp))
      hnd.2
      (fun p hp => by
        have hne : p.1.name ≠ rec.name := by
          intro he
          exact hnd.1 (he ▸ List.mem_map_of_mem (fun q => q.1.name) hp)
        rw [lookup_append_ne acc rec.name p.1.name (GoVal.vmap m) hne]
        exact hacc p (List.mem_cons_of_mem _ hp))]
    rw [List.append_assoc]
    rfl

theorem filterMap_lookup_keymap {α ν β : Type} [BEq α] (keys : List α)
    (t : List (α × ν)) (g : α → ν → β) (key : β → α)
    (hkey : ∀ k v, key (g k v) = k) :
    (keys.filterMap fun k => (t.lookup k).map (g k)).map key =
      keys.filter fun k => (t.lookup k).isSome := by
  induction keys with
  | nil => rfl
  | cons a ks ih =>
    simp only [List.filterMap_cons, List.filter_cons]
    cases h : t.lookup a with
    | none => simpa [h] using ih
    | some v =>
      simp only [h, Option.map_some', Option.isSome_some, if_true,
        List.map_cons, hkey]
      rw [ih]

/-- Claim C1 (amended): over schemas of non-repeating, non-header segments
whose fields are scalars or objects of scalars with positive,
duplicate-free indices, any decoded tree whose values conform (types match
their schema, strings avoid the separator and line-ending bytes, integers
fit 64 bits, timestamps are zone-free, fraction-free, clock-valid and
non-zero) re-encodes under default options to a message whose decode has
exactly the same segment lookups as the first decode. -/
theorem C1_roundtrip_restricted (data : Str) (schema : MessageSchema)
    (tree : List (Str × GoVal))
    (hdec : UnmarshalWithSchema data schema = .ok tree)
    (hschema : schemaRTOK schema = true)
    (htree : treeOK schema tree = true) :
    ∃ out tree2,
      MarshalWithSchema tree schema = .ok out ∧
      UnmarshalWithSchema out schema = .ok tree2 ∧
      ∀ name, tree2.lookup name = tree.lookup name := by
  clear hdec
  simp only [schemaRTOK, Bool.and_eq_true, decide_eq_true_eq] at hschema
  obtain ⟨hndk, hallseg⟩ := hschema
  simp only [treeOK, Bool.and_eq_true, decide_eq_true_eq] at htree
  obtain ⟨htnd, htall⟩ := htree
  have hsegfact : ∀ n segSchema, schema.Segments.lookup n = some segSchema →
      ¬ "MSH".data <+: n ∧ n ≠ [] ∧ (∀ c ∈ n, lineSafeChar c = true) ∧
      segSchemaOK segSchema = true := by
    intro n segSchema hl
    have hmem := lookup_mem_of_eq_some hl
    have h := List.all_eq_true.mp hallseg _ hmem
    simp only [Bool.and_eq_true, Bool.not_eq_true'] at h
    obtain ⟨⟨⟨hp, he⟩, ha⟩, hs⟩ := h
    refine ⟨?_, ?_, fun c hc => List.all_eq_true.mp ha c hc, hs⟩
    · intro hpre
      have hb := List.isPrefixOf_iff_prefix.mpr hpre
      rw [hp] at hb
      cases hb
    · intro hne
      rw [hne] at he
      simp [List.isEmpty] at he
  have htreefact : ∀ n val, tree.lookup n = some val →
      ∃ segSchema m, schema.Segments.lookup n = some segSchema ∧
        val = .vmap m ∧ segMapOK segSchema.Fields m = true := by
    intro n val hl
    have hmem := lookup_mem_of_eq_some hl
    have h := List.all_eq_true.mp htall _ hmem
    simp only at h
    cases hcl : schema.Segments.lookup n with
    | none =>
      rw [hcl] at h
      exact absurd h (by simp)
    | some segSchema =>
      rw [hcl] at h
      cases val with
      | vmap m => exact ⟨segSchema, m, rfl, rfl, h⟩
      | vnil => exact absurd h (by simp)
      | vstr s => exact absurd h (by simp)
      | vint k => exact absurd h (by simp)
      | vfloat r => exact absurd h (by simp)
      | vbool b => exact absurd h (by simp)
      | vtime t => exact absurd h (by simp)
      | varr a => exact absurd h (by simp)
  have hfull : ∀ n val, tree.lookup n = some val →
      ∃ segSchema m, schema.Segments.lookup n = some segSchema ∧
        val = .vmap m ∧ segSchema.Repeat = false ∧
        marshalSegmentFromMap n m segSchema ['|'] ['^'] ['~'] ("^~\\&".data)
          DefaultMarshalOptions =
          .ok (List.intercalate ['|'] (n :: c1slots segSchema.Fields m)) ∧
        c1slots segSchema.Fields m ≠ [] ∧
        (∀ s ∈ c1slots segSchema.Fields m, ∀ c ∈ s, lineSafeChar c = true) ∧
        m ≠ [] ∧
        (∀ seg : SegmentLine, seg.name = n →
          seg.fields = n :: c1slots segSchema.Fields m →
          seg.encodingCharacters = "^~\\&".data →
          decodeSegmentWithSchema seg segSchema = .ok m) := by
    intro n val hl
    obtain ⟨segSchema, m, hcl, hval, hmok⟩ := htreefact n val hl
    obtain ⟨hprf, hne0, -, hsok⟩ := hsegfact n segSchema hcl
    have hnm : n ≠ "MSH".data := by
      intro he
      apply hprf
      rw [he]
    have hrep : segSchema.Repeat = false := by
      have h2 := hsok
      simp only [segSchemaOK, Bool.and_eq_true, Bool.not_eq_true',
        decide_eq_true_eq] at h2
      exact h2.1.1.1.1
    obtain ⟨hE1, hsne, hssafe, hmne, hD⟩ :=
      c1_segment_full n segSchema m ("^~\\&".data) DefaultMarshalOptions
        hsok hmok hnm
    exact ⟨segSchema, m, hcl, hval, hrep, hE1, hsne, hssafe, hmne, hD⟩
  have hkeysnomsh : ∀ k ∈ alKeys schema.Segments, k ≠ "MSH".data := by
    intro k hk he
    obtain ⟨q, hqmem, hfst⟩ := List.mem_map.mp hk
    have h := List.all_eq_true.mp hallseg _ hqmem
    simp only [Bool.and_eq_true, Bool.not_eq_true'] at h
    have hb := List.isPrefixOf_iff_prefix.mpr
      (show "MSH".data <+: q.1 by rw [hfst, he])
    rw [h.1.1.1] at hb
    cases hb
  have horder : marshalSegmentOrder schema = alKeys schema.Segments := by
    unfold marshalSegmentOrder
    have hfil : ((schema.Segments.map (·.1)).filter (· ≠ "MSH".data)) =
        schema.Segments.map (·.1) := by
      apply List.filter_eq_self.mpr
      intro a ha
      simp only [decide_eq_true_eq]
      exact hkeysnomsh a ha
    have hcon : ((schema.Segments.map (·.1)).contains "MSH".data) = false := by
      rw [← Bool.not_eq_true]
      intro hc
      obtain ⟨a2, ha2, hbeq⟩ := List.contains_iff_exists_mem_beq.mp hc
      exact hkeysnomsh a2 ha2 (eq_of_beq hbeq).symm
    rw [hcon]
    simp only [Bool.false_eq_true, if_false]
    rw [hfil]
    rfl
  have hmsfacts : ∀ n ∈ marshalSegmentOrder schema, ∀ val,
      tree.lookup n = some val →
      ∃ segSchema m, schema.Segments.lookup n = some segSchema ∧
        segSchema.Repeat = false ∧ val = .vmap m ∧
        marshalSegmentFromMap n m segSchema ['|'] ['^'] ['~'] ("^~\\&".data)
          DefaultMarshalOptions =
          .ok (List.intercalate ['|'] (n :: c1slots segSchema.Fields m)) := by
    intro n _ val hl
    obtain ⟨segSchema, m, hcl, hval, hrep, hE1, -, -, -, -⟩ := hfull n val hl
    exact ⟨segSchema, m, hcl, hrep, hval, hE1⟩
  have hms := c1_marshalSegments tree schema ("^~\\&".data) DefaultMarshalOptions
    rfl (marshalSegmentOrder schema) true hmsfacts
  have hM : MarshalWithSchema tree schema =
      marshalSegments tree schema ['|'] ['^'] ['~'] ("^~\\&".data)
        DefaultMarshalOptions (marshalSegmentOrder schema) true := rfl
  have hlin_mem : ∀ l ∈ (marshalSegmentOrder schema).filterMap
      (fun n => (tree.lookup n).map (c1lineOf schema n)),
      '\r' ∉ l ∧ '\n' ∉ l ∧ l ≠ [] := by
    intro l hl
    obtain ⟨n, -, he⟩ := List.mem_filterMap.mp hl
    cases hlk : tree.lookup n with
    | none =>
      rw [hlk] at he
      cases he
    | some val =>
      rw [hlk] at he
      obtain ⟨segSchema, m, hcl, hval, -, -, -, hssafe, -, -⟩ := hfull n val hlk
      obtain ⟨-, hne0, hnsafe, -⟩ := hsegfact n segSchema hcl
      have hline : l = List.intercalate ['|'] (n :: c1slots segSchema.Fields m) := by
        cases he
        unfold c1lineOf
        rw [hcl, hval]
        rfl
      have hpieces : ∀ x ∈ n :: c1slots segSchema.Fields m, ∀ c ∈ x,
          lineSafeChar c = true := by
        intro x hx
        rcases List.mem_cons.mp hx with rfl | hx2
        · exact hnsafe
        · exact hssafe x hx2
      refine ⟨?_, ?_, ?_⟩
      · intro hc
        rw [hline] at hc
        rcases mem_intercalate_single '|' _ _ hc with hq | ⟨p, hp, hcp⟩
        · cases hq
        · exact absurd (lineSafe_spec _ (hpieces p hp _ hcp)).2.1 (by simp)
      · intro hc
        rw [hline] at hc
        rcases mem_intercalate_single '|' _ _ hc with hq | ⟨p, hp, hcp⟩
        · cases hq
        · exact absurd (lineSafe_spec _ (hpieces p hp _ hcp)).2.2 (by simp)
      · rw [hline]
        exact intercalate_ne_nil_of_mem '|' _ n (List.mem_cons_self _ _) hne0
  have hglue : marshalSegments tree schema ['|'] ['^'] ['~'] ("^~\\&".data)
      DefaultMarshalOptions (marshalSegmentOrder schema) true =
      .ok (List.intercalate ['\r'] ((marshalSegmentOrder schema).filterMap
        (fun n => (tree.lookup n).map (c1lineOf schema n)))) := by
    rw [hms, c1glue_true_eq]
  by_cases hlines : (marshalSegmentOrder schema).filterMap
      (fun n => (tree.lookup n).map (c1lineOf schema n)) = []
  · have htreenil : tree = [] := by
      cases htc : tree with
      | nil => rfl
      | cons e ttl =>
        exfalso
        have hmem : (e.1, e.2) ∈ tree := by
          rw [htc]
          exact List.mem_cons_self _ _
        have hl : tree.lookup e.1 = some e.2 := alookup_of_mem_nodup htnd hmem
        obtain ⟨segSchema, m, hcl, -⟩ := htreefact e.1 e.2 hl
        have hkmem : e.1 ∈ alKeys schema.Segments :=
          List.mem_map_of_mem Prod.fst (lookup_mem_of_eq_some hcl)
        have : c1lineOf schema e.1 e.2 ∈ (marshalSegmentOrder schema).filterMap
            (fun n => (tree.lookup n).map (c1lineOf schema n)) := by
          refine List.mem_filterMap.mpr ⟨e.1, ?_, ?_⟩
          · rw [horder]
            exact hkmem
          · rw [hl]
            rfl
        rw [hlines] at this
        cases this
    refine ⟨[], [], ?_, ?_, ?_⟩
    · rw [hM, hglue, hlines]
      rfl
    · rfl
    · intro name
      rw [htreenil]
  · refine ⟨List.intercalate ['\r'] ((marshalSegmentOrder schema).filterMap
      (fun n => (tree.lookup n).map (c1lineOf schema n))), ?_⟩
    have hnolf : '\n' ∉ List.intercalate ['\r'] ((marshalSegmentOrder schema).filterMap
        (fun n => (tree.lookup n).map (c1lineOf schema n))) := by
      intro hc
      rcases mem_intercalate_single '\r' _ _ hc with hq | ⟨p, hp, hcp⟩
      · cases hq
      · exact (hlin_mem p hp).2.1 hcp
    have hnorm : normalizeNewlines (List.intercalate ['\r']
        ((marshalSegmentOrder schema).filterMap
          (fun n => (tree.lookup n).map (c1lineOf schema n)))) =
        List.intercalate ['\n'] ((marshalSegmentOrder schema).filterMap
          (fun n => (tree.lookup n).map (c1lineOf schema n))) := by
      unfold normalizeNewlines
      rw [replaceCRLF_of_no_lf _ hnolf,
        crToLF_intercalate_cr _ (fun l hl => (hlin_mem l hl).1)]
    have hscan := scanLines_intercalate _ hlines
      (fun l hl => (hlin_mem l hl).2.1) (fun l hl => (hlin_mem l hl).2.2)
    have hitems : ∀ p ∈ (marshalSegmentOrder schema).filterMap
        (fun n => (tree.lookup n).map
          (fun val => (n, c1slots ((schema.Segments.lookup n).getD
            ⟨[], false⟩).Fields (vmapOf val)))),
        (p : Str × List Str).1 ≠ [] ∧
        ¬ "MSH".data <+: (p : Str × List Str).1 ∧
        (p : Str × List Str).2 ≠ [] ∧
        '|' ∉ (p : Str × List Str).1 ∧
        (∀ s ∈ (p : Str × List Str).2, '|' ∉ s) := by
      intro p hp
      obtain ⟨n, -, he⟩ := List.mem_filterMap.mp hp
      cases hlk : tree.lookup n with
      | none =>
        rw [hlk] at he
        cases he
      | some val =>
        rw [hlk] at he
        obtain ⟨segSchema, m2, hcl, hval, -, -, hsne, hssafe, -, -⟩ := hfull n val hlk
        obtain ⟨hprf, hne0, hnsafe, -⟩ := hsegfact n segSchema hcl
        cases he
        refine ⟨hne0, hprf, ?_, ?_, ?_⟩
        · show c1slots ((schema.Segments.lookup n).getD ⟨[], false⟩).Fields
            (vmapOf val) ≠ []
          rw [hcl, hval]
          exact hsne
        · intro hcm
          exact absurd (lineSafe_spec _ (hnsafe _ hcm)).1 (by simp)
        · intro s hs hcm
          rw [hcl, hval] at hs
          exact absurd (lineSafe_spec _ (hssafe s hs _ hcm)).1 (by simp)
    have hparse := c1_parseLines
      ((marshalSegmentOrder schema).filterMap
        (fun n => (tree.lookup n).map
          (fun val => (n, c1slots ((schema.Segments.lookup n).getD
            ⟨[], false⟩).Fields (vmapOf val))))) hitems
    have ha : (((marshalSegmentOrder schema).filterMap
        (fun n => (tree.lookup n).map
          (fun val => (n, c1slots ((schema.Segments.lookup n).getD
            ⟨[], false⟩).Fields (vmapOf val))))).map
          (fun p => List.intercalate ['|'] (p.1 :: p.2))) =
        (marshalSegmentOrder schema).filterMap
          (fun n => (tree.lookup n).map (c1lineOf schema n)) := by
      rw [List.map_filterMap]
      refine filterMap_congr_mem fun n _ => ?_
      cases tree.lookup n <;> rfl
    rw [ha] at hparse
    have hPM : parseMessage (List.intercalate ['\r']
        ((marshalSegmentOrder schema).filterMap
          (fun n => (tree.lookup n).map (c1lineOf schema n)))) =
        .ok (((marshalSegmentOrder schema).filterMap
          (fun n => (tree.lookup n).map
            (fun val => (n, c1slots ((schema.Segments.lookup n).getD
              ⟨[], false⟩).Fields (vmapOf val))))).map
          (fun p => (⟨p.1, p.1 :: p.2, ['|'], "^~\\&".data⟩ : SegmentLine))) := by
      unfold parseMessage
      rw [hnorm, hscan, hparse]
    have hrecs : (((marshalSegmentOrder schema).filterMap
        (fun n => (tree.lookup n).map
          (fun val => (n, c1slots ((schema.Segments.lookup n).getD
            ⟨[], false⟩).Fields (vmapOf val))))).map
          (fun p => (⟨p.1, p.1 :: p.2, ['|'], "^~\\&".data⟩ : SegmentLine))) =
        (((marshalSegmentOrder schema).filterMap
          (fun n => (tree.lookup n).map
            (fun val => ((⟨n, n :: c1slots ((schema.Segments.lookup n).getD
                ⟨[], false⟩).Fields (vmapOf val), ['|'],
                "^~\\&".data⟩ : SegmentLine), vmapOf val)))).map Prod.fst) := by
      rw [List.map_filterMap, List.map_filterMap]
      refine filterMap_congr_mem fun n _ => ?_
      cases tree.lookup n <;> rfl
    have hordernd : (marshalSegmentOrder schema).Nodup := by
      rw [horder]
      exact hndk
    have hprsfact : ∀ p ∈ (marshalSegmentOrder schema).filterMap
        (fun n => (tree.lookup n).map
          (fun val => ((⟨n, n :: c1slots ((schema.Segments.lookup n).getD
              ⟨[], false⟩).Fields (vmapOf val), ['|'],
              "^~\\&".data⟩ : SegmentLine), vmapOf val))),
        ∃ segSchema,
          schema.Segments.lookup (p : SegmentLine × _).1.name = some segSchema ∧
          segSchema.Repeat = false ∧
          decodeSegmentWithSchema (p : SegmentLine × _).1 segSchema =
            .ok (p : SegmentLine × _).2 ∧
          (p : SegmentLine × _).2 ≠ [] := by
      intro p hp
      obtain ⟨n, -, he⟩ := List.mem_filterMap.mp hp
      cases hlk : tree.lookup n with
      | none =>
        rw [hlk] at he
        cases he
      | some val =>
        rw [hlk] at he
        obtain ⟨segSchema, m2, hcl, hval, hrep, -, -, -, hmne, hD⟩ := hfull n val hlk
        cases he
        refine ⟨segSchema, hcl, hrep, ?_, ?_⟩
        · have hfe : (n : Str) :: c1slots ((schema.Segments.lookup n).getD
              ⟨[], false⟩).Fields (vmapOf val) =
              n :: c1slots segSchema.Fields m2 := by
            rw [hcl, hval]
            rfl
          have := hD (⟨n, n :: c1slots ((schema.Segments.lookup n).getD
              ⟨[], false⟩).Fields (vmapOf val), ['|'],
              "^~\\&".data⟩ : SegmentLine) rfl hfe rfl
          rw [this]
          show Except.ok m2 = Except.ok (vmapOf val)
          rw [hval]
          rfl
        · show vmapOf val ≠ []
          rw [hval]
          exact hmne
    have hprsnd : (((marshalSegmentOrder schema).filterMap
        (fun n => (tree.lookup n).map
          (fun val => ((⟨n, n :: c1slots ((schema.Segments.lookup n).getD
              ⟨[], false⟩).Fields (vmapOf val), ['|'],
              "^~\\&".data⟩ : SegmentLine), vmapOf val)))).map
        (fun p => p.1.name)).Nodup := by
      rw [filterMap_lookup_keymap (marshalSegmentOrder schema) tree
        (fun n val => ((⟨n, n :: c1slots ((schema.Segments.lookup n).getD
            ⟨[], false⟩).Fields (vmapOf val), ['|'],
            "^~\\&".data⟩ : SegmentLine), vmapOf val))
        (fun p => p.1.name) (fun k v => rfl)]
      exact List.Nodup.sublist (List.filter_sublist _) hordernd
    have hdecseg := c1_decodeSegments schema
      ((marshalSegmentOrder schema).filterMap
        (fun n => (tree.lookup n).map
          (fun val => ((⟨n, n :: c1slots ((schema.Segments.lookup n).getD
              ⟨[], false⟩).Fields (vmapOf val), ['|'],
              "^~\\&".data⟩ : SegmentLine), vmapOf val)))) []
      hprsfact hprsnd (fun p _ => rfl)
    refine ⟨((marshalSegmentOrder schema).filterMap
      (fun n => (tree.lookup n).map
        (fun val => ((⟨n, n :: c1slots ((schema.Segments.lookup n).getD
            ⟨[], false⟩).Fields (vmapOf val), ['|'],
            "^~\\&".data⟩ : SegmentLine), vmapOf val)))).map
        (fun p => (p.1.name, GoVal.vmap p.2)), ?_, ?_, ?_⟩
    · rw [hM, hglue]
    · have hU : UnmarshalWithSchema (List.intercalate ['\r']
          ((marshalSegmentOrder schema).filterMap
            (fun n => (tree.lookup n).map (c1lineOf schema n)))) schema =
          (parseMessage (List.intercalate ['\r']
            ((marshalSegmentOrder schema).filterMap
              (fun n => (tree.lookup n).map (c1lineOf schema n))))).bind
            (fun segs => decodeSegments schema segs []) := rfl
      rw [hU, hPM]
      show decodeSegments schema _ [] = _
      rw [hrecs, hdecseg]
      rw [List.nil_append]
    · have htree2 : (((marshalSegmentOrder schema).filterMap
          (fun n => (tree.lookup n).map
            (fun val => ((⟨n, n :: c1slots ((schema.Segments.lookup n).getD
                ⟨[], false⟩).Fields (vmapOf val), ['|'],
                "^~\\&".data⟩ : SegmentLine), vmapOf val)))).map
          (fun p => (p.1.name, GoVal.vmap p.2))) =
          (marshalSegmentOrder schema).filterMap
            (fun n => (tree.lookup n).map ((n, ·))) := by
        rw [List.map_filterMap]
        refine filterMap_congr_mem fun n _ => ?_
        cases hlk : tree.lookup n with
        | none => rfl
        | some val =>
          obtain ⟨segSchema, m2, hcl, hval, -⟩ := htreefact n val hlk
          rw [hval]
          rfl
      rw [htree2]
      refine filterMap_lookup_lookup (marshalSegmentOrder schema) tree hordernd ?_
      intro k hk
      obtain ⟨q, hqmem, hfst⟩ := List.mem_map.mp hk
      have hql : tree.lookup q.1 = some q.2 := alookup_of_mem_nodup htnd hqmem
      obtain ⟨segSchema, m2, hcl, -⟩ := htreefact q.1 q.2 hql
      rw [horder, ← hfst]
      exact List.mem_map_of_mem Prod.fst (lookup_mem_of_eq_some hcl)

/-! ### C1: counterexample schema and witness scenario -/

def c1xSchema : MessageSchema :=
  ⟨[("MSH".data, ⟨[("enc", .mk 2 .tstring [] none),
                   ("app", .mk 3 .tstring [] none)], false⟩)]⟩

/-- Projection of a string-typed field out of a decoded tree. -/
def segStrField (tree : List (Str × GoVal)) (n : Str) (k : String) : Str :=
  match tree.lookup n with
  | some (.vmap m) =>
    match m.lookup k with
    | some (.vstr s) => s
    | _ => []
  | _ => []

/-- Counterexample to claim C1 as stated: the round trip is not the
identity on the first decode's non-empty fields.  The header's
encoding-characters field MSH-2 decodes to the message's own characters
but is re-encoded from the marshal options, so the second decode returns
a different value for a field that was non-empty in the source. -/
theorem C1_counterexample :
    ∃ t1 out t2,
      UnmarshalWithSchema "MSH|@~\\&|A".data c1xSchema = .ok t1 ∧
      MarshalWithSchema t1 c1xSchema = .ok out ∧
      UnmarshalWithSchema out c1xSchema = .ok t2 ∧
      segStrField t1 "MSH".data "enc" = "@~\\&".data ∧
      segStrField t2 "MSH".data "enc" = "^~\\&".data ∧
      segStrField t1 "MSH".data "enc" ≠ segStrField t2 "MSH".data "enc" :=
  ⟨_, _, _, rfl, rfl, rfl, rfl, rfl, by decide⟩

def c1wSchema : MessageSchema :=
  ⟨[("PID".data, ⟨[("id", .mk 1 .tint [] none),
                   ("name", .mk 2 .tobject
                     [("family", .mk 1 .tstring [] none),
                      ("given", .mk 2 .tstring [] none)] none),
                   ("dob", .mk 3 .ttimestamp [] none),
                   ("active", .mk 4 .tbool [] none)], false⟩),
    ("PV1".data, ⟨[("cls", .mk 1 .tstring [] none)], false⟩)]⟩

def c1wData : Str := "PV1|O\rPID|123|Doe^John|19850510|Y".data

def c1wTree : List (Str × GoVal) :=
  [("PV1".data, .vmap [("cls", .vstr "O".data)]),
   ("PID".data, .vmap [("id", .vint 123),
     ("name", .vmap [("family", .vstr "Doe".data), ("given", .vstr "John".data)]),
     ("dob", .vtime ⟨1985, 5, 10, 0, 0, 0, 0, 0⟩),
     ("active", .vbool true)])]

/-- Witness for the amended claim C1: a two-segment message (in the
opposite of schema order) with int, object, timestamp and bool fields
decodes, conforms, and round-trips with identical lookups. -/
theorem C1_roundtrip_restricted_witness :
    UnmarshalWithSchema c1wData c1wSchema = .ok c1wTree ∧
    schemaRTOK c1wSchema = true ∧
    treeOK c1wSchema c1wTree = true ∧
    ∃ out tree2,
      MarshalWithSchema c1wTree c1wSchema = .ok out ∧
      UnmarshalWithSchema out c1wSchema = .ok tree2 ∧
      ∀ name, tree2.lookup name = c1wTree.lookup name :=
  ⟨rfl, by decide, by decide,
    C1_roundtrip_restricted c1wData c1wSchema c1wTree rfl (by decide) (by decide)⟩

end HL7
